import Mathlib

/-!
# NIST evaluator (`src/lib/NISTEvaluator.cc`)

A shallow embedding of `MTEval::NISTEvaluator` and proofs about it.

Modelling conventions.

* A `Sentence` is a list of tokens; the token type `W` only needs decidable equality.
* `std::map<Sentence, int>` is a total function `Sentence W → Int`: `operator[]` value-initialises
  a missing key to `0`, so a missing key and a key holding `0` are the same count.
* C++ `int` is `Int`; signed overflow is undefined behaviour in C++ and is not modelled.
* C++ `double` is a type parameter `F` carrying the operations the code uses (`DoubleArith`),
  written `fadd`, `fdiv`, `flog`, ... in the code below.
  The functions are written once, for every `F`. Three arithmetics instantiate it: `ℝ` (exact,
  with the conventions of `Real` at `x / 0` and `log 0`), `XReal` (exact on finite values, with
  the infinities and NaN of IEEE 754) and `B64` (binary64 with rounding to nearest).
* `std::vector` is a `List`; an index past the end (undefined behaviour in C++) and an exception
  are values of `Failure` returned through `Except`.
* The class declaration (`mteval/NISTEvaluator.h`) is not among the sources. The member types are
  read off their uses in `NISTEvaluator.cc`: `int ngram_`, `map<Sentence, int> freq_`,
  `vector<double> numerators_`, `vector<int> denominators_`, `int total_len_ref_`,
  `int total_len_hyp_`.
-/

namespace MTEval

/-! ## Data model -/

/-- A sentence is a finite sequence of tokens. -/
abbrev Sentence (W : Type) := List W

/-- The operations of the C++ type `double` that `NISTEvaluator` uses: conversion from `int`
(also used for the literals `0.0`, `1.0`, `2.0`, `3.0`), `+ - * /`, unary minus, `<`, `std::log`
and `std::exp`. -/
class DoubleArith (F : Type) where
  /-- The conversion `static_cast<double>(z)`, also implicit on an `int` operand -/
  ofInt : Int → F
  /-- The sum `a + b` -/
  fadd : F → F → F
  /-- The difference `a - b` -/
  fsub : F → F → F
  /-- The product `a * b` -/
  fmul : F → F → F
  /-- The quotient `a / b` -/
  fdiv : F → F → F
  /-- The negation `-a` -/
  fneg : F → F
  /-- The comparison `a < b` -/
  flt : F → F → Bool
  /-- The function `std::log` -/
  flog : F → F
  /-- The function `std::exp` -/
  fexp : F → F

/-- The real numbers as the idealised `double`. Division by zero and the logarithm of a
non-positive number follow the conventions of `Real` (`x / 0 = 0`, `Real.log 0 = 0`,
`Real.log (-x) = Real.log x`), where IEEE arithmetic has infinities and NaN. -/
noncomputable instance realArith : DoubleArith ℝ where
  ofInt z := (z : ℝ)
  fadd a b := a + b
  fsub a b := a - b
  fmul a b := a * b
  fdiv a b := a / b
  fneg a := -a
  flt a b := decide (a < b)
  flog := Real.log
  fexp := Real.exp

/-! ### Exact arithmetic with the special values of IEEE 754 -/

/-- The values of a `double` with the special values of IEEE 754 kept apart: a finite value
(idealised as a real number, so without rounding, overflow or underflow), `+inf`, `-inf` or
NaN. The two zeros are not told apart: `fin 0` stands for `+0.0`, which is the only zero the
code divides by (a converted `int` count). -/
inductive XReal where
  | fin (x : ℝ)
  | posInf
  | negInf
  | nan

namespace XReal

/-- The sum: `inf + (-inf)` is NaN, NaN absorbs. -/
noncomputable def add : XReal → XReal → XReal
  | fin x, fin y => fin (x + y)
  | fin _, posInf => posInf
  | fin _, negInf => negInf
  | fin _, nan => nan
  | posInf, fin _ => posInf
  | posInf, posInf => posInf
  | posInf, negInf => nan
  | posInf, nan => nan
  | negInf, fin _ => negInf
  | negInf, posInf => nan
  | negInf, negInf => negInf
  | negInf, nan => nan
  | nan, _ => nan

/-- The negation. -/
noncomputable def neg : XReal → XReal
  | fin x => fin (-x)
  | posInf => negInf
  | negInf => posInf
  | nan => nan

/-- An infinity with the sign of the real `x`; NaN for `x = 0`. -/
noncomputable def infOfSign (x : ℝ) : XReal :=
  if 0 < x then posInf else if x < 0 then negInf else nan

/-- The product: `0 * inf` is NaN, the sign of an infinite product is the product of the
signs. -/
noncomputable def mul : XReal → XReal → XReal
  | fin x, fin y => fin (x * y)
  | fin x, posInf => infOfSign x
  | fin x, negInf => infOfSign (-x)
  | fin _, nan => nan
  | posInf, fin y => infOfSign y
  | posInf, posInf => posInf
  | posInf, negInf => negInf
  | posInf, nan => nan
  | negInf, fin y => infOfSign (-y)
  | negInf, posInf => negInf
  | negInf, negInf => posInf
  | negInf, nan => nan
  | nan, _ => nan

/-- The quotient: a non-zero finite value over zero is an infinity with the sign of the
dividend, `0 / 0` and `inf / inf` are NaN, a finite value over an infinity is zero. -/
noncomputable def div : XReal → XReal → XReal
  | fin x, fin y => if y = 0 then infOfSign x else fin (x / y)
  | fin _, posInf => fin 0
  | fin _, negInf => fin 0
  | fin _, nan => nan
  | posInf, fin y => if y < 0 then negInf else posInf
  | posInf, posInf => nan
  | posInf, negInf => nan
  | posInf, nan => nan
  | negInf, fin y => if y < 0 then posInf else negInf
  | negInf, posInf => nan
  | negInf, negInf => nan
  | negInf, nan => nan
  | nan, _ => nan

/-- The comparison `a < b`: false whenever an operand is NaN. -/
noncomputable def lt : XReal → XReal → Bool
  | fin x, fin y => decide (x < y)
  | fin _, posInf => true
  | negInf, fin _ => true
  | negInf, posInf => true
  | _, _ => false

/-- The logarithm: `log 0 = -inf`, `log` of a negative value is NaN, `log inf = inf`. -/
noncomputable def log : XReal → XReal
  | fin x => if 0 < x then fin (Real.log x) else if x = 0 then negInf else nan
  | posInf => posInf
  | negInf => nan
  | nan => nan

/-- The exponential: `exp (-inf) = 0`, `exp inf = inf`. -/
noncomputable def exp : XReal → XReal
  | fin x => fin (Real.exp x)
  | posInf => posInf
  | negInf => fin 0
  | nan => nan

end XReal

/-- The type `XReal` as `double`: IEEE 754 special values, exact arithmetic on finite values. -/
noncomputable instance xrealArith : DoubleArith XReal where
  ofInt z := XReal.fin (z : ℝ)
  fadd := XReal.add
  fsub a b := XReal.add a (XReal.neg b)
  fmul := XReal.mul
  fdiv := XReal.div
  fneg := XReal.neg
  flt := XReal.lt
  flog := XReal.log
  fexp := XReal.exp

noncomputable instance XReal.instAdd : Add XReal := ⟨XReal.add⟩

noncomputable instance XReal.instZero : Zero XReal := ⟨XReal.fin 0⟩

/-- Addition on `XReal` is a commutative monoid with the zero `fin 0`. -/
noncomputable instance XReal.instAddCommMonoid : AddCommMonoid XReal where
  add_assoc a b c := by
    show XReal.add (XReal.add a b) c = XReal.add a (XReal.add b c)
    cases a <;> cases b <;> cases c <;> simp [XReal.add, add_assoc]
  zero_add a := by
    show XReal.add (XReal.fin 0) a = a
    cases a <;> simp [XReal.add]
  add_zero a := by
    show XReal.add a (XReal.fin 0) = a
    cases a <;> simp [XReal.add]
  add_comm a b := by
    show XReal.add a b = XReal.add b a
    cases a <;> cases b <;> simp [XReal.add, add_comm]
  nsmul := nsmulRec

/-! ### Binary64 with rounding -/

/-- A value of IEEE 754 binary64. A finite value is an integer number of units of `2^-1074`
(the smallest positive subnormal number): every finite `double` is such a multiple, below
`2^2098` units (`2^1024`) in magnitude. The two zeros are not told apart: `fin 0` stands for
`+0.0`, the only zero the code divides by (a converted `int` count). -/
inductive B64 where
  | fin (units : Int)
  | posInf
  | negInf
  | nan
  deriving DecidableEq

namespace B64

/-- The integer nearest to `p / d`, ties to the even one (`d > 0`). -/
def roundHalfEven (p : Int) (d : Nat) : Int :=
  let q := p / (d : Int)
  let r := p % (d : Int)
  if 2 * r < (d : Int) then q else if (d : Int) < 2 * r then q + 1
  else if q % 2 = 0 then q else q + 1

/-- The number of halvings that bring `q` below `2^53`: the number of bits by which the whole
part `q` of a quotient exceeds the 53 significant bits of binary64. The search stops after
`fuel` halvings. -/
def excessBits : Nat → Nat → Nat
  | 0, _ => 0
  | fuel + 1, q => if q < 2 ^ 53 then 0 else excessBits fuel (q / 2) + 1

/-- The number of units nearest to the exact value `p / d` units (`d > 0`) among the values with
53 significant bits, ties to even: below `2^53` units these are the whole numbers of units
(the subnormal numbers and the first two binades); from `2^e` units on, with `e >= 53`, they
are the multiples of `2^(e - 52)`. The exponent is not bounded here; `2048` halvings reach
every quotient below `2^2101` units, and a larger one overflows however it is rounded. -/
def roundRatio (p : Int) (d : Nat) : Int :=
  let g := 2 ^ excessBits 2048 (p.natAbs / d)
  roundHalfEven p (d * g) * (g : Int)

/-- The binary64 value of the exact value `p / d` units (`d > 0`), rounded to nearest, ties to
even: a rounded magnitude of `2^2098` units (`2^1024`) or more overflows to an infinity. -/
def round (p : Int) (d : Nat) : B64 :=
  let u := roundRatio p d
  if ((2 ^ 2098 : Nat) : Int) ≤ u then posInf
  else if u ≤ -((2 ^ 2098 : Nat) : Int) then negInf
  else fin u

/-- An infinity with the sign of `a`; NaN for `a = 0`. -/
def infOfSign (a : Int) : B64 :=
  if 0 < a then posInf else if a < 0 then negInf else nan

/-- The sum: the exact sum rounded; `inf + (-inf)` is NaN, NaN absorbs. -/
def add : B64 → B64 → B64
  | fin a, fin b => round (a + b) 1
  | fin _, posInf => posInf
  | fin _, negInf => negInf
  | fin _, nan => nan
  | posInf, fin _ => posInf
  | posInf, posInf => posInf
  | posInf, negInf => nan
  | posInf, nan => nan
  | negInf, fin _ => negInf
  | negInf, posInf => nan
  | negInf, negInf => negInf
  | negInf, nan => nan
  | nan, _ => nan

/-- The negation. -/
def neg : B64 → B64
  | fin a => fin (-a)
  | posInf => negInf
  | negInf => posInf
  | nan => nan

/-- The product: the exact product rounded; `0 * inf` is NaN, the sign of an infinite product
is the product of the signs. -/
def mul : B64 → B64 → B64
  | fin a, fin b => round (a * b) (2 ^ 1074)
  | fin a, posInf => infOfSign a
  | fin a, negInf => infOfSign (-a)
  | fin _, nan => nan
  | posInf, fin b => infOfSign b
  | posInf, posInf => posInf
  | posInf, negInf => negInf
  | posInf, nan => nan
  | negInf, fin b => infOfSign (-b)
  | negInf, posInf => negInf
  | negInf, negInf => posInf
  | negInf, nan => nan
  | nan, _ => nan

/-- The quotient: the exact quotient rounded; a non-zero finite value over zero is an infinity
with the sign of the dividend, `0 / 0` and `inf / inf` are NaN, a finite value over an infinity
is zero. -/
def div : B64 → B64 → B64
  | fin a, fin b =>
    if b = 0 then infOfSign a
    else round (a * ((2 ^ 1074 : Nat) : Int) * b.sign) b.natAbs
  | fin _, posInf => fin 0
  | fin _, negInf => fin 0
  | fin _, nan => nan
  | posInf, fin b => if b < 0 then negInf else posInf
  | posInf, posInf => nan
  | posInf, negInf => nan
  | posInf, nan => nan
  | negInf, fin b => if b < 0 then posInf else negInf
  | negInf, posInf => nan
  | negInf, negInf => nan
  | negInf, nan => nan
  | nan, _ => nan

/-- The comparison `a < b`: false whenever an operand is NaN. -/
def lt : B64 → B64 → Bool
  | fin a, fin b => decide (a < b)
  | fin _, posInf => true
  | negInf, fin _ => true
  | negInf, posInf => true
  | _, _ => false

/-- The function `std::log` on binary64, at the arguments where its value is listed here:
`log(1.0) = 0.0`, `log(3.0) = 0x1.193ea7aad030bp+0` (`4947709893870347 * 2^-52`, the `double`
nearest to `ln 3`, see `logTable_three_nearest`), `log(0.0) = -inf`, `log(inf) = inf`, NaN for
`-inf` and NaN. At every other finite argument the function is not modelled, and this table
holds NaN there. -/
def logTable : B64 → B64
  | fin u =>
    if u = ((2 ^ 1074 : Nat) : Int) then fin 0
    else if u = ((3 * 2 ^ 1074 : Nat) : Int) then fin ((4947709893870347 * 2 ^ 1022 : Nat) : Int)
    else if u = 0 then negInf
    else nan
  | posInf => posInf
  | negInf => nan
  | nan => nan

/-- The function `std::exp` on binary64, at the arguments where its value is listed here:
`exp(0.0) = 1.0`, `exp(-inf) = 0.0`, `exp(inf) = inf`. At every other finite argument the
function is not modelled, and this table holds NaN there. -/
def expTable : B64 → B64
  | fin u => if u = 0 then fin ((2 ^ 1074 : Nat) : Int) else nan
  | posInf => posInf
  | negInf => fin 0
  | nan => nan

end B64

/-- The type `B64` as `double`: IEEE 754 binary64 with rounding to nearest, ties to even, of
every sum, difference, product, quotient and converted integer; `std::log` and `std::exp` are
the tables `B64.logTable` and `B64.expTable`. -/
instance b64Arith : DoubleArith B64 where
  ofInt z := B64.round (z * ((2 ^ 1074 : Nat) : Int)) 1
  fadd := B64.add
  fsub a b := B64.add a (B64.neg b)
  fmul := B64.mul
  fdiv := B64.div
  fneg := B64.neg
  flt := B64.lt
  flog := B64.logTable
  fexp := B64.expTable

/-! ### The scorer -/

/-- What a call can end in other than a normal return. -/
inductive Failure where
  /-- The exception of `throw runtime_error("evaluator is not prepared")` -/
  | notPrepared
  /-- The exception `std::length_error` of `vector::assign` with a count above `max_size()` -/
  | lengthError
  /-- The use of `vector::operator[]` with an index past the end (undefined behaviour) -/
  | outOfRange
  deriving DecidableEq, Repr

/-- One element of the constructor's parameter list (`EvaluatorParam`); the constructor reads
`name` and `int_val` only. -/
structure EvaluatorParam where
  name : String
  int_val : Int
  deriving DecidableEq, Repr

/-- The data members of `NISTEvaluator`. -/
structure NISTEvaluator (W F : Type) where
  ngram_ : Int
  freq_ : Sentence W → Int
  numerators_ : List F
  denominators_ : List Int
  total_len_ref_ : Int
  total_len_hyp_ : Int

/-! ## Library operations used by the code -/

section Ops

variable {W F : Type}

/-- Modelled from the spec: `Utility::makeNGram` is declared in `mteval/utils.h` and defined
outside `NISTEvaluator.cc`. `makeNGram sent k n` is the window of `n` tokens of `sent` that
starts at position `k` (the spec's "length-n window", "n-gram of length n+1 and its n-length
prefix context"). -/
def makeNGram (sent : Sentence W) (k n : Nat) : Sentence W :=
  (sent.drop k).take n

/-- The map `m` after `m[key] += d`. -/
def mapAdd [DecidableEq W] (m : Sentence W → Int) (key : Sentence W) (d : Int) :
    Sentence W → Int :=
  fun g => if g = key then m g + d else m g

/-- The vector `v` after `v[n] = f(v[n])`. -/
def vecUpdate {α : Type} (v : List α) (n : Nat) (f : α → α) : Except Failure (List α) :=
  match v[n]? with
  | some x => .ok (v.set n (f x))
  | none => .error .outOfRange

/-- The value of `v[n]`. -/
def vecGet {α : Type} (v : List α) (n : Nat) : Except Failure α :=
  match v[n]? with
  | some x => .ok x
  | none => .error .outOfRange

/-- The vector after `assign(n, x)` with an `int` count `n`: a negative count converts to a
`size_type` above `max_size()`. -/
def vecAssign {α : Type} (n : Int) (x : α) : Except Failure (List α) :=
  if n < 0 then .error .lengthError else .ok (List.replicate n.toNat x)

end Ops

/-! ## The member functions -/

section Code

variable {W F : Type}

open DoubleArith

/-- The member function `NISTEvaluator::resetCumulative` (lines 95-100). -/
def resetCumulative [DoubleArith F] (s : NISTEvaluator W F) :
    Except Failure (NISTEvaluator W F) := do
  let numerators ← vecAssign s.ngram_ (ofInt 0 : F)
  let denominators ← vecAssign s.ngram_ (0 : Int)
  pure { s with
    numerators_ := numerators
    denominators_ := denominators
    total_len_ref_ := 0
    total_len_hyp_ := 0 }

/-- The loop of the constructor over `params` (lines 15-17), started at the value `ngram`. -/
def readNgram (params : List EvaluatorParam) (ngram : Int) : Int :=
  params.foldl (fun ng p => if p.name = "ngram" then p.int_val else ng) ngram

/-- The constructor `NISTEvaluator::NISTEvaluator` (lines 11-20): `ngram_(5)`, the parameter
loop, then `resetCumulative()`. The containers start empty; the two length totals have no
initialiser and are first assigned by `resetCumulative()`. -/
def NISTEvaluator.create [DoubleArith F] (params : List EvaluatorParam) :
    Except Failure (NISTEvaluator W F) :=
  resetCumulative
    { ngram_ := readNgram params 5
      freq_ := fun _ => 0
      numerators_ := []
      denominators_ := []
      total_len_ref_ := 0
      total_len_hyp_ := 0 }

/-- The inner loop of `prepare` and the first inner loop of `calculate` (lines 27-29 and 51-53):
`for (k = 0; k + n < len; ++k) ++m[makeNGram(sent, k, n + 1)]`. -/
def countNGrams [DecidableEq W] (sent : Sentence W) (n : Nat) (m : Sentence W → Int) :
    Sentence W → Int :=
  (List.range (sent.length - n)).foldl (fun m k => mapAdd m (makeNGram sent k (n + 1)) 1) m

/-- The member function `NISTEvaluator::prepare` (lines 24-33). The second argument is not used
by the code. -/
def prepare [DecidableEq W] (s : NISTEvaluator W F) (reference : Sentence W)
    (_hypothesis : Sentence W) : NISTEvaluator W F :=
  let len_ref : Nat := reference.length
  let freq := (List.range s.ngram_.toNat).foldl (fun m n => countNGrams reference n m) s.freq_
  { s with freq_ := mapAdd freq [] (len_ref : Int) }

/-- One turn of the loop over the hypothesis positions in `calculate` (lines 56-62), at order
index `n` and position `k`, on the local map `possible` and the vector `numerators_`. -/
def matchStep [DecidableEq W] [DoubleArith F] (freq : Sentence W → Int)
    (hypothesis : Sentence W) (n : Nat) (st : (Sentence W → Int) × List F) (k : Nat) :
    Except Failure ((Sentence W → Int) × List F) :=
  let ngram := makeNGram hypothesis k (n + 1)
  let context := makeNGram hypothesis k n
  if 0 < st.1 ngram then do
    let numerators ← vecUpdate st.2 n
      (fun x => fadd x (flog (fdiv (ofInt (freq context)) (ofInt (freq ngram)))))
    pure (mapAdd st.1 ngram (-1), numerators)
  else
    pure st

/-- One turn of the loop over the order index `n` in `calculate` (lines 48-64), on the local map
`possible` and the vectors `numerators_` and `denominators_`. -/
def orderStep [DecidableEq W] [DoubleArith F] (freq : Sentence W → Int)
    (reference hypothesis : Sentence W)
    (st : (Sentence W → Int) × List F × List Int) (n : Nat) :
    Except Failure ((Sentence W → Int) × List F × List Int) := do
  let len_hyp : Nat := hypothesis.length
  let denominators ← vecUpdate st.2.2 n (fun d => d + ((len_hyp : Int) - (n : Int)))
  let possible := countNGrams reference n st.1
  let r ← (List.range (len_hyp - n)).foldlM (matchStep freq hypothesis n) (possible, st.2.1)
  pure (r.1, r.2, denominators)

/-- The value of `max_n` in `calculate` (line 46): `len_hyp < ngram_ ? len_hyp : ngram_`; the loop
`for (n = 0; n < max_n; ++n)` makes `max_n.toNat` turns. -/
def maxOrder (ngram : Int) (len_hyp : Nat) : Int :=
  if (len_hyp : Int) < ngram then (len_hyp : Int) else ngram

/-- The member function `NISTEvaluator::calculate` (lines 35-65). -/
def calculate [DecidableEq W] [DoubleArith F] (s : NISTEvaluator W F)
    (reference hypothesis : Sentence W) : Except Failure (NISTEvaluator W F) :=
  if s.freq_ [] = 0 then .error .notPrepared
  else do
    let len_ref : Nat := reference.length
    let len_hyp : Nat := hypothesis.length
    let max_n := maxOrder s.ngram_ len_hyp
    let r ← (List.range max_n.toNat).foldlM (orderStep s.freq_ reference hypothesis)
      (fun _ => 0, s.numerators_, s.denominators_)
    pure { s with
      numerators_ := r.2.1
      denominators_ := r.2.2
      total_len_ref_ := s.total_len_ref_ + (len_ref : Int)
      total_len_hyp_ := s.total_len_hyp_ + (len_hyp : Int) }

/-- One turn of the loop of `getCumulative` (lines 77-81) on the running sum `np`. -/
def scoreStep [DoubleArith F] (s : NISTEvaluator W F) (log_2 : F) (np : F) (n : Nat) :
    Except Failure F := do
  let d ← vecGet s.denominators_ n
  if flt (ofInt 0) (ofInt d : F) then do
    let x ← vecGet s.numerators_ n
    pure (fadd np (fdiv x (fmul (ofInt d) log_2)))
  else
    pure np

/-- The brevity penalty of `getCumulative` (lines 84-89). -/
def brevityPenalty [DoubleArith F] (s : NISTEvaluator W F) (beta : F) : F :=
  if flt (ofInt 0) (ofInt s.total_len_ref_ : F) then
    let bp : F := fdiv (ofInt s.total_len_hyp_) (ofInt s.total_len_ref_)
    let bp : F := flog (if flt bp (ofInt 1) then bp else ofInt 1)
    fexp (fmul (fmul beta bp) bp)
  else
    ofInt 1

/-- The member function `NISTEvaluator::getCumulative` (lines 67-93). -/
def getCumulative [DoubleArith F] (s : NISTEvaluator W F) : Except Failure F := do
  let log_2 : F := flog (ofInt 2)
  let base : F := fsub (flog (ofInt 3)) log_2
  let beta : F := fdiv (fneg log_2) (fmul base base)
  let np ← (List.range s.ngram_.toNat).foldlM (scoreStep s log_2) (ofInt 0)
  let bp := brevityPenalty s beta
  pure (fmul np bp)

/-- The member function `NISTEvaluator::getName` (lines 102-104). -/
def getName (_s : NISTEvaluator W F) : String := "NIST"

/-! ## Sequences of calls -/

/-- One call of a member function from outside. -/
inductive Call (W : Type) where
  | prepare (reference hypothesis : Sentence W)
  | calculate (reference hypothesis : Sentence W)
  | getCumulative
  | resetCumulative

/-- The object after one call. The "not prepared" exception is thrown on line 36, before
`calculate` has assigned to any member, so a caller that catches it goes on with the object as it
was; the other failures end the run. -/
def step [DecidableEq W] [DoubleArith F] (s : NISTEvaluator W F) :
    Call W → Except Failure (NISTEvaluator W F)
  | .prepare r h => .ok (prepare s r h)
  | .calculate r h =>
    match calculate s r h with
    | .ok s1 => .ok s1
    | .error .notPrepared => .ok s
    | .error e => .error e
  | .getCumulative =>
    match getCumulative s with
    | .ok _ => .ok s
    | .error e => .error e
  | .resetCumulative => resetCumulative s

/-- The object after a sequence of calls, made in order. -/
def run [DecidableEq W] [DoubleArith F] (s : NISTEvaluator W F) :
    List (Call W) → Except Failure (NISTEvaluator W F)
  | [] => .ok s
  | c :: cs =>
    match step s c with
    | .ok s1 => run s1 cs
    | .error e => .error e

/-- The reference sentences passed to `prepare` in a sequence of calls, in order. -/
def preparedRefs : List (Call W) → List (Sentence W)
  | [] => []
  | .prepare r _ :: cs => r :: preparedRefs cs
  | _ :: cs => preparedRefs cs

/-- The total length of the sentences of a list. -/
def totalLength (l : List (Sentence W)) : Nat := (l.map List.length).sum

end Code

/-! ## Definitions used in the statements -/

section SpecDefs

variable {W F : Type}

open DoubleArith

/-- The windows of `n + 1` tokens of `sent`, one for each start position, in order: the n-grams
that the loops `for (k = 0; k + n < len; ++k)` visit at order index `n`. -/
def ngramsOf (sent : Sentence W) (n : Nat) : List (Sentence W) :=
  (List.range (sent.length - n)).map (fun k => makeNGram sent k (n + 1))

/-- The number of start positions `k` at which `g` occurs as a contiguous window of `r`. -/
def occurrences [DecidableEq W] (g r : Sentence W) : Nat :=
  ((List.range r.length).filter
    (fun k => decide (k + g.length ≤ r.length ∧ (r.drop k).take g.length = g))).length

/-- What `prepare` with maximum order `ngram` and reference `r` adds to the count of `g`. -/
def corpusDelta [DecidableEq W] (ngram : Int) (r g : Sentence W) : Int :=
  (if 1 ≤ g.length ∧ g.length ≤ ngram.toNat then (occurrences g r : Int) else 0)
    + (if g = [] then (r.length : Int) else 0)

/-- The information weight that `calculate` adds for a matched n-gram `g` at order index `n`:
`log(static_cast<double>(freq_[context]) / freq_[ngram])`, the context being the first `n`
tokens of `g`. -/
def weight [DoubleArith F] (freq : Sentence W → Int) (n : Nat) (g : Sentence W) : F :=
  flog (fdiv (ofInt (freq (g.take n))) (ofInt (freq g)))

/-- The n-grams of the list `gs` that find a remaining match, in order, when `p` holds the
matches still available. -/
def claimed [DecidableEq W] (p : Sentence W → Int) : List (Sentence W) → List (Sentence W)
  | [] => []
  | g :: gs => if 0 < p g then g :: claimed (mapAdd p g (-1)) gs else claimed p gs

/-- The matches still available after the n-grams of the list `gs` were looked up in order. -/
def leftover [DecidableEq W] (p : Sentence W → Int) : List (Sentence W) → Sentence W → Int
  | [] => p
  | g :: gs => if 0 < p g then leftover (mapAdd p g (-1)) gs else leftover p gs

/-- The value of `numerators_[n]` after the turn `n` of the loop of `calculate`, from its value
`x` before, for reference `r` and hypothesis `h`. -/
def gain [DecidableEq W] [DoubleArith F] (freq : Sentence W → Int) (r h : Sentence W) (n : Nat)
    (x : F) : F :=
  (claimed (fun g => ((ngramsOf r n).count g : Int)) (ngramsOf h n)).foldl
    (fun a g => fadd a (weight freq n g)) x

/-- The informational score `np` of `getCumulative` over the reals: the sum over the order
indices `n < ngram_` with `denominators_[n] > 0` of
`numerators_[n] / (denominators_[n] * ln 2)`. -/
noncomputable def infoScore (s : NISTEvaluator W ℝ) : ℝ :=
  ∑ n ∈ (Finset.range s.ngram_.toNat).filter (fun n => 0 < s.denominators_.getD n 0),
    s.numerators_.getD n 0 / ((s.denominators_.getD n 0 : ℝ) * Real.log 2)

/-- Both vectors hold exactly `ngram_` entries, and `ngram_` is not negative. -/
def Sized (s : NISTEvaluator W F) : Prop :=
  0 ≤ s.ngram_ ∧ s.numerators_.length = s.ngram_.toNat ∧
    s.denominators_.length = s.ngram_.toNat

/-- The entry 0 of `denominators_` is the hypothesis total, and `denominators_` does not
increase along the order index. -/
def Staircase (s : NISTEvaluator W F) : Prop :=
  s.denominators_[0]? = some s.total_len_hyp_ ∧
    ∀ (n : Nat) (a b : Int), s.denominators_[n]? = some a → s.denominators_[n + 1]? = some b →
      b ≤ a

/-- No entry of `denominators_` is negative. -/
def DenominatorsNonneg (s : NISTEvaluator W F) : Prop :=
  ∀ (n : Nat) (d : Int), s.denominators_[n]? = some d → 0 ≤ d

/-- The table holds, for every n-gram, the sum over the references `H` of what `prepare` adds
for each. -/
def TableOf [DecidableEq W] (H : List (Sentence W)) (s : NISTEvaluator W F) : Prop :=
  ∀ g : Sentence W, s.freq_ g = (H.map (fun r => corpusDelta s.ngram_ r g)).sum

/-- The n-grams of the hypothesis `h` that `calculate(r, h)` matches at order index `n`, in the
order of the walk: the ones whose information weight is added to `numerators_[n]`. -/
def matchedNGrams [DecidableEq W] (r h : Sentence W) (n : Nat) : List (Sentence W) :=
  claimed (fun g => ((ngramsOf r n).count g : Int)) (ngramsOf h n)

/-- Every reference given to `calculate` in the calls was given to `prepare` before: it is in
`H`, the references prepared so far, or in an earlier `prepare` call of the list. -/
def refsPrepared : List (Sentence W) → List (Call W) → Prop
  | _, [] => True
  | H, .prepare r _ :: cs => refsPrepared (H ++ [r]) cs
  | H, .calculate r _ :: cs => r ∈ H ∧ refsPrepared H cs
  | H, .getCumulative :: cs => refsPrepared H cs
  | H, .resetCumulative :: cs => refsPrepared H cs

/-- The value of `numerators_[0]` after `prepare(S)` and `calculate(S, S)` on a fresh scorer,
over the reals: the sum over the distinct unigrams `g` of `S` of
`occurrences(g) * ln(|S| / occurrences(g))`. -/
noncomputable def selfInfo [DecidableEq W] (S : Sentence W) : ℝ :=
  ∑ g ∈ (ngramsOf S 0).toFinset,
    (occurrences g S : ℝ) * Real.log ((S.length : ℝ) / (occurrences g S : ℝ))

/-- The constant `beta` of `getCumulative` (lines 71-73): `-log_2 / (base * base)` with
`log_2 = log(2.0)` and `base = log(3.0) - log_2`. -/
def nistBeta [DoubleArith F] : F :=
  fdiv (fneg (flog (ofInt 2)))
    (fmul (fsub (flog (ofInt 3)) (flog (ofInt 2))) (fsub (flog (ofInt 3)) (flog (ofInt 2))))

/-- Every entry of `numerators_` is a finite value that is not negative. -/
def NumeratorsFinite (s : NISTEvaluator W XReal) : Prop :=
  ∀ (n : Nat) (x : XReal), s.numerators_[n]? = some x → ∃ v : ℝ, x = XReal.fin v ∧ 0 ≤ v

/-- Neither length total is negative. -/
def TotalsNonneg (s : NISTEvaluator W F) : Prop :=
  0 ≤ s.total_len_ref_ ∧ 0 ≤ s.total_len_hyp_

end SpecDefs

/-! ## Concrete scorers used to instantiate the theorems -/

section Examples

open DoubleArith

/-- The scorer that the constructor returns for the parameter list `[ngram = 2]`. -/
noncomputable def exFresh : NISTEvaluator String ℝ :=
  { ngram_ := 2
    freq_ := fun _ => 0
    numerators_ := [ofInt 0, ofInt 0]
    denominators_ := [0, 0]
    total_len_ref_ := 0
    total_len_hyp_ := 0 }

/-- The reference sentence `a b c`. -/
def exRef : Sentence String := ["a", "b", "c"]

/-- The hypothesis sentence `a b`. -/
def exHyp : Sentence String := ["a", "b"]

/-- The scorer `exFresh` after `prepare` of the reference `a b c`. -/
noncomputable def exPrepared : NISTEvaluator String ℝ := prepare exFresh exRef []

/-- The scorer `exPrepared` after `calculate` of the reference `a b c` and the hypothesis
`a b`. -/
noncomputable def exScored : NISTEvaluator String ℝ :=
  { ngram_ := 2
    freq_ := exPrepared.freq_
    numerators_ := [2 * Real.log 3, 0]
    denominators_ := [2, 1]
    total_len_ref_ := 3
    total_len_hyp_ := 2 }

/-- The scorer `exScored` with a hypothesis total equal to the reference total. -/
noncomputable def exEven : NISTEvaluator String ℝ :=
  { exScored with total_len_hyp_ := 3 }

/-- The scorer that the constructor returns for `[ngram = 2]`, with `XReal` as `double`. -/
noncomputable def exFreshX : NISTEvaluator String XReal :=
  { ngram_ := 2
    freq_ := fun _ => 0
    numerators_ := [ofInt 0, ofInt 0]
    denominators_ := [0, 0]
    total_len_ref_ := 0
    total_len_hyp_ := 0 }

/-- The scorer `exFreshX` after `prepare` of the reference `a b c`. -/
noncomputable def exPreparedX : NISTEvaluator String XReal := prepare exFreshX exRef []

/-- The scorer that the constructor returns for `[ngram = 2]`, with `B64` as `double`. -/
def exFreshB : NISTEvaluator String B64 :=
  { ngram_ := 2
    freq_ := fun _ => 0
    numerators_ := [ofInt 0, ofInt 0]
    denominators_ := [0, 0]
    total_len_ref_ := 0
    total_len_hyp_ := 0 }

/-- The scorer `exFreshB` after `prepare` of the reference `a b c`. -/
def exPreparedB : NISTEvaluator String B64 := prepare exFreshB exRef []

end Examples

/-! ## Lemmas -/

section Lemmas

variable {W F : Type}

open DoubleArith


theorem mapAdd_apply [DecidableEq W] (m : Sentence W → Int) (key g : Sentence W) (d : Int) :
    mapAdd m key d g = if g = key then m g + d else m g := rfl

theorem foldl_mapAdd_one [DecidableEq W] (f : Nat → Sentence W) (l : List Nat)
    (m : Sentence W → Int) (g : Sentence W) :
    (l.foldl (fun m k => mapAdd m (f k) 1) m) g = m g + ((l.map f).count g : Int) := by
  induction l generalizing m with
  | nil => simp
  | cons a l ih =>
    simp only [List.foldl_cons, ih, mapAdd_apply, List.map_cons, List.count_cons]
    by_cases h : g = f a
    · subst h; simp; ring
    · have h2 : ¬ (f a = g) := fun e => h e.symm
      simp [h, h2]

theorem countNGrams_apply [DecidableEq W] (sent : Sentence W) (n : Nat) (m : Sentence W → Int)
    (g : Sentence W) :
    countNGrams sent n m g = m g + ((ngramsOf sent n).count g : Int) := by
  unfold countNGrams ngramsOf
  exact foldl_mapAdd_one _ _ _ _

theorem length_makeNGram (sent : Sentence W) (k n : Nat) (h : k + n ≤ sent.length) :
    (makeNGram sent k n).length = n := by
  simp [makeNGram]; omega

theorem length_of_mem_ngramsOf (sent g : Sentence W) (n : Nat) (h : g ∈ ngramsOf sent n) :
    g.length = n + 1 := by
  simp only [ngramsOf, List.mem_map, List.mem_range] at h
  obtain ⟨k, hk, rfl⟩ := h
  exact length_makeNGram _ _ _ (by omega)

theorem filter_range_extend (p : Nat → Bool) (b d : Nat) (hp : ∀ k, p k = true → k < b) :
    (List.range (b + d)).filter p = (List.range b).filter p := by
  induction d with
  | zero => rfl
  | succ d ih =>
    rw [← Nat.add_assoc, List.range_succ, List.filter_append, ih]
    have : p (b + d) = false := by
      cases hpb : p (b + d) with
      | false => rfl
      | true => have := hp _ hpb; omega
    simp [this]

theorem count_ngramsOf [DecidableEq W] (sent g : Sentence W) (n : Nat) :
    (ngramsOf sent n).count g = if g.length = n + 1 then occurrences g sent else 0 := by
  split
  · rename_i hg
    unfold ngramsOf occurrences
    rw [List.count_eq_countP, List.countP_map, List.countP_eq_length_filter]
    have hlen : sent.length = (sent.length - n) + (sent.length - (sent.length - n)) := by omega
    conv_rhs => rw [hlen]
    rw [filter_range_extend]
    · congr 1
      apply List.filter_congr
      intro k hk
      rw [List.mem_range] at hk
      have hle : k + (n + 1) ≤ sent.length := by omega
      rw [Bool.eq_iff_iff]
      simp [makeNGram, hg, hle]
    · intro k hk
      simp at hk
      omega
  · rename_i hg
    rw [List.count_eq_zero]
    intro hmem
    exact hg (length_of_mem_ngramsOf _ _ _ hmem)

theorem foldl_countNGrams_apply [DecidableEq W] (r : Sentence W) (l : List Nat)
    (m : Sentence W → Int) (g : Sentence W) :
    (l.foldl (fun m n => countNGrams r n m) m) g
      = m g + (l.map (fun n => ((ngramsOf r n).count g : Int))).sum := by
  induction l generalizing m with
  | nil => simp
  | cons a l ih =>
    simp only [List.foldl_cons, ih, countNGrams_apply, List.map_cons, List.sum_cons]
    ring

theorem sum_count_ngramsOf [DecidableEq W] (r g : Sentence W) (N : Nat) :
    ((List.range N).map (fun n => ((ngramsOf r n).count g : Int))).sum
      = if 1 ≤ g.length ∧ g.length ≤ N then (occurrences g r : Int) else 0 := by
  induction N with
  | zero =>
    have : ¬ (1 ≤ g.length ∧ g.length ≤ 0) := by omega
    rw [if_neg this]; rfl
  | succ N ih =>
    rw [List.range_succ, List.map_append, List.sum_append, ih]
    simp only [List.map_cons, List.map_nil, List.sum_cons, List.sum_nil, add_zero, count_ngramsOf]
    by_cases h1 : g.length = N + 1
    · have h2 : ¬ (1 ≤ g.length ∧ g.length ≤ N) := by omega
      have h3 : 1 ≤ g.length ∧ g.length ≤ N + 1 := by omega
      simp [h1]
    · by_cases h2 : 1 ≤ g.length ∧ g.length ≤ N
      · have h3 : 1 ≤ g.length ∧ g.length ≤ N + 1 := by omega
        simp [h1, h2, h3]
      · have h3 : ¬ (1 ≤ g.length ∧ g.length ≤ N + 1) := by omega
        simp [h1, h2, h3]

theorem prepare_freq [DecidableEq W] (s : NISTEvaluator W F) (r h g : Sentence W) :
    (prepare s r h).freq_ g = s.freq_ g + corpusDelta s.ngram_ r g := by
  simp only [prepare, mapAdd_apply, foldl_countNGrams_apply, sum_count_ngramsOf, corpusDelta]
  split <;> ring

theorem occurrences_nil_right [DecidableEq W] (g : Sentence W) : occurrences g [] = 0 := by
  simp [occurrences]

theorem calculate_unfold [DecidableEq W] [DoubleArith F] (s : NISTEvaluator W F)
    (r h : Sentence W) :
    calculate s r h =
      if s.freq_ [] = 0 then .error .notPrepared
      else
        match (List.range (maxOrder s.ngram_ h.length).toNat).foldlM (orderStep s.freq_ r h)
            (fun _ => 0, s.numerators_, s.denominators_) with
        | .ok x => .ok { s with
            numerators_ := x.2.1
            denominators_ := x.2.2
            total_len_ref_ := s.total_len_ref_ + (r.length : Int)
            total_len_hyp_ := s.total_len_hyp_ + (h.length : Int) }
        | .error e => .error e := by
  unfold calculate
  split
  · rfl
  · simp only [bind, Except.bind, pure, Except.pure]
    split <;> simp_all

theorem resetCumulative_unfold [DoubleArith F] (s : NISTEvaluator W F) :
    resetCumulative s =
      if s.ngram_ < 0 then .error .lengthError
      else .ok { s with
        numerators_ := List.replicate s.ngram_.toNat (ofInt 0 : F)
        denominators_ := List.replicate s.ngram_.toNat 0
        total_len_ref_ := 0
        total_len_hyp_ := 0 } := by
  unfold resetCumulative vecAssign
  split <;> rfl

theorem vecUpdate_error {α : Type} (v : List α) (n : Nat) (f : α → α) (e : Failure)
    (h : vecUpdate v n f = .error e) : e = .outOfRange := by
  unfold vecUpdate at h
  split at h <;> simp_all

theorem foldlM_error {σ α : Type} (f : σ → α → Except Failure σ)
    (hf : ∀ st a e, f st a = .error e → e = .outOfRange) (l : List α) (st : σ) (e : Failure)
    (h : l.foldlM f st = .error e) : e = .outOfRange := by
  induction l generalizing st with
  | nil => simp [pure, Except.pure] at h
  | cons a l ih =>
    rw [List.foldlM_cons] at h
    cases hfa : f st a with
    | error e1 =>
      rw [hfa] at h
      simp only [bind, Except.bind] at h
      cases h
      exact hf _ _ _ hfa
    | ok st1 =>
      rw [hfa] at h
      exact ih st1 h

theorem matchStep_unfold [DecidableEq W] [DoubleArith F] (freq : Sentence W → Int)
    (hyp : Sentence W) (n : Nat) (st : (Sentence W → Int) × List F) (k : Nat) :
    matchStep freq hyp n st k =
      if 0 < st.1 (makeNGram hyp k (n + 1)) then
        match vecUpdate st.2 n
          (fun x => fadd x (flog (fdiv (ofInt (freq (makeNGram hyp k n)))
            (ofInt (freq (makeNGram hyp k (n + 1))))))) with
        | .ok v => .ok (mapAdd st.1 (makeNGram hyp k (n + 1)) (-1), v)
        | .error e => .error e
      else .ok st := by
  unfold matchStep
  simp only [bind, Except.bind, pure, Except.pure]
  split
  · split <;> simp_all
  · rfl

theorem orderStep_unfold [DecidableEq W] [DoubleArith F] (freq : Sentence W → Int)
    (r hyp : Sentence W) (st : (Sentence W → Int) × List F × List Int) (n : Nat) :
    orderStep freq r hyp st n =
      match vecUpdate st.2.2 n (fun d => d + ((hyp.length : Int) - (n : Int))) with
      | .error e => .error e
      | .ok dens =>
        match (List.range (hyp.length - n)).foldlM (matchStep freq hyp n)
            (countNGrams r n st.1, st.2.1) with
        | .error e => .error e
        | .ok x => .ok (x.1, x.2, dens) := by
  unfold orderStep
  simp only [bind, Except.bind, pure, Except.pure]
  split
  · simp_all
  · simp_all
    split <;> simp_all

theorem matchStep_error [DecidableEq W] [DoubleArith F] (freq : Sentence W → Int)
    (hyp : Sentence W) (n : Nat) (st : (Sentence W → Int) × List F) (k : Nat) (e : Failure)
    (h : matchStep freq hyp n st k = .error e) : e = .outOfRange := by
  rw [matchStep_unfold] at h
  split at h
  · split at h
    · cases h
    · rename_i e1 hv
      cases h
      exact vecUpdate_error _ _ _ _ hv
  · cases h

theorem orderStep_error [DecidableEq W] [DoubleArith F] (freq : Sentence W → Int)
    (r hyp : Sentence W) (st : (Sentence W → Int) × List F × List Int) (n : Nat) (e : Failure)
    (h : orderStep freq r hyp st n = .error e) : e = .outOfRange := by
  rw [orderStep_unfold] at h
  split at h
  · rename_i e1 hv
    cases h
    exact vecUpdate_error _ _ _ _ hv
  · split at h
    · rename_i e2 hm
      cases h
      exact foldlM_error _ (matchStep_error freq hyp n) _ _ _ hm
    · cases h

/-- The exception of `calculate` is decided by the count stored under the empty n-gram. -/
theorem calculate_notPrepared_iff [DecidableEq W] [DoubleArith F] (s : NISTEvaluator W F)
    (r h : Sentence W) :
    calculate s r h = .error .notPrepared ↔ s.freq_ [] = 0 := by
  rw [calculate_unfold]
  constructor
  · intro hc
    by_contra hne
    rw [if_neg hne] at hc
    split at hc
    · cases hc
    · rename_i e he
      have := foldlM_error _ (orderStep_error s.freq_ r h) _ _ _ he
      simp only [Except.error.injEq] at hc
      subst hc
      cases this
  · intro h0
    rw [if_pos h0]

theorem calculate_ok [DecidableEq W] [DoubleArith F] (s s1 : NISTEvaluator W F)
    (r h : Sentence W) (hc : calculate s r h = .ok s1) :
    s.freq_ [] ≠ 0 ∧
    ∃ x, (List.range (maxOrder s.ngram_ h.length).toNat).foldlM (orderStep s.freq_ r h)
        (fun _ => 0, s.numerators_, s.denominators_) = .ok x ∧
      s1 = { s with
        numerators_ := x.2.1
        denominators_ := x.2.2
        total_len_ref_ := s.total_len_ref_ + (r.length : Int)
        total_len_hyp_ := s.total_len_hyp_ + (h.length : Int) } := by
  rw [calculate_unfold] at hc
  split at hc
  · cases hc
  · rename_i hne
    refine ⟨hne, ?_⟩
    split at hc
    · rename_i x hx
      cases hc
      exact ⟨x, hx, rfl⟩
    · cases hc

theorem resetCumulative_ok [DoubleArith F] (s s1 : NISTEvaluator W F)
    (hr : resetCumulative s = .ok s1) :
    0 ≤ s.ngram_ ∧
    s1 = { s with
      numerators_ := List.replicate s.ngram_.toNat (ofInt 0 : F)
      denominators_ := List.replicate s.ngram_.toNat 0
      total_len_ref_ := 0
      total_len_hyp_ := 0 } := by
  rw [resetCumulative_unfold] at hr
  split at hr
  · cases hr
  · cases hr
    exact ⟨by omega, rfl⟩

theorem create_ok [DoubleArith F] (params : List EvaluatorParam) (s0 : NISTEvaluator W F)
    (h0 : NISTEvaluator.create params = .ok s0) :
    0 ≤ readNgram params 5 ∧
    s0 = { ngram_ := readNgram params 5
           freq_ := fun _ => 0
           numerators_ := List.replicate (readNgram params 5).toNat (ofInt 0 : F)
           denominators_ := List.replicate (readNgram params 5).toNat 0
           total_len_ref_ := 0
           total_len_hyp_ := 0 } := by
  unfold NISTEvaluator.create at h0
  have := resetCumulative_ok _ _ h0
  exact ⟨this.1, this.2⟩

theorem totalLength_cons (r : Sentence W) (l : List (Sentence W)) :
    totalLength (r :: l) = r.length + totalLength l := by
  simp [totalLength]

theorem totalLength_eq_zero (l : List (Sentence W)) :
    totalLength l = 0 ↔ ∀ r ∈ l, r = [] := by
  induction l with
  | nil => simp [totalLength]
  | cons a l ih =>
    rw [totalLength_cons, Nat.add_eq_zero_iff, ih]
    simp [List.length_eq_zero]

theorem step_frame [DecidableEq W] [DoubleArith F] (s s1 : NISTEvaluator W F) (c : Call W)
    (hs : step s c = .ok s1) :
    s1.ngram_ = s.ngram_ ∧
    s1.freq_ [] = s.freq_ [] + (totalLength (preparedRefs [c]) : Int) := by
  cases c with
  | prepare r h =>
    simp only [step, Except.ok.injEq] at hs
    subst hs
    refine ⟨rfl, ?_⟩
    simp [prepare_freq, corpusDelta, preparedRefs, totalLength]
  | calculate r h =>
    simp only [step] at hs
    split at hs
    · rename_i s2 hc
      cases hs
      obtain ⟨_, x, _, rfl⟩ := calculate_ok _ _ _ _ hc
      simp [preparedRefs, totalLength]
    · cases hs
      simp [preparedRefs, totalLength]
    · cases hs
  | getCumulative =>
    simp only [step] at hs
    split at hs
    · cases hs
      simp [preparedRefs, totalLength]
    · cases hs
  | resetCumulative =>
    simp only [step] at hs
    obtain ⟨_, rfl⟩ := resetCumulative_ok _ _ hs
    simp [preparedRefs, totalLength]

theorem preparedRefs_cons (c : Call W) (cs : List (Call W)) :
    totalLength (preparedRefs (c :: cs))
      = totalLength (preparedRefs [c]) + totalLength (preparedRefs cs) := by
  cases c <;> simp [preparedRefs, totalLength]

theorem run_frame [DecidableEq W] [DoubleArith F] (calls : List (Call W))
    (s s1 : NISTEvaluator W F) (hs : run s calls = .ok s1) :
    s1.ngram_ = s.ngram_ ∧
    s1.freq_ [] = s.freq_ [] + (totalLength (preparedRefs calls) : Int) := by
  induction calls generalizing s with
  | nil =>
    simp only [run, Except.ok.injEq] at hs
    subst hs
    simp [preparedRefs, totalLength]
  | cons c cs ih =>
    simp only [run] at hs
    split at hs
    · rename_i s2 h2
      obtain ⟨a1, a2⟩ := step_frame _ _ _ h2
      obtain ⟨b1, b2⟩ := ih _ hs
      refine ⟨by rw [b1, a1], ?_⟩
      have hc := preparedRefs_cons c cs
      omega
    · cases hs

theorem vecUpdate_eq {α : Type} (v : List α) (n : Nat) (f : α → α) :
    vecUpdate v n f = if n < v.length then .ok (v.modify f n) else .error .outOfRange := by
  unfold vecUpdate
  split
  · rename_i x hx
    have hlt : n < v.length := (List.getElem?_eq_some_iff.1 hx).1
    have hx2 : v[n] = x := (List.getElem?_eq_some_iff.1 hx).2
    rw [if_pos hlt, List.modify_eq_set_get f hlt, List.get_eq_getElem, hx2]
  · rename_i hx
    have : ¬ n < v.length := by
      rw [List.getElem?_eq_none_iff] at hx
      omega
    rw [if_neg this]

theorem take_makeNGram (h : Sentence W) (k n : Nat) :
    (makeNGram h k (n + 1)).take n = makeNGram h k n := by
  simp [makeNGram, List.take_take]

theorem matchLoop_spec [DecidableEq W] [DoubleArith F] (freq : Sentence W → Int)
    (h : Sentence W) (n : Nat) (l : List Nat) (p : Sentence W → Int) (nums : List F) :
    l.foldlM (matchStep freq h n) (p, nums) =
      if n < nums.length ∨ claimed p (l.map (fun k => makeNGram h k (n + 1))) = [] then
        .ok (leftover p (l.map (fun k => makeNGram h k (n + 1))),
          nums.modify (fun x => (claimed p (l.map (fun k => makeNGram h k (n + 1)))).foldl
            (fun a g => fadd a (weight freq n g)) x) n)
      else .error .outOfRange := by
  induction l generalizing p nums with
  | nil =>
    simp only [List.foldlM_nil, List.map_nil, claimed, leftover, or_true, if_true, List.foldl_nil]
    have : (fun x : F => x) = id := rfl
    rw [this, List.modify_id]
    rfl
  | cons k l ih =>
    rw [List.foldlM_cons, matchStep_unfold]
    simp only [List.map_cons, claimed, leftover]
    by_cases hp : 0 < p (makeNGram h k (n + 1))
    · simp only [hp, if_true, vecUpdate_eq]
      by_cases hn : n < nums.length
      · simp only [hn, if_true, true_or, bind, Except.bind]
        rw [ih]
        simp only [List.length_modify, hn, true_or, if_true, List.modify_modify_eq,
          List.foldl_cons]
        rw [← take_makeNGram h k n]
        rfl
      · simp [hn, bind, Except.bind]
    · simp only [hp, if_false, bind, Except.bind]
      exact ih p nums

theorem claimed_congr [DecidableEq W] (gs : List (Sentence W)) (p q : Sentence W → Int)
    (hpq : ∀ g ∈ gs, p g = q g) : claimed p gs = claimed q gs := by
  induction gs generalizing p q with
  | nil => rfl
  | cons a gs ih =>
    have ha : p a = q a := hpq a (List.mem_cons_self _ _)
    have hrest : ∀ g ∈ gs, mapAdd p a (-1) g = mapAdd q a (-1) g := by
      intro g hg
      simp only [mapAdd_apply, hpq g (List.mem_cons_of_mem _ hg)]
    have hrest2 : ∀ g ∈ gs, p g = q g := fun g hg => hpq g (List.mem_cons_of_mem _ hg)
    simp only [claimed, ha, ih _ _ hrest, ih _ _ hrest2]

theorem leftover_of_not_mem [DecidableEq W] (gs : List (Sentence W)) (p : Sentence W → Int)
    (g : Sentence W) (hg : g ∉ gs) : leftover p gs g = p g := by
  induction gs generalizing p with
  | nil => rfl
  | cons a gs ih =>
    have hne : g ≠ a := fun e => hg (e ▸ List.mem_cons_self _ _)
    have hg2 : g ∉ gs := fun hm => hg (List.mem_cons_of_mem _ hm)
    simp only [leftover]
    split
    · rw [ih _ hg2, mapAdd_apply, if_neg hne]
    · exact ih _ hg2

theorem count_claimed [DecidableEq W] (gs : List (Sentence W)) (p : Sentence W → Int)
    (g : Sentence W) : (claimed p gs).count g = min (gs.count g) (p g).toNat := by
  induction gs generalizing p with
  | nil => simp [claimed]
  | cons a gs ih =>
    simp only [claimed]
    by_cases hp : 0 < p a
    · simp only [hp, if_true, List.count_cons, ih, mapAdd_apply]
      by_cases hga : g = a
      · subst hga
        simp only [if_true, beq_self_eq_true]
        omega
      · have hag : ¬ (a = g) := fun e => hga e.symm
        simp [hga, hag]
    · simp only [hp, if_false, ih, List.count_cons]
      by_cases hga : g = a
      · subst hga
        simp only [beq_self_eq_true, if_true]
        omega
      · have hag : ¬ (a = g) := fun e => hga e.symm
        simp [hag]

theorem orderStep_spec [DecidableEq W] [DoubleArith F] (freq : Sentence W → Int)
    (r h : Sentence W) (p : Sentence W → Int) (nums : List F) (dens : List Int) (n : Nat) :
    orderStep freq r h (p, nums, dens) n =
      if n < dens.length ∧
          (n < nums.length ∨ claimed (countNGrams r n p) (ngramsOf h n) = []) then
        .ok (leftover (countNGrams r n p) (ngramsOf h n),
          nums.modify (fun x => (claimed (countNGrams r n p) (ngramsOf h n)).foldl
            (fun a g => fadd a (weight freq n g)) x) n,
          dens.modify (fun d => d + ((h.length : Int) - (n : Int))) n)
      else .error .outOfRange := by
  rw [orderStep_unfold, vecUpdate_eq]
  simp only [matchLoop_spec, ngramsOf]
  by_cases hd : n < dens.length
  · simp only [hd, if_true, true_and]
    by_cases hc : n < nums.length ∨ claimed (countNGrams r n p)
        (List.map (fun k => makeNGram h k (n + 1)) (List.range (h.length - n))) = []
    · simp only [hc, if_true]
    · simp only [hc, if_false]
  · simp [hd]

theorem claimed_countNGrams [DecidableEq W] (r h : Sentence W) (n : Nat)
    (p : Sentence W → Int) (hp : ∀ g : Sentence W, n < g.length → p g = 0) :
    claimed (countNGrams r n p) (ngramsOf h n)
      = claimed (fun g => ((ngramsOf r n).count g : Int)) (ngramsOf h n) := by
  apply claimed_congr
  intro g hg
  have hlen := length_of_mem_ngramsOf h g n hg
  rw [countNGrams_apply, hp g (by omega), zero_add]

theorem leftover_countNGrams [DecidableEq W] (r h : Sentence W) (n : Nat)
    (p : Sentence W → Int) (hp : ∀ g : Sentence W, n < g.length → p g = 0)
    (g : Sentence W) (hg : n + 1 < g.length) :
    leftover (countNGrams r n p) (ngramsOf h n) g = 0 := by
  have h1 : g ∉ ngramsOf h n := fun hm => by
    have := length_of_mem_ngramsOf h g n hm
    omega
  have h2 : g ∉ ngramsOf r n := fun hm => by
    have := length_of_mem_ngramsOf r g n hm
    omega
  rw [leftover_of_not_mem _ _ _ h1, countNGrams_apply, hp g (by omega),
    List.count_eq_zero.2 h2]
  rfl

theorem foldlM_range_succ {σ : Type} (f : σ → Nat → Except Failure σ) (init : σ) (M : Nat) :
    (List.range (M + 1)).foldlM f init =
      match (List.range M).foldlM f init with
      | .ok y => f y M
      | .error e => .error e := by
  rw [List.range_succ, List.foldlM_append]
  cases (List.range M).foldlM f init with
  | error e => rfl
  | ok y =>
    simp only [bind, Except.bind, List.foldlM_cons, List.foldlM_nil]
    cases f y M <;> rfl

/-- The loop of `calculate` over the order index, from a fresh `possible` map: what a normal
return leaves in `numerators_` and `denominators_`. -/
theorem orderLoop_spec [DecidableEq W] [DoubleArith F] (freq : Sentence W → Int)
    (r h : Sentence W) (nums : List F) (dens : List Int) (M : Nat)
    (x : (Sentence W → Int) × List F × List Int)
    (hx : (List.range M).foldlM (orderStep freq r h) (fun _ => 0, nums, dens) = .ok x) :
    (∀ g : Sentence W, M < g.length → x.1 g = 0) ∧
    x.2.1.length = nums.length ∧ x.2.2.length = dens.length ∧ M ≤ dens.length ∧
    (∀ j, x.2.1[j]? = if j < M then (nums[j]?).map (gain freq r h j) else nums[j]?) ∧
    (∀ j, x.2.2[j]? =
      if j < M then (dens[j]?).map (fun d => d + ((h.length : Int) - (j : Int))) else dens[j]?) := by
  induction M generalizing x with
  | zero =>
    simp only [List.range_zero, List.foldlM_nil, pure, Except.pure, Except.ok.injEq] at hx
    subst hx
    simp
  | succ M ih =>
    rw [foldlM_range_succ] at hx
    split at hx
    · rename_i y hy
      obtain ⟨i1, i2, i3, i4, i5, i6⟩ := ih y hy
      obtain ⟨p, ns, ds⟩ := y
      simp only at i1 i2 i3 i5 i6
      rw [orderStep_spec] at hx
      split at hx
      · rename_i hc
        simp only [Except.ok.injEq] at hx
        subst hx
        simp only
        refine ⟨?_, ?_, ?_, ?_, ?_, ?_⟩
        · intro g hg
          exact leftover_countNGrams r h M p i1 g hg
        · rw [List.length_modify, i2]
        · rw [List.length_modify, i3]
        · omega
        · intro j
          rw [List.getElem?_modify, i5, claimed_countNGrams r h M p i1]
          by_cases hj : j < M
          · have h1 : M ≠ j := by omega
            have h2 : j < M + 1 := by omega
            simp [hj, h1, h2]
          · by_cases hjM : M = j
            · subst hjM
              simp only [lt_irrefl, if_false, if_true, Functor.map]
              rw [if_pos (Nat.lt_succ_self M)]
              rfl
            · have h2 : ¬ j < M + 1 := by omega
              simp [hj, hjM, h2]
        · intro j
          rw [List.getElem?_modify, i6]
          by_cases hj : j < M
          · have h1 : M ≠ j := by omega
            have h2 : j < M + 1 := by omega
            simp [hj, h1, h2]
          · by_cases hjM : M = j
            · subst hjM
              simp
            · have h2 : ¬ j < M + 1 := by omega
              simp [hj, hjM, h2]
      · cases hx
    · cases hx

/-- The loop of `calculate` over the order index returns normally when both vectors have an
entry for every order index below the bound. -/
theorem orderLoop_ok [DecidableEq W] [DoubleArith F] (freq : Sentence W → Int)
    (r h : Sentence W) (nums : List F) (dens : List Int) (M : Nat)
    (hn : M ≤ nums.length) (hd : M ≤ dens.length) :
    ∃ x, (List.range M).foldlM (orderStep freq r h) (fun _ => 0, nums, dens) = .ok x := by
  induction M with
  | zero => exact ⟨_, rfl⟩
  | succ M ih =>
    obtain ⟨y, hy⟩ := ih (by omega) (by omega)
    obtain ⟨_, i2, i3, _, _, _⟩ := orderLoop_spec freq r h nums dens M y hy
    obtain ⟨p, ns, ds⟩ := y
    simp only at i2 i3
    rw [foldlM_range_succ, hy]
    simp only
    rw [orderStep_spec, if_pos ⟨by omega, Or.inl (by omega)⟩]
    exact ⟨_, rfl⟩

theorem maxOrder_eq_min (ngram : Int) (len_hyp : Nat) :
    maxOrder ngram len_hyp = min ngram (len_hyp : Int) := by
  unfold maxOrder
  split <;> omega

/-- What a normal return of `calculate` leaves in the object. -/
theorem calculate_spec [DecidableEq W] [DoubleArith F] (s s1 : NISTEvaluator W F)
    (r h : Sentence W) (hc : calculate s r h = .ok s1) :
    s.freq_ [] ≠ 0 ∧ s1.ngram_ = s.ngram_ ∧ s1.freq_ = s.freq_ ∧
    s1.total_len_ref_ = s.total_len_ref_ + (r.length : Int) ∧
    s1.total_len_hyp_ = s.total_len_hyp_ + (h.length : Int) ∧
    s1.numerators_.length = s.numerators_.length ∧
    s1.denominators_.length = s.denominators_.length ∧
    (∀ j : Nat, s1.numerators_[j]? =
      if (j : Int) < min s.ngram_ (h.length : Int) then
        (s.numerators_[j]?).map (gain s.freq_ r h j)
      else s.numerators_[j]?) ∧
    (∀ j : Nat, s1.denominators_[j]? =
      if (j : Int) < min s.ngram_ (h.length : Int) then
        (s.denominators_[j]?).map (fun d => d + ((h.length : Int) - (j : Int)))
      else s.denominators_[j]?) := by
  obtain ⟨hne, x, hx, rfl⟩ := calculate_ok s s1 r h hc
  obtain ⟨_, i2, i3, _, i5, i6⟩ := orderLoop_spec s.freq_ r h _ _ _ x hx
  refine ⟨hne, rfl, rfl, rfl, rfl, i2, i3, ?_, ?_⟩
  · intro j
    have : (j < (maxOrder s.ngram_ h.length).toNat) ↔ (j : Int) < min s.ngram_ (h.length : Int) := by
      rw [maxOrder_eq_min]; omega
    simp only [i5, this]
  · intro j
    have : (j < (maxOrder s.ngram_ h.length).toNat) ↔ (j : Int) < min s.ngram_ (h.length : Int) := by
      rw [maxOrder_eq_min]; omega
    simp only [i6, this]

/-- The call `calculate` returns normally on a prepared scorer whose vectors have an entry for every
order index that the call uses. -/
theorem calculate_succeeds [DecidableEq W] [DoubleArith F] (s : NISTEvaluator W F)
    (r h : Sentence W) (hp : s.freq_ [] ≠ 0)
    (hn : min s.ngram_ (h.length : Int) ≤ (s.numerators_.length : Int))
    (hd : min s.ngram_ (h.length : Int) ≤ (s.denominators_.length : Int)) :
    ∃ s1, calculate s r h = .ok s1 := by
  rw [← maxOrder_eq_min] at hn hd
  obtain ⟨x, hx⟩ := orderLoop_ok s.freq_ r h s.numerators_ s.denominators_
    (maxOrder s.ngram_ h.length).toNat (by omega) (by omega)
  rw [calculate_unfold, if_neg hp, hx]
  exact ⟨_, rfl⟩

/-! ### The real numbers as `double` -/

theorem real_ofInt (z : Int) : (ofInt z : ℝ) = (z : ℝ) := rfl
theorem real_fadd (a b : ℝ) : fadd a b = a + b := rfl
theorem real_fsub (a b : ℝ) : fsub a b = a - b := rfl
theorem real_fmul (a b : ℝ) : fmul a b = a * b := rfl
theorem real_fdiv (a b : ℝ) : fdiv a b = a / b := rfl
theorem real_fneg (a : ℝ) : fneg a = -a := rfl
theorem real_flog (a : ℝ) : flog a = Real.log a := rfl
theorem real_fexp (a : ℝ) : fexp a = Real.exp a := rfl
theorem real_flt (a b : ℝ) : flt a b = true ↔ a < b := by
  show decide (a < b) = true ↔ a < b
  simp

theorem weight_real (freq : Sentence W → Int) (n : Nat) (g : Sentence W) :
    (weight freq n g : ℝ) = Real.log ((freq (g.take n) : ℝ) / (freq g : ℝ)) := rfl

theorem foldl_fadd_real {α : Type} (w : α → ℝ) (l : List α) (x : ℝ) :
    l.foldl (fun a g => fadd a (w g)) x = x + (l.map w).sum := by
  induction l generalizing x with
  | nil => simp
  | cons a l ih =>
    rw [List.foldl_cons, ih, real_fadd, List.map_cons, List.sum_cons]
    ring

theorem count_decEq [DecidableEq W] (l : List (Sentence W)) (g : Sentence W) :
    @List.count (Sentence W) instBEqOfDecidableEq g l = l.count g := by
  unfold List.count
  apply List.countP_congr
  intro x _
  simp

theorem gain_real [DecidableEq W] (freq : Sentence W → Int) (r h : Sentence W) (n : Nat)
    (x : ℝ) (T : Finset (Sentence W)) (hT : ∀ g ∈ ngramsOf h n, g ∈ T)
    (hlen : ∀ g ∈ T, g.length = n + 1) :
    gain freq r h n x = x + ∑ g ∈ T, ((min (occurrences g h) (occurrences g r) : Nat) : ℝ)
        * Real.log ((freq (g.take n) : ℝ) / (freq g : ℝ)) := by
  unfold gain
  rw [foldl_fadd_real, Finset.sum_list_map_count]
  congr 1
  have hcount : ∀ g ∈ T,
      (claimed (fun g => ((ngramsOf r n).count g : Int)) (ngramsOf h n)).count g
        = min (occurrences g h) (occurrences g r) := by
    intro g hg
    simp only [count_claimed, count_ngramsOf, hlen g hg, if_true, Int.toNat_ofNat]
  have hsub : (claimed (fun g => ((ngramsOf r n).count g : Int)) (ngramsOf h n)).toFinset ⊆ T := by
    intro g hg
    rw [List.mem_toFinset] at hg
    have h1 : 0 < (claimed (fun g => ((ngramsOf r n).count g : Int)) (ngramsOf h n)).count g :=
      List.count_pos_iff.2 hg
    rw [count_claimed] at h1
    have h2 : 0 < (ngramsOf h n).count g := by omega
    exact hT g (List.count_pos_iff.1 h2)
  simp only [count_decEq]
  rw [Finset.sum_subset hsub]
  · apply Finset.sum_congr rfl
    intro g hg
    rw [hcount g hg, weight_real, nsmul_eq_mul]
  · intro g _ hg
    rw [List.mem_toFinset] at hg
    rw [List.count_eq_zero.2 hg, zero_smul]

/-! ### `getCumulative` -/


theorem vecGet_of_lt {α : Type} (v : List α) (n : Nat) (d : α) (h : n < v.length) :
    vecGet v n = .ok (v.getD n d) := by
  unfold vecGet
  rw [List.getD_eq_getElem?_getD, List.getElem?_eq_getElem h]
  rfl

/-- The term that the turn `n` of the loop of `getCumulative` adds to `np`. -/
theorem scoreStep_of_lt [DoubleArith F] (s : NISTEvaluator W F) (log_2 np : F) (n : Nat)
    (hd : n < s.denominators_.length) (hn : n < s.numerators_.length) :
    scoreStep s log_2 np n =
      .ok (if flt (ofInt 0) (ofInt (s.denominators_.getD n 0) : F) then
          fadd np (fdiv (s.numerators_.getD n (ofInt 0))
            (fmul (ofInt (s.denominators_.getD n 0)) log_2))
        else np) := by
  unfold scoreStep
  rw [vecGet_of_lt _ _ 0 hd, vecGet_of_lt _ _ (ofInt 0) hn]
  simp only [bind, Except.bind, pure, Except.pure]
  split <;> rfl

theorem scoreLoop_spec [DoubleArith F] (s : NISTEvaluator W F) (log_2 : F) (l : List Nat)
    (np : F) (hl : ∀ n ∈ l, n < s.denominators_.length ∧ n < s.numerators_.length) :
    l.foldlM (scoreStep s log_2) np =
      .ok (l.foldl (fun np n =>
        if flt (ofInt 0) (ofInt (s.denominators_.getD n 0) : F) then
          fadd np (fdiv (s.numerators_.getD n (ofInt 0))
            (fmul (ofInt (s.denominators_.getD n 0)) log_2))
        else np) np) := by
  induction l generalizing np with
  | nil => rfl
  | cons a l ih =>
    have ha := hl a (List.mem_cons_self _ _)
    rw [List.foldlM_cons, scoreStep_of_lt s log_2 np a ha.1 ha.2]
    simp only [bind, Except.bind, List.foldl_cons]
    exact ih _ (fun n hn => hl n (List.mem_cons_of_mem _ hn))

theorem getCumulative_unfold [DoubleArith F] (s : NISTEvaluator W F) :
    getCumulative s =
      match (List.range s.ngram_.toNat).foldlM (scoreStep s (flog (ofInt 2))) (ofInt 0) with
      | .ok np => .ok (fmul np (brevityPenalty s
          (fdiv (fneg (flog (ofInt 2)))
            (fmul (fsub (flog (ofInt 3)) (flog (ofInt 2)))
              (fsub (flog (ofInt 3)) (flog (ofInt 2)))))))
      | .error e => .error e := by
  unfold getCumulative
  simp only [bind, Except.bind, pure, Except.pure]
  split <;> simp_all

theorem scoreFold_real (s : NISTEvaluator W ℝ) (N : Nat) (np : ℝ) :
    (List.range N).foldl (fun np n =>
        if flt (ofInt 0) (ofInt (s.denominators_.getD n 0) : ℝ) then
          fadd np (fdiv (s.numerators_.getD n (ofInt 0))
            (fmul (ofInt (s.denominators_.getD n 0)) (flog (ofInt 2))))
        else np) np
      = np + ∑ n ∈ (Finset.range N).filter (fun n => 0 < s.denominators_.getD n 0),
          s.numerators_.getD n 0 / ((s.denominators_.getD n 0 : ℝ) * Real.log 2) := by
  induction N with
  | zero => simp
  | succ N ih =>
    rw [List.range_succ, List.foldl_append, ih, Finset.range_succ, Finset.filter_insert]
    simp only [List.foldl_cons, List.foldl_nil, real_flt, real_ofInt, real_fadd, real_fdiv,
      real_fmul, real_flog, Int.cast_pos, Int.cast_zero, Int.cast_ofNat]
    by_cases hpos : 0 < s.denominators_.getD N 0
    · rw [if_pos hpos, if_pos hpos, Finset.sum_insert (by simp)]
      ring
    · rw [if_neg hpos, if_neg hpos]

/-- The value of `getCumulative` over the reals when both vectors have `ngram_` entries. -/
theorem getCumulative_real (s : NISTEvaluator W ℝ)
    (hn : s.ngram_.toNat ≤ s.numerators_.length) (hd : s.ngram_.toNat ≤ s.denominators_.length) :
    getCumulative s = .ok (infoScore s * brevityPenalty s
      (-Real.log 2 / ((Real.log 3 - Real.log 2) * (Real.log 3 - Real.log 2)))) := by
  rw [getCumulative_unfold, scoreLoop_spec, scoreFold_real]
  · simp only [real_ofInt, real_fmul, real_fdiv, real_fneg, real_fsub, real_flog, Int.cast_zero,
      zero_add, Int.cast_ofNat]
    rfl
  · intro n hnl
    rw [List.mem_range] at hnl
    omega

theorem brevityPenalty_real (s : NISTEvaluator W ℝ) (beta : ℝ) :
    brevityPenalty s beta =
      if 0 < s.total_len_ref_ then
        Real.exp (beta
          * Real.log (min ((s.total_len_hyp_ : ℝ) / (s.total_len_ref_ : ℝ)) 1)
          * Real.log (min ((s.total_len_hyp_ : ℝ) / (s.total_len_ref_ : ℝ)) 1))
      else 1 := by
  unfold brevityPenalty
  have hc : (flt (ofInt 0) (ofInt s.total_len_ref_ : ℝ) = true) ↔ 0 < s.total_len_ref_ := by
    rw [real_flt, real_ofInt, real_ofInt, Int.cast_zero, Int.cast_pos]
  by_cases hpos : 0 < s.total_len_ref_
  · rw [if_pos (hc.2 hpos), if_pos hpos]
    simp only [real_fexp, real_fmul, real_flog, real_fdiv, real_ofInt, Int.cast_one]
    by_cases hlt : (s.total_len_hyp_ : ℝ) / (s.total_len_ref_ : ℝ) < 1
    · rw [if_pos ((real_flt _ _).2 hlt), min_eq_left hlt.le]
    · rw [if_neg (fun hh => hlt ((real_flt _ _).1 hh)), min_eq_right (not_lt.1 hlt)]
  · rw [if_neg (fun hh => hpos (hc.1 hh)), if_neg hpos]
    simp [real_ofInt]

theorem brevityPenalty_pos (s : NISTEvaluator W ℝ) (beta : ℝ) : 0 < brevityPenalty s beta := by
  rw [brevityPenalty_real]
  split
  · exact Real.exp_pos _
  · exact one_pos

theorem brevityPenalty_eq_one (s : NISTEvaluator W ℝ) (beta : ℝ)
    (hlen : s.total_len_ref_ ≤ s.total_len_hyp_ ∨ s.total_len_ref_ ≤ 0) :
    brevityPenalty s beta = 1 := by
  rw [brevityPenalty_real]
  split
  · rename_i hpos
    have hle : s.total_len_ref_ ≤ s.total_len_hyp_ := by omega
    have hr : (0 : ℝ) < (s.total_len_ref_ : ℝ) := by exact_mod_cast hpos
    have hge : (1 : ℝ) ≤ (s.total_len_hyp_ : ℝ) / (s.total_len_ref_ : ℝ) := by
      rw [le_div_iff₀ hr, one_mul]
      exact_mod_cast hle
    rw [min_eq_right hge]
    simp
  · rfl

/-! ### The scenario with `ngram = 2` -/

theorem exPrepared_freq (g : Sentence String) :
    exPrepared.freq_ g =
      if g = [] then 3
      else if g ∈ [["a"], ["b"], ["c"], ["a", "b"], ["b", "c"]] then 1 else 0 := by
  unfold exPrepared
  rw [prepare_freq]
  rcases g with _ | ⟨x, _ | ⟨y, _ | ⟨z, t⟩⟩⟩
  · simp [corpusDelta, exFresh, exRef]
  · by_cases h1 : x = "a"
    · subst h1; decide
    · by_cases h2 : x = "b"
      · subst h2; decide
      · by_cases h3 : x = "c"
        · subst h3; decide
        · have h1b : ¬ "a" = x := fun e => h1 e.symm
          have h2b : ¬ "b" = x := fun e => h2 e.symm
          have h3b : ¬ "c" = x := fun e => h3 e.symm
          simp [corpusDelta, exFresh, exRef, occurrences, List.range, List.range.loop,
            List.filter_cons, h1, h2, h3, h1b, h2b, h3b]
  · by_cases h1 : x = "a" ∧ y = "b"
    · obtain ⟨rfl, rfl⟩ := h1; decide
    · by_cases h2 : x = "b" ∧ y = "c"
      · obtain ⟨rfl, rfl⟩ := h2; decide
      · have h1b : ¬ ("a" = x ∧ "b" = y) := fun e => h1 ⟨e.1.symm, e.2.symm⟩
        have h2b : ¬ ("b" = x ∧ "c" = y) := fun e => h2 ⟨e.1.symm, e.2.symm⟩
        simp [corpusDelta, exFresh, exRef, occurrences, List.range, List.range.loop,
          List.filter_cons, h1, h2, h1b, h2b]
  · simp [corpusDelta, exFresh, exRef, occurrences, List.range, List.range.loop]

theorem exPrepared_gain_zero :
    gain exPrepared.freq_ exRef exHyp 0 (ofInt 0 : ℝ) = 2 * Real.log 3 := by
  have c0 : claimed (fun g => ((ngramsOf exRef 0).count g : Int)) (ngramsOf exHyp 0)
      = [["a"], ["b"]] := by decide
  unfold gain
  rw [c0]
  simp only [List.foldl, weight_real, real_fadd, real_ofInt, exPrepared_freq]
  norm_num
  ring

theorem exPrepared_gain_one :
    gain exPrepared.freq_ exRef exHyp 1 (ofInt 0 : ℝ) = 0 := by
  have c1 : claimed (fun g => ((ngramsOf exRef 1).count g : Int)) (ngramsOf exHyp 1)
      = [["a", "b"]] := by decide
  unfold gain
  rw [c1]
  simp [List.foldl, weight_real, real_fadd, real_ofInt, exPrepared_freq]

theorem exPrepared_calculate : calculate exPrepared exRef exHyp = .ok exScored := by
  obtain ⟨s1, h1⟩ := calculate_succeeds exPrepared exRef exHyp (by decide) (by decide) (by decide)
  rw [h1]
  obtain ⟨_, a1, a2, a3, a4, a5, a6, a7, a8⟩ := calculate_spec _ _ _ _ h1
  have n0 := a7 0
  have n1 := a7 1
  have d0 := a8 0
  have d1 := a8 1
  clear a7 a8 h1
  obtain ⟨ng, fr, nums, dens, tr, th⟩ := s1
  simp only at a1 a2 a3 a4 a5 a6 n0 n1 d0 d1
  subst a1 a2 a3 a4
  have hng : exPrepared.ngram_ = 2 := rfl
  have hnum : exPrepared.numerators_ = [ofInt 0, ofInt 0] := rfl
  have hden : exPrepared.denominators_ = [0, 0] := rfl
  have hr : exPrepared.total_len_ref_ = 0 := rfl
  have hh : exPrepared.total_len_hyp_ = 0 := rfl
  rw [hnum] at a5 n0 n1
  rw [hden] at a6 d0 d1
  rw [hng] at n0 n1 d0 d1
  rcases nums with _ | ⟨x0, _ | ⟨x1, _ | ⟨x2, t⟩⟩⟩ <;> simp at a5
  rcases dens with _ | ⟨y0, _ | ⟨y1, _ | ⟨y2, t⟩⟩⟩ <;> simp at a6
  simp [exHyp, exPrepared_gain_zero] at n0 d0
  simp [exHyp, exPrepared_gain_one] at n1 d1
  subst n0 n1 d0 d1
  simp only [exScored, hng, hr, hh, exRef, exHyp, List.length_cons, List.length_nil]
  have g0 := exPrepared_gain_zero
  have g1 := exPrepared_gain_one
  simp only [exRef, exHyp] at g0 g1
  rw [g0, g1]
  norm_num

theorem exScored_getCumulative :
    getCumulative exScored = .ok (infoScore exScored * brevityPenalty exScored
      (-Real.log 2 / ((Real.log 3 - Real.log 2) * (Real.log 3 - Real.log 2)))) :=
  getCumulative_real exScored (by decide) (by decide)

theorem exRun :
    run exFresh [.prepare exRef [], .calculate exRef exHyp, .getCumulative,
        .resetCumulative, .prepare exHyp []]
      = .ok (prepare { exScored with
          numerators_ := [ofInt 0, ofInt 0]
          denominators_ := [0, 0]
          total_len_ref_ := 0
          total_len_hyp_ := 0 } exHyp []) := by
  have h1 : step exFresh (.prepare exRef []) = .ok exPrepared := rfl
  have h2 : step exPrepared (.calculate exRef exHyp) = .ok exScored := by
    simp only [step, exPrepared_calculate]
  have h3 : step exScored .getCumulative = .ok exScored := by
    simp only [step, exScored_getCumulative]
  simp only [run, h1, h2, h3]
  rfl

/-! ### Runs from the constructor -/

/-- A property that the constructor-independent calls preserve holds after every run. -/
theorem run_invariant [DecidableEq W] [DoubleArith F] (P : NISTEvaluator W F → Prop)
    (hprep : ∀ s r h, P s → P (prepare s r h))
    (hcalc : ∀ s s1 r h, P s → calculate s r h = .ok s1 → P s1)
    (hreset : ∀ s s1, P s → resetCumulative s = .ok s1 → P s1)
    (calls : List (Call W)) (s s1 : NISTEvaluator W F) (hs : P s)
    (hrun : run s calls = .ok s1) : P s1 := by
  induction calls generalizing s with
  | nil =>
    simp only [run, Except.ok.injEq] at hrun
    exact hrun ▸ hs
  | cons c cs ih =>
    simp only [run] at hrun
    split at hrun
    · rename_i s2 h2
      refine ih s2 ?_ hrun
      cases c with
      | prepare r h =>
        simp only [step, Except.ok.injEq] at h2
        exact h2 ▸ hprep s r h hs
      | calculate r h =>
        simp only [step] at h2
        split at h2
        · rename_i s3 hc
          cases h2
          exact hcalc s _ r h hs hc
        · cases h2
          exact hs
        · cases h2
      | getCumulative =>
        simp only [step] at h2
        split at h2
        · cases h2
          exact hs
        · cases h2
      | resetCumulative =>
        simp only [step] at h2
        exact hreset s s2 hs h2
    · cases hrun

theorem sized_create [DoubleArith F] (params : List EvaluatorParam) (s0 : NISTEvaluator W F)
    (h0 : NISTEvaluator.create params = .ok s0) : Sized s0 := by
  obtain ⟨hN, rfl⟩ := create_ok params s0 h0
  exact ⟨hN, List.length_replicate _ _, List.length_replicate _ _⟩

theorem sized_run [DecidableEq W] [DoubleArith F] (calls : List (Call W))
    (s s1 : NISTEvaluator W F) (hs : Sized s) (hrun : run s calls = .ok s1) : Sized s1 := by
  refine run_invariant Sized ?_ ?_ ?_ calls s s1 hs hrun
  · intro s r h hs
    exact hs
  · intro s s1 r h hs hc
    obtain ⟨_, a1, _, _, _, a5, a6, _, _⟩ := calculate_spec s s1 r h hc
    exact ⟨by rw [a1]; exact hs.1, by rw [a5, a1]; exact hs.2.1, by rw [a6, a1]; exact hs.2.2⟩
  · intro s s1 hs hr
    obtain ⟨hN, rfl⟩ := resetCumulative_ok s s1 hr
    exact ⟨hN, List.length_replicate _ _, List.length_replicate _ _⟩

/-- The call `getCumulative` returns normally when both vectors have an entry for every order
index below `ngram_`. -/
theorem getCumulative_succeeds [DoubleArith F] (s : NISTEvaluator W F)
    (hn : s.ngram_.toNat ≤ s.numerators_.length)
    (hd : s.ngram_.toNat ≤ s.denominators_.length) : ∃ v, getCumulative s = .ok v := by
  rw [getCumulative_unfold, scoreLoop_spec]
  · exact ⟨_, rfl⟩
  · intro n hnl
    rw [List.mem_range] at hnl
    omega

theorem calculate_not_outOfRange [DecidableEq W] [DoubleArith F] (s : NISTEvaluator W F)
    (hs : Sized s) (r h : Sentence W) : calculate s r h ≠ .error .outOfRange := by
  by_cases hp : s.freq_ [] = 0
  · rw [(calculate_notPrepared_iff s r h).2 hp]
    exact fun hc => by cases hc
  · obtain ⟨s1, hs1⟩ := calculate_succeeds s r h hp (by rw [hs.2.1]; omega)
      (by rw [hs.2.2]; omega)
    rw [hs1]
    exact fun hc => by cases hc

theorem step_total [DecidableEq W] [DoubleArith F] (s : NISTEvaluator W F) (hs : Sized s)
    (c : Call W) : ∃ s1, step s c = .ok s1 := by
  cases c with
  | prepare r h => exact ⟨_, rfl⟩
  | calculate r h =>
    by_cases hp : s.freq_ [] = 0
    · simp only [step, (calculate_notPrepared_iff s r h).2 hp]
      exact ⟨_, rfl⟩
    · obtain ⟨s1, hs1⟩ := calculate_succeeds s r h hp (by rw [hs.2.1]; omega)
        (by rw [hs.2.2]; omega)
      simp only [step, hs1]
      exact ⟨_, rfl⟩
  | getCumulative =>
    obtain ⟨v, hv⟩ := getCumulative_succeeds s (by rw [hs.2.1]) (by rw [hs.2.2])
    simp only [step, hv]
    exact ⟨_, rfl⟩
  | resetCumulative =>
    simp only [step, resetCumulative_unfold, if_neg (not_lt.2 hs.1)]
    exact ⟨_, rfl⟩

/-- A run from a scorer whose vectors hold `ngram_` entries never fails. -/
theorem run_total [DecidableEq W] [DoubleArith F] (calls : List (Call W))
    (s : NISTEvaluator W F) (hs : Sized s) : ∃ s1, run s calls = .ok s1 := by
  induction calls generalizing s with
  | nil => exact ⟨s, rfl⟩
  | cons c cs ih =>
    obtain ⟨s2, h2⟩ := step_total s hs c
    have hs2 : Sized s2 := sized_run [c] s s2 hs (by simp only [run, h2])
    obtain ⟨s1, h1⟩ := ih s2 hs2
    exact ⟨s1, by simp only [run, h2, h1]⟩

/-! ### The constructor -/

theorem readNgram_cons (a : EvaluatorParam) (l : List EvaluatorParam) (init : Int) :
    readNgram (a :: l) init = readNgram l (if a.name = "ngram" then a.int_val else init) := rfl

theorem readNgram_append_singleton (l : List EvaluatorParam) (a : EvaluatorParam) (init : Int) :
    readNgram (l ++ [a]) init = if a.name = "ngram" then a.int_val else readNgram l init := by
  unfold readNgram
  rw [List.foldl_append]
  rfl

theorem readNgram_filter (params : List EvaluatorParam) (init : Int) :
    readNgram (params.filter (fun p => decide (p.name = "ngram"))) init
      = readNgram params init := by
  induction params generalizing init with
  | nil => rfl
  | cons a l ih =>
    by_cases ha : a.name = "ngram"
    · rw [List.filter_cons_of_pos (by simpa using ha), readNgram_cons, readNgram_cons, ih]
    · rw [List.filter_cons_of_neg (by simpa using ha), readNgram_cons, if_neg ha, ih]

theorem readNgram_of_none (params : List EvaluatorParam) (init : Int)
    (hno : ∀ p ∈ params, p.name ≠ "ngram") : readNgram params init = init := by
  induction params generalizing init with
  | nil => rfl
  | cons a l ih =>
    rw [readNgram_cons, if_neg (hno a (List.mem_cons_self _ _)),
      ih init (fun p hp => hno p (List.mem_cons_of_mem _ hp))]

theorem readNgram_eq_last (params : List EvaluatorParam) (init : Int) :
    readNgram params init
      = (((params.filter (fun p => decide (p.name = "ngram"))).getLast?).map
          (fun p => p.int_val)).getD init := by
  induction params using List.reverseRecOn with
  | nil => rfl
  | append_singleton l a ih =>
    rw [readNgram_append_singleton, List.filter_append]
    by_cases ha : a.name = "ngram"
    · rw [if_pos ha, List.filter_cons_of_pos (by simpa using ha)]
      simp
    · rw [if_neg ha, List.filter_cons_of_neg (by simpa using ha), ih]
      simp

theorem readNgram_of_some (params : List EvaluatorParam) (init : Int)
    (hsome : ∃ p ∈ params, p.name = "ngram") :
    ∃ p ∈ params, p.name = "ngram" ∧ readNgram params init = p.int_val := by
  induction params using List.reverseRecOn with
  | nil =>
    obtain ⟨p, hp, _⟩ := hsome
    cases hp
  | append_singleton l a ih =>
    rw [readNgram_append_singleton]
    by_cases ha : a.name = "ngram"
    · exact ⟨a, by simp, ha, by rw [if_pos ha]⟩
    · rw [if_neg ha]
      have hl : ∃ p ∈ l, p.name = "ngram" := by
        obtain ⟨p, hp, hn⟩ := hsome
        rw [List.mem_append, List.mem_singleton] at hp
        rcases hp with hp | hp
        · exact ⟨p, hp, hn⟩
        · exact absurd (hp ▸ hn) ha
      obtain ⟨p, hp, hn, hv⟩ := ih hl
      exact ⟨p, List.mem_append_left _ hp, hn, hv⟩

theorem create_unfold [DoubleArith F] (params : List EvaluatorParam) :
    (NISTEvaluator.create params : Except Failure (NISTEvaluator W F)) =
      if readNgram params 5 < 0 then .error .lengthError
      else .ok
        { ngram_ := readNgram params 5
          freq_ := fun _ => 0
          numerators_ := List.replicate (readNgram params 5).toNat (ofInt 0)
          denominators_ := List.replicate (readNgram params 5).toNat 0
          total_len_ref_ := 0
          total_len_hyp_ := 0 } := by
  unfold NISTEvaluator.create
  rw [resetCumulative_unfold]


/-! ### The denominators -/


theorem readNgram_nonneg (params : List EvaluatorParam)
    (hpos : ∀ p ∈ params, p.name = "ngram" → 0 ≤ p.int_val) : 0 ≤ readNgram params 5 := by
  by_cases hsome : ∃ p ∈ params, p.name = "ngram"
  · obtain ⟨p, hp, hn, hv⟩ := readNgram_of_some params 5 hsome
    rw [hv]
    exact hpos p hp hn
  · rw [readNgram_of_none params 5 (fun p hp hn => hsome ⟨p, hp, hn⟩)]
    decide

theorem staircase_calculate [DecidableEq W] [DoubleArith F] (s s1 : NISTEvaluator W F)
    (r h : Sentence W) (hN : 1 ≤ s.ngram_) (hs : Staircase s)
    (hc : calculate s r h = .ok s1) : Staircase s1 := by
  obtain ⟨_, _, _, _, a4, _, _, _, a8⟩ := calculate_spec s s1 r h hc
  obtain ⟨h0, hmono⟩ := hs
  constructor
  · rw [a8 0, h0, a4]
    by_cases hlt : ((0 : Nat) : Int) < min s.ngram_ (h.length : Int)
    · rw [if_pos hlt]
      simp
    · rw [if_neg hlt]
      have : (h.length : Int) = 0 := by omega
      rw [this, add_zero]
  · intro n a b ha hb
    rw [a8 n] at ha
    rw [a8 (n + 1)] at hb
    by_cases h1 : ((n + 1 : Nat) : Int) < min s.ngram_ (h.length : Int)
    · have h2 : ((n : Nat) : Int) < min s.ngram_ (h.length : Int) := by omega
      rw [if_pos h2] at ha
      rw [if_pos h1] at hb
      cases hda : s.denominators_[n]? with
      | none => rw [hda] at ha; cases ha
      | some a0 =>
        cases hdb : s.denominators_[n + 1]? with
        | none => rw [hdb] at hb; cases hb
        | some b0 =>
          rw [hda] at ha
          rw [hdb] at hb
          simp only [Option.map_some', Option.some.injEq] at ha hb
          have := hmono n a0 b0 hda hdb
          omega
    · rw [if_neg h1] at hb
      by_cases h2 : ((n : Nat) : Int) < min s.ngram_ (h.length : Int)
      · rw [if_pos h2] at ha
        cases hda : s.denominators_[n]? with
        | none => rw [hda] at ha; cases ha
        | some a0 =>
          rw [hda] at ha
          simp only [Option.map_some', Option.some.injEq] at ha
          have := hmono n a0 b hda hb
          omega
      · rw [if_neg h2] at ha
        exact hmono n a b ha hb

theorem staircase_reset [DoubleArith F] (s s1 : NISTEvaluator W F) (hN : 1 ≤ s.ngram_)
    (hr : resetCumulative s = .ok s1) : Staircase s1 := by
  obtain ⟨_, rfl⟩ := resetCumulative_ok s s1 hr
  constructor
  · show (List.replicate s.ngram_.toNat (0 : Int))[0]? = some 0
    rw [List.getElem?_replicate, if_pos (by omega)]
  · intro n a b ha hb
    have ha2 : (List.replicate s.ngram_.toNat (0 : Int))[n]? = some a := ha
    have hb2 : (List.replicate s.ngram_.toNat (0 : Int))[n + 1]? = some b := hb
    rw [List.getElem?_replicate] at ha2 hb2
    split at ha2
    · split at hb2
      · cases ha2; cases hb2; exact le_refl _
      · cases hb2
    · cases ha2

theorem staircase_run [DecidableEq W] [DoubleArith F] (calls : List (Call W))
    (s s1 : NISTEvaluator W F) (hN : 1 ≤ s.ngram_) (hs : Staircase s)
    (hrun : run s calls = .ok s1) : 1 ≤ s1.ngram_ ∧ Staircase s1 := by
  refine run_invariant (fun s => 1 ≤ s.ngram_ ∧ Staircase s) ?_ ?_ ?_ calls s s1 ⟨hN, hs⟩ hrun
  · intro s r h hs
    exact hs
  · intro s s1 r h hs hc
    exact ⟨by rw [(calculate_spec s s1 r h hc).2.1]; exact hs.1,
      staircase_calculate s s1 r h hs.1 hs.2 hc⟩
  · intro s s1 hs hr
    exact ⟨by rw [(resetCumulative_ok s s1 hr).2]; exact hs.1, staircase_reset s s1 hs.1 hr⟩

theorem denominators_added [DecidableEq W] [DoubleArith F] (s s1 : NISTEvaluator W F)
    (r h : Sentence W) (hc : calculate s r h = .ok s1) (n : Nat) (hn : (n : Int) < s.ngram_) :
    s1.denominators_[n]? =
      (s.denominators_[n]?).map (fun d => d + max 0 ((h.length : Int) - (n : Int))) := by
  obtain ⟨_, _, _, _, _, _, _, _, a8⟩ := calculate_spec s s1 r h hc
  rw [a8 n]
  by_cases hlt : (n : Int) < min s.ngram_ (h.length : Int)
  · rw [if_pos hlt]
    have : max 0 ((h.length : Int) - (n : Int)) = (h.length : Int) - (n : Int) := by omega
    rw [this]
  · rw [if_neg hlt]
    have : max 0 ((h.length : Int) - (n : Int)) = 0 := by omega
    rw [this]
    cases s.denominators_[n]? <;> simp

theorem denominators_grow [DecidableEq W] [DoubleArith F] (s s1 : NISTEvaluator W F)
    (r h : Sentence W) (hc : calculate s r h = .ok s1) (n : Nat) (d d1 : Int)
    (hd : s.denominators_[n]? = some d) (hd1 : s1.denominators_[n]? = some d1) : d ≤ d1 := by
  obtain ⟨_, _, _, _, _, _, _, _, a8⟩ := calculate_spec s s1 r h hc
  rw [a8 n, hd] at hd1
  by_cases hlt : (n : Int) < min s.ngram_ (h.length : Int)
  · rw [if_pos hlt] at hd1
    simp only [Option.map_some', Option.some.injEq] at hd1
    omega
  · rw [if_neg hlt] at hd1
    cases hd1
    exact le_refl _

theorem denominatorsNonneg_run [DecidableEq W] [DoubleArith F] (calls : List (Call W))
    (s s1 : NISTEvaluator W F) (hs : DenominatorsNonneg s) (hrun : run s calls = .ok s1) :
    DenominatorsNonneg s1 := by
  refine run_invariant DenominatorsNonneg ?_ ?_ ?_ calls s s1 hs hrun
  · intro s r h hs
    exact hs
  · intro s s1 r h hs hc n d1 hd1
    obtain ⟨_, _, _, _, _, _, a6, _, _⟩ := calculate_spec s s1 r h hc
    cases hd : s.denominators_[n]? with
    | none =>
      rw [List.getElem?_eq_none_iff] at hd
      have : n < s1.denominators_.length := (List.getElem?_eq_some_iff.1 hd1).1
      omega
    | some d =>
      have := denominators_grow s s1 r h hc n d d1 hd hd1
      have := hs n d hd
      omega
  · intro s s1 hs hr n d hd
    obtain ⟨_, rfl⟩ := resetCumulative_ok s s1 hr
    have hd2 : (List.replicate s.ngram_.toNat (0 : Int))[n]? = some d := hd
    rw [List.getElem?_replicate] at hd2
    split at hd2
    · cases hd2; exact le_refl _
    · cases hd2

theorem exRunScored :
    run exFresh [.prepare exRef [], .calculate exRef exHyp] = .ok exScored := by
  have h1 : step exFresh (.prepare exRef []) = .ok exPrepared := rfl
  have h2 : step exPrepared (.calculate exRef exHyp) = .ok exScored := by
    simp only [step, exPrepared_calculate]
  simp only [run, h1, h2]

/-! ### The brevity penalty at the ratio 2/3 -/

theorem brevityPenalty_two_thirds (s : NISTEvaluator W ℝ) (hr : 0 < s.total_len_ref_)
    (h23 : (s.total_len_hyp_ : ℝ) / (s.total_len_ref_ : ℝ) = 2 / 3) :
    brevityPenalty s (-Real.log 2 / ((Real.log 3 - Real.log 2) * (Real.log 3 - Real.log 2)))
      = 1 / 2 := by
  rw [brevityPenalty_real, if_pos hr, h23, min_eq_left (by norm_num)]
  have h2 : (0 : ℝ) < Real.log 2 := Real.log_pos (by norm_num)
  have hlt : Real.log 2 < Real.log 3 := Real.log_lt_log (by norm_num) (by norm_num)
  have hne : Real.log 3 - Real.log 2 ≠ 0 := by linarith
  have hlog : Real.log (2 / 3) = -(Real.log 3 - Real.log 2) := by
    rw [Real.log_div (by norm_num) (by norm_num)]
    ring
  have hexp : -Real.log 2 / ((Real.log 3 - Real.log 2) * (Real.log 3 - Real.log 2))
      * Real.log (2 / 3) * Real.log (2 / 3) = -Real.log 2 := by
    rw [hlog]
    field_simp
    ring
  rw [hexp, Real.exp_neg, Real.exp_log (by norm_num)]
  norm_num

/-! ### The table after a run -/

theorem occurrences_le_length [DecidableEq W] (g r : Sentence W) :
    occurrences g r ≤ r.length := by
  unfold occurrences
  calc _ ≤ (List.range r.length).length := List.length_filter_le _ _
    _ = r.length := List.length_range _

theorem occurrences_take_le [DecidableEq W] (g r : Sentence W) (m : Nat)
    (hm : m ≤ g.length) : occurrences g r ≤ occurrences (g.take m) r := by
  unfold occurrences
  rw [← List.countP_eq_length_filter, ← List.countP_eq_length_filter]
  apply List.countP_mono_left
  intro k _ hk
  simp only [decide_eq_true_eq] at hk ⊢
  obtain ⟨h1, h2⟩ := hk
  have hlen : (g.take m).length = m := by
    rw [List.length_take]
    omega
  rw [hlen]
  refine ⟨by omega, ?_⟩
  rw [← h2, List.take_take, min_eq_left hm]

theorem corpusDelta_nonneg [DecidableEq W] (ngram : Int) (r g : Sentence W) :
    0 ≤ corpusDelta ngram r g := by
  unfold corpusDelta
  have h1 : (0 : Int) ≤ (occurrences g r : Int) := Int.natCast_nonneg _
  have h2 : (0 : Int) ≤ (r.length : Int) := Int.natCast_nonneg _
  split <;> split <;> omega

theorem corpusDelta_take_le [DecidableEq W] (ngram : Int) (r g : Sentence W)
    (h1 : 1 ≤ g.length) (h2 : g.length ≤ ngram.toNat) :
    corpusDelta ngram r g ≤ corpusDelta ngram r (g.take (g.length - 1)) := by
  have hg : g ≠ [] := by intro e; simp [e] at h1
  have hlen : (g.take (g.length - 1)).length = g.length - 1 := by
    rw [List.length_take]
    omega
  unfold corpusDelta
  rw [if_pos ⟨h1, h2⟩, if_neg hg, add_zero, hlen]
  by_cases hone : g.length = 1
  · have hnil : g.take (g.length - 1) = [] := by
      rw [hone]
      rfl
    rw [hnil, if_neg (by omega), if_pos rfl, zero_add]
    exact_mod_cast occurrences_le_length g r
  · have hne : g.take (g.length - 1) ≠ [] := by
      intro e
      rw [e] at hlen
      simp only [List.length_nil] at hlen
      omega
    rw [if_pos ⟨by omega, by omega⟩, if_neg hne, add_zero]
    exact_mod_cast occurrences_take_le g r (g.length - 1) (by omega)

theorem corpusDelta_of_length [DecidableEq W] (ngram : Int) (r g : Sentence W)
    (h1 : 1 ≤ g.length) (h2 : g.length ≤ ngram.toNat) :
    corpusDelta ngram r g = (occurrences g r : Int) := by
  have hg : g ≠ [] := by intro e; simp [e] at h1
  unfold corpusDelta
  rw [if_pos ⟨h1, h2⟩, if_neg hg, add_zero]

theorem corpusDelta_nil [DecidableEq W] (ngram : Int) (r : Sentence W) :
    corpusDelta ngram r [] = (r.length : Int) := by
  unfold corpusDelta
  rw [if_neg (by simp), if_pos rfl, zero_add]

theorem tableOf_create [DecidableEq W] [DoubleArith F] (params : List EvaluatorParam)
    (s0 : NISTEvaluator W F) (h0 : NISTEvaluator.create params = .ok s0) : TableOf [] s0 := by
  obtain ⟨_, rfl⟩ := create_ok params s0 h0
  intro g
  rfl

theorem tableOf_prepare [DecidableEq W] (H : List (Sentence W)) (s : NISTEvaluator W F)
    (r h : Sentence W) (hs : TableOf H s) : TableOf (H ++ [r]) (prepare s r h) := by
  intro g
  rw [prepare_freq, hs g]
  have : (prepare s r h).ngram_ = s.ngram_ := rfl
  rw [this, List.map_append, List.sum_append]
  simp

theorem tableOf_calculate [DecidableEq W] [DoubleArith F] (H : List (Sentence W))
    (s s1 : NISTEvaluator W F) (r h : Sentence W) (hs : TableOf H s)
    (hc : calculate s r h = .ok s1) : TableOf H s1 := by
  obtain ⟨_, a1, a2, _⟩ := calculate_spec s s1 r h hc
  intro g
  rw [a1, a2]
  exact hs g

theorem tableOf_reset [DecidableEq W] [DoubleArith F] (H : List (Sentence W))
    (s s1 : NISTEvaluator W F) (hs : TableOf H s) (hr : resetCumulative s = .ok s1) :
    TableOf H s1 := by
  obtain ⟨_, rfl⟩ := resetCumulative_ok s s1 hr
  exact hs

/-- The table after a run holds the sums over the references prepared before and during the
run. -/
theorem tableOf_run [DecidableEq W] [DoubleArith F] (calls : List (Call W))
    (H : List (Sentence W)) (s s1 : NISTEvaluator W F) (hs : TableOf H s)
    (hrun : run s calls = .ok s1) : TableOf (H ++ preparedRefs calls) s1 := by
  induction calls generalizing s H with
  | nil =>
    simp only [run, Except.ok.injEq] at hrun
    subst hrun
    simpa [preparedRefs] using hs
  | cons c cs ih =>
    simp only [run] at hrun
    split at hrun
    · rename_i s2 h2
      cases c with
      | prepare r h =>
        simp only [step, Except.ok.injEq] at h2
        subst h2
        have := ih (H ++ [r]) _ (tableOf_prepare H s r h hs) hrun
        simpa [preparedRefs] using this
      | calculate r h =>
        simp only [step] at h2
        split at h2
        · rename_i s3 hc
          cases h2
          exact ih H _ (tableOf_calculate H s _ r h hs hc) hrun
        · cases h2
          exact ih H _ hs hrun
        · cases h2
      | getCumulative =>
        simp only [step] at h2
        split at h2
        · cases h2
          exact ih H _ hs hrun
        · cases h2
      | resetCumulative =>
        simp only [step] at h2
        exact ih H _ (tableOf_reset H s s2 hs h2) hrun
    · cases hrun

theorem sum_map_le_sum_map {α : Type} (l : List α) (f g : α → Int)
    (hfg : ∀ a ∈ l, f a ≤ g a) : (l.map f).sum ≤ (l.map g).sum := by
  induction l with
  | nil => exact le_refl _
  | cons a l ih =>
    rw [List.map_cons, List.map_cons, List.sum_cons, List.sum_cons]
    have h1 := hfg a (List.mem_cons_self _ _)
    have h2 := ih (fun b hb => hfg b (List.mem_cons_of_mem _ hb))
    omega

theorem le_sum_map_of_mem {α : Type} (l : List α) (f : α → Int) (hf : ∀ a ∈ l, 0 ≤ f a)
    (a : α) (ha : a ∈ l) : f a ≤ (l.map f).sum := by
  induction l with
  | nil => cases ha
  | cons b l ih =>
    rw [List.map_cons, List.sum_cons]
    have hb := hf b (List.mem_cons_self _ _)
    have hrest : 0 ≤ (l.map f).sum := by
      have := sum_map_le_sum_map l (fun _ => 0) f (fun c hc => hf c (List.mem_cons_of_mem _ hc))
      simpa using this
    rcases List.mem_cons.1 ha with rfl | hmem
    · omega
    · have := ih (fun c hc => hf c (List.mem_cons_of_mem _ hc)) hmem
      omega

/-- In a table built by `prepare` calls, an n-gram of a length from 1 to `ngram_` is counted at
most as often as its first `length - 1` tokens. -/
theorem tableOf_take_le [DecidableEq W] (H : List (Sentence W)) (s : NISTEvaluator W F)
    (hs : TableOf H s) (g : Sentence W) (h1 : 1 ≤ g.length) (h2 : g.length ≤ s.ngram_.toNat) :
    s.freq_ g ≤ s.freq_ (g.take (g.length - 1)) := by
  rw [hs g, hs (g.take (g.length - 1))]
  exact sum_map_le_sum_map H _ _ (fun r _ => corpusDelta_take_le s.ngram_ r g h1 h2)

/-- In a table built by `prepare` calls, an n-gram of a length from 1 to `ngram_` is counted at
least as often as it occurs in a prepared reference. -/
theorem tableOf_occurrences_le [DecidableEq W] (H : List (Sentence W)) (s : NISTEvaluator W F)
    (hs : TableOf H s) (r : Sentence W) (hr : r ∈ H) (g : Sentence W) (h1 : 1 ≤ g.length)
    (h2 : g.length ≤ s.ngram_.toNat) : (occurrences g r : Int) ≤ s.freq_ g := by
  rw [hs g, ← corpusDelta_of_length s.ngram_ r g h1 h2]
  exact le_sum_map_of_mem H (fun r => corpusDelta s.ngram_ r g)
    (fun a _ => corpusDelta_nonneg _ _ _) r hr

/-! ### Matched n-grams and their weights -/

theorem gain_eq_foldl [DecidableEq W] [DoubleArith F] (freq : Sentence W → Int)
    (r h : Sentence W) (n : Nat) (x : F) :
    gain freq r h n x = (matchedNGrams r h n).foldl
      (fun a g => fadd a (flog (fdiv (ofInt (freq (g.take n))) (ofInt (freq g))))) x := rfl

theorem mem_matchedNGrams [DecidableEq W] (r h : Sentence W) (n : Nat) (g : Sentence W)
    (hg : g ∈ matchedNGrams r h n) :
    g.length = n + 1 ∧ 1 ≤ occurrences g r ∧ 1 ≤ occurrences g h := by
  have hc : 0 < (matchedNGrams r h n).count g := List.count_pos_iff.2 hg
  unfold matchedNGrams at hc
  rw [count_claimed, Int.toNat_ofNat] at hc
  have h1 : 0 < (ngramsOf h n).count g := by omega
  have h2 : 0 < (ngramsOf r n).count g := by omega
  have hlen := length_of_mem_ngramsOf h g n (List.count_pos_iff.1 h1)
  rw [count_ngramsOf, if_pos hlen] at h1 h2
  exact ⟨hlen, h2, h1⟩

/-- In a table built by `prepare` calls that include the reference `r`, every n-gram matched by
`calculate(r, h)` at an order index below `ngram_` has a positive count, not above the count of
its context. -/
theorem matched_counts [DecidableEq W] (H : List (Sentence W)) (s : NISTEvaluator W F)
    (hs : TableOf H s) (r h : Sentence W) (hr : r ∈ H) (n : Nat)
    (hn : (n : Int) < s.ngram_) (g : Sentence W) (hg : g ∈ matchedNGrams r h n) :
    0 < s.freq_ g ∧ s.freq_ g ≤ s.freq_ (g.take n) := by
  obtain ⟨hlen, hocc, _⟩ := mem_matchedNGrams r h n g hg
  have h1 : 1 ≤ g.length := by omega
  have h2 : g.length ≤ s.ngram_.toNat := by omega
  have hle := tableOf_occurrences_le H s hs r hr g h1 h2
  have htake := tableOf_take_le H s hs g h1 h2
  have hn1 : g.length - 1 = n := by omega
  rw [hn1] at htake
  exact ⟨by omega, htake⟩

/-! ### A sentence scored against itself -/

theorem mem_ngramsOf_zero (S g : Sentence W) :
    g ∈ ngramsOf S 0 ↔ ∃ k, ∃ hk : k < S.length, g = [S[k]] := by
  unfold ngramsOf
  rw [List.mem_map]
  constructor
  · rintro ⟨k, hk, rfl⟩
    rw [List.mem_range] at hk
    have hk2 : k < S.length := by omega
    exact ⟨k, hk2, by
      unfold makeNGram
      exact List.take_one_drop_eq_of_lt_length hk2⟩
  · rintro ⟨k, hk, rfl⟩
    refine ⟨k, by rw [List.mem_range]; omega, ?_⟩
    unfold makeNGram
    exact List.take_one_drop_eq_of_lt_length hk

theorem occurrences_pos_of_mem [DecidableEq W] (S g : Sentence W) (n : Nat)
    (hg : g ∈ ngramsOf S n) : 1 ≤ occurrences g S := by
  have hlen := length_of_mem_ngramsOf S g n hg
  have hc : 0 < (ngramsOf S n).count g := List.count_pos_iff.2 hg
  rw [count_ngramsOf, if_pos hlen] at hc
  exact hc

theorem occurrences_singleton_lt [DecidableEq W] (S : Sentence W) (a : W) (k : Nat)
    (hk : k < S.length) (hne : S[k] ≠ a) : occurrences [a] S < S.length := by
  unfold occurrences
  have hlt : ((List.range S.length).filter (fun k =>
      decide (k + ([a] : Sentence W).length ≤ S.length ∧
        (S.drop k).take ([a] : Sentence W).length = [a]))).length
      < (List.range S.length).length := by
    rw [List.length_filter_lt_length_iff_exists]
    refine ⟨k, List.mem_range.2 hk, ?_⟩
    simp only [List.length_singleton, decide_eq_true_eq, not_and]
    intro _
    rw [List.take_one_drop_eq_of_lt_length hk]
    intro e
    exact hne (List.cons.inj e).1
  rwa [List.length_range] at hlt

theorem occurrences_singleton_eq [DecidableEq W] (S : Sentence W) (a : W)
    (hall : ∀ k, ∀ hk : k < S.length, S[k] = a) : occurrences [a] S = S.length := by
  unfold occurrences
  have hfilter : (List.range S.length).filter (fun k =>
      decide (k + ([a] : Sentence W).length ≤ S.length ∧
        (S.drop k).take ([a] : Sentence W).length = [a])) = List.range S.length := by
    rw [List.filter_eq_self]
    intro k hk
    rw [List.mem_range] at hk
    simp only [List.length_singleton, decide_eq_true_eq]
    refine ⟨by omega, ?_⟩
    rw [List.take_one_drop_eq_of_lt_length hk, List.get_eq_getElem, hall k hk]
  rw [hfilter, List.length_range]

theorem selfInfo_nonneg [DecidableEq W] (S : Sentence W) : 0 ≤ selfInfo S := by
  unfold selfInfo
  apply Finset.sum_nonneg
  intro g hg
  rw [List.mem_toFinset] at hg
  have h1 : 1 ≤ occurrences g S := occurrences_pos_of_mem S g 0 hg
  have h2 : occurrences g S ≤ S.length := occurrences_le_length g S
  have hpos : (0 : ℝ) < (occurrences g S : ℝ) := by exact_mod_cast h1
  apply mul_nonneg hpos.le
  apply Real.log_nonneg
  rw [le_div_iff₀ hpos, one_mul]
  exact_mod_cast h2

theorem selfInfo_pos [DecidableEq W] (S : Sentence W)
    (hdist : ∃ a ∈ S, ∃ b ∈ S, a ≠ b) : 0 < selfInfo S := by
  obtain ⟨a, ha, b, hb, hab⟩ := hdist
  obtain ⟨ka, hka, rfl⟩ := List.mem_iff_getElem.1 ha
  obtain ⟨kb, hkb, rfl⟩ := List.mem_iff_getElem.1 hb
  unfold selfInfo
  apply Finset.sum_pos
  · intro g hg
    rw [List.mem_toFinset] at hg
    have h1 : 1 ≤ occurrences g S := occurrences_pos_of_mem S g 0 hg
    obtain ⟨k, hk, rfl⟩ := (mem_ngramsOf_zero S g).1 hg
    have h2 : occurrences [S[k]] S < S.length := by
      by_cases hak : S[ka] = S[k]
      · exact occurrences_singleton_lt S _ kb hkb (fun e => hab (hak.trans e.symm))
      · exact occurrences_singleton_lt S _ ka hka hak
    have hpos : (0 : ℝ) < (occurrences [S[k]] S : ℝ) := by exact_mod_cast h1
    apply mul_pos hpos
    apply Real.log_pos
    rw [lt_div_iff₀ hpos, one_mul]
    exact_mod_cast h2
  · exact ⟨[S[ka]], List.mem_toFinset.2 ((mem_ngramsOf_zero S _).2 ⟨ka, hka, rfl⟩)⟩

theorem selfInfo_eq_zero [DecidableEq W] (S : Sentence W)
    (hsame : ¬ ∃ a ∈ S, ∃ b ∈ S, a ≠ b) : selfInfo S = 0 := by
  unfold selfInfo
  apply Finset.sum_eq_zero
  intro g hg
  rw [List.mem_toFinset] at hg
  obtain ⟨k, hk, rfl⟩ := (mem_ngramsOf_zero S g).1 hg
  have hall : ∀ k2, ∀ hk2 : k2 < S.length, S[k2] = S[k] := by
    intro k2 hk2
    by_contra hne
    exact hsame ⟨S[k2], List.getElem_mem hk2, S[k], List.getElem_mem hk, hne⟩
  rw [occurrences_singleton_eq S _ hall]
  have hlen : (S.length : ℝ) ≠ 0 := by
    have : 0 < S.length := by omega
    exact_mod_cast this.ne'
  rw [div_self hlen, Real.log_one, mul_zero]

/-- After `prepare(S)` and `calculate(S, S)` on a freshly constructed scorer with
`ngram_ >= 1`, for a non-empty `S`: the entry 0 of the numerators is `selfInfo S`, the entry 0
of the denominators is `|S|`, and both length totals are `|S|`. -/
theorem fresh_self_calculate [DecidableEq W] (params : List EvaluatorParam)
    (s0 : NISTEvaluator W ℝ) (S h0 : Sentence W)
    (hc : NISTEvaluator.create params = .ok s0) (hN : 1 ≤ s0.ngram_) (hS : S ≠ []) :
    ∃ s2, calculate (prepare s0 S h0) S S = .ok s2 ∧
      s2.numerators_[0]? = some (selfInfo S) ∧
      s2.denominators_[0]? = some (S.length : Int) ∧
      s2.total_len_ref_ = (S.length : Int) ∧ s2.total_len_hyp_ = (S.length : Int) := by
  have hlen : 0 < S.length := List.length_pos.2 hS
  have htab : TableOf [S] (prepare s0 S h0) :=
    tableOf_prepare [] s0 S h0 (tableOf_create params s0 hc)
  have hsz : Sized (prepare s0 S h0) := sized_create params s0 hc
  have hng : (prepare s0 S h0).ngram_ = s0.ngram_ := rfl
  have hfreq0 : (prepare s0 S h0).freq_ [] = (S.length : Int) := by
    rw [htab [], List.map_singleton, List.sum_singleton, corpusDelta_nil]
  obtain ⟨_, hs0⟩ := create_ok params s0 hc
  have hnum : (prepare s0 S h0).numerators_ = List.replicate s0.ngram_.toNat (ofInt 0) := by
    rw [hs0]; rfl
  have hden : (prepare s0 S h0).denominators_ = List.replicate s0.ngram_.toNat 0 := by
    rw [hs0]; rfl
  have hr : (prepare s0 S h0).total_len_ref_ = 0 := by rw [hs0]; rfl
  have hh : (prepare s0 S h0).total_len_hyp_ = 0 := by rw [hs0]; rfl
  obtain ⟨s2, hs2⟩ := calculate_succeeds (prepare s0 S h0) S S (by rw [hfreq0]; omega)
    (by rw [hsz.2.1]; omega) (by rw [hsz.2.2]; omega)
  obtain ⟨_, _, _, a3, a4, _, _, a7, a8⟩ := calculate_spec _ s2 S S hs2
  have hmin : ((0 : Nat) : Int) < min (prepare s0 S h0).ngram_ (S.length : Int) := by
    rw [hng]; omega
  refine ⟨s2, hs2, ?_, ?_, by rw [a3, hr, zero_add], by rw [a4, hh, zero_add]⟩
  · rw [a7 0, if_pos hmin, hnum, List.getElem?_replicate, if_pos (by omega)]
    simp only [Option.map_some', Option.some.injEq]
    rw [gain_real _ S S 0 _ (ngramsOf S 0).toFinset
      (fun g hg => List.mem_toFinset.2 hg)
      (fun g hg => length_of_mem_ngramsOf S g 0 (List.mem_toFinset.1 hg)),
      real_ofInt, Int.cast_zero, zero_add]
    unfold selfInfo
    apply Finset.sum_congr rfl
    intro g hg
    have hg1 : g.length = 1 := length_of_mem_ngramsOf S g 0 (List.mem_toFinset.1 hg)
    have hfg : (prepare s0 S h0).freq_ g = (occurrences g S : Int) := by
      rw [htab g, List.map_singleton, List.sum_singleton,
        corpusDelta_of_length _ S g (by omega) (by rw [hng]; omega)]
    rw [List.take_zero, hfreq0, hfg, min_self]
    simp only [Int.cast_natCast]
  · rw [a8 0, if_pos hmin, hden, List.getElem?_replicate, if_pos (by omega)]
    simp

/-! ### Sums of weights in a commutative monoid -/

theorem foldl_fadd_sum {α : Type} [DoubleArith F] [AddCommMonoid F]
    (hadd : ∀ a b : F, fadd a b = a + b) (w : α → F) (l : List α) (x : F) :
    l.foldl (fun a g => fadd a (w g)) x = x + (l.map w).sum := by
  induction l generalizing x with
  | nil => simp
  | cons a l ih =>
    rw [List.foldl_cons, ih, hadd, List.map_cons, List.sum_cons, add_assoc]

theorem xreal_ofInt (z : Int) : (ofInt z : XReal) = XReal.fin (z : ℝ) := rfl
theorem xreal_fadd (a b : XReal) : fadd a b = XReal.add a b := rfl
theorem xreal_fsub (a b : XReal) : fsub a b = XReal.add a (XReal.neg b) := rfl
theorem xreal_fmul (a b : XReal) : fmul a b = XReal.mul a b := rfl
theorem xreal_fdiv (a b : XReal) : fdiv a b = XReal.div a b := rfl
theorem xreal_fneg (a : XReal) : fneg a = XReal.neg a := rfl
theorem xreal_flt (a b : XReal) : flt a b = XReal.lt a b := rfl
theorem xreal_flog (a : XReal) : flog a = XReal.log a := rfl
theorem xreal_fexp (a : XReal) : fexp a = XReal.exp a := rfl

theorem getCumulative_eq_beta [DoubleArith F] (s : NISTEvaluator W F) :
    getCumulative s =
      match (List.range s.ngram_.toNat).foldlM (scoreStep s (flog (ofInt 2))) (ofInt 0) with
      | .ok np => .ok (fmul np (brevityPenalty s nistBeta))
      | .error e => .error e :=
  getCumulative_unfold s

/-- A property kept by `prepare`, by `resetCumulative` and by every `calculate` whose reference
is among the prepared ones holds after every run in which each reference given to `calculate`
was prepared before. -/
theorem run_prepared_invariant [DecidableEq W] [DoubleArith F] (P : NISTEvaluator W F → Prop)
    (hprep : ∀ s r h, P s → P (prepare s r h))
    (hcalc : ∀ (H : List (Sentence W)) s s1 r h, TableOf H s → r ∈ H → P s →
      calculate s r h = .ok s1 → P s1)
    (hreset : ∀ s s1, P s → resetCumulative s = .ok s1 → P s1)
    (calls : List (Call W)) (H : List (Sentence W)) (s s1 : NISTEvaluator W F)
    (hs : TableOf H s) (hP : P s) (hadm : refsPrepared H calls)
    (hrun : run s calls = .ok s1) : P s1 := by
  induction calls generalizing s H with
  | nil =>
    simp only [run, Except.ok.injEq] at hrun
    exact hrun ▸ hP
  | cons c cs ih =>
    simp only [run] at hrun
    split at hrun
    · rename_i s2 h2
      cases c with
      | prepare r h =>
        simp only [step, Except.ok.injEq] at h2
        subst h2
        exact ih (H ++ [r]) _ (tableOf_prepare H s r h hs) (hprep s r h hP) hadm hrun
      | calculate r h =>
        simp only [step] at h2
        split at h2
        · rename_i s3 hc
          cases h2
          exact ih H _ (tableOf_calculate H s _ r h hs hc)
            (hcalc H s _ r h hs hadm.1 hP hc) hadm.2 hrun
        · cases h2
          exact ih H _ hs hP hadm.2 hrun
        · cases h2
      | getCumulative =>
        simp only [step] at h2
        split at h2
        · cases h2
          exact ih H _ hs hP hadm hrun
        · cases h2
      | resetCumulative =>
        simp only [step] at h2
        exact ih H _ (tableOf_reset H s s2 hs h2) (hreset s s2 hP h2) hadm hrun
    · cases hrun

theorem totalsNonneg_run [DecidableEq W] [DoubleArith F] (calls : List (Call W))
    (s s1 : NISTEvaluator W F) (hs : TotalsNonneg s) (hrun : run s calls = .ok s1) :
    TotalsNonneg s1 := by
  refine run_invariant TotalsNonneg ?_ ?_ ?_ calls s s1 hs hrun
  · intro s r h hs
    exact hs
  · intro s s1 r h hs hc
    obtain ⟨_, _, _, a3, a4, _⟩ := calculate_spec s s1 r h hc
    exact ⟨by rw [a3]; have := hs.1; omega, by rw [a4]; have := hs.2; omega⟩
  · intro s s1 _ hr
    obtain ⟨_, rfl⟩ := resetCumulative_ok s s1 hr
    exact ⟨le_refl _, le_refl _⟩

/-- Over `XReal`, the weight of an n-gram with a positive count that is at most the count of its
context is the finite logarithm of a ratio that is at least 1. -/
theorem weight_xreal (a b : Int) (hb : 0 < b) (hab : b ≤ a) :
    (flog (fdiv (ofInt a) (ofInt b)) : XReal) = XReal.fin (Real.log ((a : ℝ) / (b : ℝ))) ∧
    (1 : ℝ) ≤ (a : ℝ) / (b : ℝ) ∧ 0 ≤ Real.log ((a : ℝ) / (b : ℝ)) := by
  have hb2 : (0 : ℝ) < (b : ℝ) := by exact_mod_cast hb
  have hone : (1 : ℝ) ≤ (a : ℝ) / (b : ℝ) := by
    rw [le_div_iff₀ hb2, one_mul]
    exact_mod_cast hab
  have hpos : (0 : ℝ) < (a : ℝ) / (b : ℝ) := by linarith
  refine ⟨?_, hone, Real.log_nonneg hone⟩
  rw [xreal_flog, xreal_fdiv, xreal_ofInt, xreal_ofInt]
  simp only [XReal.div, hb2.ne', if_false, XReal.log, hpos, if_true]

theorem foldl_fadd_xreal {α : Type} (w : α → XReal) (l : List α)
    (hw : ∀ g ∈ l, ∃ v : ℝ, w g = XReal.fin v ∧ 0 ≤ v) (x : ℝ) :
    ∃ y : ℝ, l.foldl (fun a g => fadd a (w g)) (XReal.fin x) = XReal.fin y ∧ x ≤ y := by
  induction l generalizing x with
  | nil => exact ⟨x, rfl, le_refl _⟩
  | cons a l ih =>
    obtain ⟨v, hv, hv0⟩ := hw a (List.mem_cons_self _ _)
    obtain ⟨y, hy, hxy⟩ := ih (fun g hg => hw g (List.mem_cons_of_mem _ hg)) (x + v)
    refine ⟨y, ?_, by linarith⟩
    rw [List.foldl_cons, hv, xreal_fadd]
    exact hy

theorem gain_xreal [DecidableEq W] (H : List (Sentence W)) (s : NISTEvaluator W XReal)
    (hs : TableOf H s) (r h : Sentence W) (hr : r ∈ H) (n : Nat) (hn : (n : Int) < s.ngram_)
    (x : ℝ) : ∃ y : ℝ, gain s.freq_ r h n (XReal.fin x) = XReal.fin y ∧ x ≤ y := by
  rw [gain_eq_foldl]
  apply foldl_fadd_xreal
  intro g hg
  obtain ⟨h1, h2⟩ := matched_counts H s hs r h hr n hn g hg
  obtain ⟨e, _, e0⟩ := weight_xreal (s.freq_ (g.take n)) (s.freq_ g) h1 h2
  exact ⟨_, e, e0⟩

theorem numeratorsFinite_calculate [DecidableEq W] (H : List (Sentence W))
    (s s1 : NISTEvaluator W XReal) (r h : Sentence W) (hs : TableOf H s) (hr : r ∈ H)
    (hnn : NumeratorsFinite s) (hc : calculate s r h = .ok s1) : NumeratorsFinite s1 := by
  obtain ⟨_, _, _, _, _, _, _, a7, _⟩ := calculate_spec s s1 r h hc
  intro n x hx
  rw [a7 n] at hx
  by_cases hlt : (n : Int) < min s.ngram_ (h.length : Int)
  · rw [if_pos hlt] at hx
    cases hn : s.numerators_[n]? with
    | none => rw [hn] at hx; cases hx
    | some x0 =>
      rw [hn] at hx
      simp only [Option.map_some', Option.some.injEq] at hx
      obtain ⟨v0, rfl, hv0⟩ := hnn n x0 hn
      obtain ⟨y, hy, hle⟩ := gain_xreal H s hs r h hr n (by omega) v0
      exact ⟨y, by rw [← hx, hy], by linarith⟩
  · rw [if_neg hlt] at hx
    exact hnn n x hx

theorem numeratorsFinite_replicate (N : Nat) (n : Nat) (x : XReal)
    (hx : (List.replicate N (ofInt 0 : XReal))[n]? = some x) :
    ∃ v : ℝ, x = XReal.fin v ∧ 0 ≤ v := by
  rw [List.getElem?_replicate] at hx
  split at hx
  · cases hx
    exact ⟨0, by rw [xreal_ofInt, Int.cast_zero], le_refl _⟩
  · cases hx

theorem numeratorsFinite_run [DecidableEq W] (calls : List (Call W)) (H : List (Sentence W))
    (s s1 : NISTEvaluator W XReal) (hs : TableOf H s) (hnn : NumeratorsFinite s)
    (hadm : refsPrepared H calls) (hrun : run s calls = .ok s1) : NumeratorsFinite s1 := by
  refine run_prepared_invariant NumeratorsFinite ?_ ?_ ?_ calls H s s1 hs hnn hadm hrun
  · intro s r h hs
    exact hs
  · intro H s s1 r h hs hr hnn hc
    exact numeratorsFinite_calculate H s s1 r h hs hr hnn hc
  · intro s s1 _ hr
    obtain ⟨_, rfl⟩ := resetCumulative_ok s s1 hr
    intro n x hx
    exact numeratorsFinite_replicate _ n x hx

theorem xreal_log_ofInt_two : (flog (ofInt 2) : XReal) = XReal.fin (Real.log 2) := by
  rw [xreal_flog, xreal_ofInt]
  simp [XReal.log]

theorem xreal_log_ofInt_three : (flog (ofInt 3) : XReal) = XReal.fin (Real.log 3) := by
  rw [xreal_flog, xreal_ofInt]
  simp [XReal.log]

/-- Over `XReal` the constant `beta` is a finite negative value. -/
theorem nistBeta_xreal :
    ∃ β : ℝ, (nistBeta : XReal) = XReal.fin β ∧ β < 0 := by
  have h2 : (0 : ℝ) < Real.log 2 := Real.log_pos (by norm_num)
  have hlt : Real.log 2 < Real.log 3 := Real.log_lt_log (by norm_num) (by norm_num)
  have hbase : (0 : ℝ) < (Real.log 3 + -Real.log 2) * (Real.log 3 + -Real.log 2) :=
    mul_pos (by linarith) (by linarith)
  refine ⟨-Real.log 2 / ((Real.log 3 + -Real.log 2) * (Real.log 3 + -Real.log 2)), ?_,
    div_neg_of_neg_of_pos (by linarith) hbase⟩
  unfold nistBeta
  rw [xreal_log_ofInt_two, xreal_log_ofInt_three, xreal_fneg, xreal_fsub, xreal_fmul,
    xreal_fdiv]
  simp only [XReal.neg, XReal.add, XReal.mul, XReal.div, hbase.ne', if_false]

/-- Over `XReal`, with totals that are not negative, the brevity penalty is a finite value in
`[0, 1]`; it is 0 when the hypothesis total is 0 and the reference total is positive. -/
theorem brevityPenalty_xreal (s : NISTEvaluator W XReal) (hs : TotalsNonneg s) :
    ∃ b : ℝ, brevityPenalty s nistBeta = XReal.fin b ∧ 0 ≤ b ∧ b ≤ 1 ∧
      (0 < s.total_len_ref_ → s.total_len_hyp_ = 0 → b = 0) := by
  obtain ⟨β, hβ, hβneg⟩ := nistBeta_xreal
  rw [hβ]
  unfold brevityPenalty
  simp only [xreal_flt, xreal_ofInt, xreal_fdiv, xreal_flog, xreal_fmul, xreal_fexp, XReal.lt,
    Int.cast_zero, Int.cast_one, decide_eq_true_eq, Int.cast_pos]
  by_cases hr : 0 < s.total_len_ref_
  · rw [if_pos hr]
    have hr2 : (0 : ℝ) < (s.total_len_ref_ : ℝ) := by exact_mod_cast hr
    have hh2 : (0 : ℝ) ≤ (s.total_len_hyp_ : ℝ) := by exact_mod_cast hs.2
    have hq : (0 : ℝ) ≤ (s.total_len_hyp_ : ℝ) / (s.total_len_ref_ : ℝ) :=
      div_nonneg hh2 hr2.le
    simp only [XReal.div, hr2.ne', if_false, XReal.lt, decide_eq_true_eq]
    by_cases hq1 : (s.total_len_hyp_ : ℝ) / (s.total_len_ref_ : ℝ) < 1
    · rw [if_pos hq1]
      by_cases hq0 : 0 < (s.total_len_hyp_ : ℝ) / (s.total_len_ref_ : ℝ)
      · simp only [XReal.log, hq0, if_true, XReal.mul, XReal.exp]
        have hlog : Real.log ((s.total_len_hyp_ : ℝ) / (s.total_len_ref_ : ℝ)) ≤ 0 :=
          Real.log_nonpos hq hq1.le
        refine ⟨_, rfl, (Real.exp_pos _).le, ?_, ?_⟩
        · rw [Real.exp_le_one_iff, mul_assoc]
          exact mul_nonpos_of_nonpos_of_nonneg hβneg.le (mul_self_nonneg _)
        · intro _ h0
          rw [h0, Int.cast_zero, zero_div] at hq0
          exact absurd hq0 (lt_irrefl _)
      · have hz : (s.total_len_hyp_ : ℝ) / (s.total_len_ref_ : ℝ) = 0 := by linarith
        have hnβ : (0 : ℝ) < -β := by linarith
        simp [XReal.log, hz, XReal.mul, XReal.infOfSign, hnβ, XReal.exp]
    · rw [if_neg hq1]
      simp only [XReal.log, zero_lt_one, if_true, Real.log_one, XReal.mul, mul_zero,
        XReal.exp, Real.exp_zero]
      refine ⟨1, rfl, zero_le_one, le_refl _, ?_⟩
      intro _ h0
      rw [h0, Int.cast_zero, zero_div] at hq1
      exact absurd zero_lt_one hq1
  · rw [if_neg hr]
    exact ⟨1, rfl, zero_le_one, le_refl _, fun h => absurd h hr⟩

theorem scoreFold_xreal (s : NISTEvaluator W XReal) (hnn : NumeratorsFinite s)
    (l : List Nat) (p0 : ℝ) (hp0 : 0 ≤ p0) :
    ∃ p : ℝ, l.foldl (fun np n =>
        if flt (ofInt 0) (ofInt (s.denominators_.getD n 0) : XReal) then
          fadd np (fdiv (s.numerators_.getD n (ofInt 0))
            (fmul (ofInt (s.denominators_.getD n 0)) (flog (ofInt 2))))
        else np) (XReal.fin p0) = XReal.fin p ∧ 0 ≤ p := by
  induction l generalizing p0 with
  | nil => exact ⟨p0, rfl, hp0⟩
  | cons n l ih =>
    rw [List.foldl_cons]
    by_cases hd : 0 < s.denominators_.getD n 0
    · have hd2 : (0 : ℝ) < (s.denominators_.getD n 0 : ℝ) := by exact_mod_cast hd
      have h2 : (0 : ℝ) < Real.log 2 := Real.log_pos (by norm_num)
      have hx : ∃ v : ℝ, s.numerators_.getD n (ofInt 0) = XReal.fin v ∧ 0 ≤ v := by
        rw [List.getD_eq_getElem?_getD]
        cases hx : s.numerators_[n]? with
        | none => exact ⟨0, by simp [xreal_ofInt], le_refl _⟩
        | some x => exact hnn n x hx
      obtain ⟨v, hv, hv0⟩ := hx
      have hstep : (if flt (ofInt 0) (ofInt (s.denominators_.getD n 0) : XReal) then
          fadd (XReal.fin p0) (fdiv (s.numerators_.getD n (ofInt 0))
            (fmul (ofInt (s.denominators_.getD n 0)) (flog (ofInt 2))))
        else XReal.fin p0)
          = XReal.fin (p0 + v / ((s.denominators_.getD n 0 : ℝ) * Real.log 2)) := by
        rw [hv, xreal_log_ofInt_two]
        simp only [xreal_flt, xreal_ofInt, xreal_fadd, xreal_fdiv, xreal_fmul, XReal.lt,
          Int.cast_zero, decide_eq_true_eq, hd2, if_true, XReal.mul, XReal.div,
          (mul_pos hd2 h2).ne', if_false, XReal.add]
      rw [hstep]
      exact ih _ (add_nonneg hp0 (div_nonneg hv0 (mul_pos hd2 h2).le))
    · have hd2 : ¬ (0 : ℝ) < (s.denominators_.getD n 0 : ℝ) := by exact_mod_cast hd
      have hstep : (if flt (ofInt 0) (ofInt (s.denominators_.getD n 0) : XReal) then
          fadd (XReal.fin p0) (fdiv (s.numerators_.getD n (ofInt 0))
            (fmul (ofInt (s.denominators_.getD n 0)) (flog (ofInt 2))))
        else XReal.fin p0) = XReal.fin p0 := by
        simp only [xreal_flt, xreal_ofInt, XReal.lt, Int.cast_zero, decide_eq_true_eq, hd2,
          if_false]
      rw [hstep]
      exact ih p0 hp0

/-- Over `XReal`, on a scorer whose vectors hold `ngram_` entries, whose numerators are finite and
not negative and whose totals are not negative: the loop of `getCumulative` leaves a finite
`np` that is not negative, the brevity penalty is a finite `bp` in `[0, 1]`, and `getCumulative`
returns `np * bp`. -/
theorem getCumulative_xreal (s : NISTEvaluator W XReal) (hsz : Sized s)
    (hnn : NumeratorsFinite s) (ht : TotalsNonneg s) :
    ∃ p b : ℝ,
      (List.range s.ngram_.toNat).foldlM (scoreStep s (flog (ofInt 2))) (ofInt 0)
        = .ok (XReal.fin p) ∧ 0 ≤ p ∧
      brevityPenalty s nistBeta = XReal.fin b ∧ 0 ≤ b ∧ b ≤ 1 ∧
      (0 < s.total_len_ref_ → s.total_len_hyp_ = 0 → b = 0) ∧
      getCumulative s = .ok (XReal.fin (p * b)) := by
  obtain ⟨b, hb, hb0, hb1, hbz⟩ := brevityPenalty_xreal s ht
  obtain ⟨p, hp, hp0⟩ := scoreFold_xreal s hnn (List.range s.ngram_.toNat) 0 (le_refl _)
  have h0 : (ofInt 0 : XReal) = XReal.fin 0 := by rw [xreal_ofInt, Int.cast_zero]
  rw [← h0] at hp
  have hloop : (List.range s.ngram_.toNat).foldlM (scoreStep s (flog (ofInt 2))) (ofInt 0)
      = .ok (XReal.fin p) := by
    rw [scoreLoop_spec, hp]
    intro n hn
    rw [List.mem_range] at hn
    rw [hsz.2.1, hsz.2.2]
    exact ⟨hn, hn⟩
  refine ⟨p, b, hloop, hp0, hb, hb0, hb1, hbz, ?_⟩
  rw [getCumulative_eq_beta, hloop, hb]
  rfl

/-- Over `XReal`, in a state reached from construction by calls in which each reference given to
`calculate` was given to `prepare` before: the vectors hold `ngram_` entries, the numerators
are finite and not negative, the totals are not negative. -/
theorem prepared_run_xreal [DecidableEq W] (params : List EvaluatorParam)
    (calls : List (Call W)) (s0 s : NISTEvaluator W XReal)
    (h0 : NISTEvaluator.create params = .ok s0) (hadm : refsPrepared [] calls)
    (hrun : run s0 calls = .ok s) :
    Sized s ∧ NumeratorsFinite s ∧ TotalsNonneg s := by
  have hs0 := sized_create params s0 h0
  have hnn0 : NumeratorsFinite s0 := by
    obtain ⟨_, rfl⟩ := create_ok params s0 h0
    intro n x hx
    exact numeratorsFinite_replicate _ n x hx
  have ht0 : TotalsNonneg s0 := by
    obtain ⟨_, rfl⟩ := create_ok params s0 h0
    exact ⟨le_refl _, le_refl _⟩
  exact ⟨sized_run calls s0 s hs0 hrun,
    numeratorsFinite_run calls [] s0 s (tableOf_create params s0 h0) hnn0 hadm hrun,
    totalsNonneg_run calls s0 s ht0 hrun⟩

/-- The run `prepare(a)`, `calculate(a, empty)` on the fresh scorer `exFreshX` ends normally, with
the reference total 1 and the hypothesis total 0. -/
theorem exShortX_run :
    ∃ s : NISTEvaluator String XReal,
      run exFreshX [.prepare ["a"] [], .calculate ["a"] []] = .ok s ∧
      s.total_len_ref_ = 1 ∧ s.total_len_hyp_ = 0 := by
  obtain ⟨s1, h1⟩ := calculate_succeeds (prepare exFreshX ["a"] []) ["a"] ([] : Sentence String)
    (by decide) (by decide) (by decide)
  obtain ⟨_, _, _, a3, a4, _⟩ := calculate_spec _ s1 _ _ h1
  refine ⟨s1, ?_, a3, a4⟩
  simp only [run, step, h1]

/-! ### The arithmetic `B64` -/

/-- The series `ln 3 = 2 * artanh(1/2)`. -/
theorem log_three_series :
    HasSum (fun k : ℕ => (2 : ℝ) * (1 / (2 * k + 1)) * (1 / 2) ^ (2 * k + 1)) (Real.log 3) := by
  have h := Real.hasSum_log_sub_log_of_abs_lt_one (x := 1 / 2)
    (by rw [abs_of_pos] <;> norm_num)
  have e : Real.log (1 + 1 / 2) - Real.log (1 - 1 / 2) = Real.log 3 := by
    rw [← Real.log_div (by norm_num) (by norm_num)]
    norm_num
  rwa [e] at h

/-- Every partial sum of the series of `ln 3` is a lower bound. -/
theorem log_three_lower (N : ℕ) :
    ∑ k ∈ Finset.range N, (2 : ℝ) * (1 / (2 * k + 1)) * (1 / 2) ^ (2 * k + 1) ≤ Real.log 3 :=
  sum_le_hasSum _ (fun k _ => by positivity) log_three_series

/-- A partial sum of the series of `ln 3` plus a geometric bound of the rest is an upper
bound. -/
theorem log_three_upper (N : ℕ) :
    Real.log 3 ≤ ∑ k ∈ Finset.range N, (2 : ℝ) * (1 / (2 * k + 1)) * (1 / 2) ^ (2 * k + 1)
      + (2 : ℝ) * (1 / (2 * N + 1)) * (1 / 2) ^ (2 * N + 1) * (4 / 3) := by
  have htail := (hasSum_nat_add_iff' N).2 log_three_series
  have hgeo : HasSum (fun k : ℕ => (2 : ℝ) * (1 / (2 * N + 1)) * (1 / 2) ^ (2 * N + 1)
      * (1 / 4) ^ k) ((2 : ℝ) * (1 / (2 * N + 1)) * (1 / 2) ^ (2 * N + 1) * (4 / 3)) := by
    have hg := hasSum_geometric_of_lt_one (r := (1 / 4 : ℝ)) (by norm_num) (by norm_num)
    have e : (1 - (1 / 4 : ℝ))⁻¹ = 4 / 3 := by norm_num
    rw [e] at hg
    exact hg.mul_left _
  have hle := hasSum_le (fun k => ?_) htail hgeo
  · linarith
  · have h1 : (1 : ℝ) / (2 * ((k + N : ℕ) : ℝ) + 1) ≤ 1 / (2 * (N : ℝ) + 1) := by
      apply one_div_le_one_div_of_le (by positivity)
      push_cast
      have : (0 : ℝ) ≤ k := Nat.cast_nonneg k
      linarith
    have h2 : ((1 : ℝ) / 2) ^ (2 * (k + N) + 1) = (1 / 2) ^ (2 * N + 1) * (1 / 4) ^ k := by
      have : (1 / 4 : ℝ) = (1 / 2) ^ 2 := by norm_num
      rw [this, ← pow_mul, ← pow_add]
      congr 1
      ring
    rw [h2]
    have h3 : (0 : ℝ) ≤ (1 / 2) ^ (2 * N + 1) * (1 / 4) ^ k := by positivity
    calc (2 : ℝ) * (1 / (2 * ((k + N : ℕ) : ℝ) + 1)) * ((1 / 2) ^ (2 * N + 1) * (1 / 4) ^ k)
        ≤ 2 * (1 / (2 * (N : ℝ) + 1)) * ((1 / 2) ^ (2 * N + 1) * (1 / 4) ^ k) := by
          apply mul_le_mul_of_nonneg_right _ h3
          linarith
      _ = 2 * (1 / (2 * (N : ℝ) + 1)) * (1 / 2) ^ (2 * N + 1) * (1 / 4) ^ k := by ring

/-- The entries of `B64.logTable` at `1.0` and `3.0`: `log(1.0)` is `0.0`, and `log(3.0)` is
`4947709893870347 * 2^-52`, which lies within half a unit in the last place (`2^-53`) of `ln 3`,
so it is the binary64 value nearest to `ln 3`. -/
theorem logTable_three_nearest :
    (flog (ofInt 1) : B64) = B64.fin 0 ∧
    (flog (ofInt 3) : B64) = B64.fin ((4947709893870347 * 2 ^ 1022 : Nat) : Int) ∧
    ((((4947709893870347 * 2 ^ 1022 : Nat) : Int) : ℝ) / 2 ^ 1074
      = (4947709893870347 : ℝ) / 2 ^ 52) ∧
    |Real.log 3 - (4947709893870347 : ℝ) / 2 ^ 52| < 1 / 2 ^ 53 := by
  refine ⟨by decide!, by decide!, ?_, ?_⟩
  · have e : (2 : ℝ) ^ 1074 = 2 ^ 52 * 2 ^ 1022 := by rw [← pow_add]
    have h : (2 : ℝ) ^ 1022 ≠ 0 := pow_ne_zero _ (by norm_num)
    rw [e, Int.cast_natCast, Nat.cast_mul, Nat.cast_pow, Nat.cast_ofNat, Nat.cast_ofNat,
      mul_div_mul_right _ _ h]
  · have hl := log_three_lower 28
    have hu := log_three_upper 28
    rw [abs_lt]
    constructor
    · refine lt_of_lt_of_le ?_ (sub_le_sub_right hl _)
      norm_num [Finset.sum_range_succ]
    · refine lt_of_le_of_lt (sub_le_sub_right hu _) ?_
      norm_num [Finset.sum_range_succ]

/-! ### The same pair scored twice -/

/-- On a prepared scorer whose accumulators were just reset, `calculate(r, h)` returns normally
twice; the denominators and both totals of the second state are the doubles of those of the
first, and `numerators_[n]` holds `gain` of `0.0` after the first call and `gain` of that value
after the second (the running sum goes on from where the first call left it). -/
theorem calculate_twice_spec [DecidableEq W] [DoubleArith F] (s s0 : NISTEvaluator W F)
    (r h : Sentence W) (hp : s.freq_ [] ≠ 0) (hr : resetCumulative s = .ok s0) :
    ∃ s1 s2, calculate s0 r h = .ok s1 ∧ calculate s1 r h = .ok s2 ∧
      s1.denominators_.length = s.ngram_.toNat ∧ s2.denominators_.length = s.ngram_.toNat ∧
      s1.numerators_.length = s.ngram_.toNat ∧ s2.numerators_.length = s.ngram_.toNat ∧
      (∀ n : Nat, s2.denominators_[n]? = (s1.denominators_[n]?).map (fun d => 2 * d)) ∧
      s2.total_len_ref_ = 2 * s1.total_len_ref_ ∧
      s2.total_len_hyp_ = 2 * s1.total_len_hyp_ ∧
      (∀ n : Nat, s1.numerators_[n]? =
        if n < s.ngram_.toNat then
          some (if (n : Int) < min s.ngram_ (h.length : Int)
            then gain s.freq_ r h n (ofInt 0) else ofInt 0)
        else none) ∧
      (∀ n : Nat, s2.numerators_[n]? =
        if n < s.ngram_.toNat then
          some (if (n : Int) < min s.ngram_ (h.length : Int)
            then gain s.freq_ r h n (gain s.freq_ r h n (ofInt 0)) else ofInt 0)
        else none) := by
  obtain ⟨hN, hs0⟩ := resetCumulative_ok s s0 hr
  have f1 : s0.freq_ = s.freq_ := by rw [hs0]
  have f2 : s0.ngram_ = s.ngram_ := by rw [hs0]
  have f3 : s0.numerators_ = List.replicate s.ngram_.toNat (ofInt 0) := by rw [hs0]
  have f4 : s0.denominators_ = List.replicate s.ngram_.toNat 0 := by rw [hs0]
  have f5 : s0.total_len_ref_ = 0 := by rw [hs0]
  have f6 : s0.total_len_hyp_ = 0 := by rw [hs0]
  obtain ⟨s1, hs1⟩ := calculate_succeeds s0 r h (by rw [f1]; exact hp)
    (by rw [f2, f3, List.length_replicate]; omega)
    (by rw [f2, f4, List.length_replicate]; omega)
  obtain ⟨_, a1, a2, a3, a4, a5, a6, a7, a8⟩ := calculate_spec s0 s1 r h hs1
  rw [f3, List.length_replicate] at a5
  rw [f4, List.length_replicate] at a6
  rw [f1] at a2
  rw [f2] at a1
  rw [f1, f2, f3] at a7
  rw [f2, f4] at a8
  rw [f5] at a3
  rw [f6] at a4
  obtain ⟨s2, hs2⟩ := calculate_succeeds s1 r h (by rw [a2]; exact hp)
    (by rw [a1, a5]; omega) (by rw [a1, a6]; omega)
  obtain ⟨_, b1, b2, b3, b4, b5, b6, b7, b8⟩ := calculate_spec s1 s2 r h hs2
  rw [a1] at b7 b8
  rw [a2] at b7
  have hnum1 : ∀ n : Nat, s1.numerators_[n]? =
      if n < s.ngram_.toNat then
        some (if (n : Int) < min s.ngram_ (h.length : Int)
          then gain s.freq_ r h n (ofInt 0) else ofInt 0)
      else none := by
    intro n
    rw [a7 n, List.getElem?_replicate]
    by_cases hn : (n : Int) < min s.ngram_ (h.length : Int)
    · have hlt : n < s.ngram_.toNat := by omega
      simp only [hn, hlt, if_true, Option.map_some']
    · simp only [hn, if_false]
  refine ⟨s1, s2, hs1, hs2, a6, by rw [b6, a6], a5, by rw [b5, a5], ?_, ?_, ?_, hnum1, ?_⟩
  · intro n
    rw [b8 n, a8 n, List.getElem?_replicate]
    by_cases hn : (n : Int) < min s.ngram_ (h.length : Int)
    · have hlt : n < s.ngram_.toNat := by omega
      simp only [hn, hlt, if_true, Option.map_some', Option.some.injEq]
      ring
    · simp only [hn, if_false]
      split <;> simp
  · rw [b3, a3]; ring
  · rw [b4, a4]; ring
  · intro n
    rw [b7 n, hnum1 n]
    by_cases hn : (n : Int) < min s.ngram_ (h.length : Int)
    · have hlt : n < s.ngram_.toNat := by omega
      simp only [hn, hlt, if_true, Option.map_some']
    · simp only [hn, if_false]

/-- The value `gain` leaves when it starts from a value `x`, in an arithmetic whose addition is
a commutative monoid: `x` plus what it leaves when it starts from zero. -/
theorem gain_shift [DecidableEq W] [DoubleArith F] [AddCommMonoid F]
    (hadd : ∀ a b : F, fadd a b = a + b) (freq : Sentence W → Int) (r h : Sentence W)
    (n : Nat) (x : F) :
    gain freq r h n x = x + gain freq r h n 0 := by
  rw [gain_eq_foldl, gain_eq_foldl, foldl_fadd_sum hadd, foldl_fadd_sum hadd, zero_add]

/-- The first numerator of `calculate` of `a b c` against itself on `exPreparedB`, once. -/
theorem exPreparedB_gain_once :
    gain exPreparedB.freq_ exRef exRef 0 (ofInt 0 : B64)
      = B64.fin ((0x1a5ddfb8038490 * 2 ^ 1023 : Nat) : Int) := by
  decide!

/-- The first numerator of `calculate` of `a b c` against itself on `exPreparedB`, twice. -/
theorem exPreparedB_gain_twice :
    gain exPreparedB.freq_ exRef exRef 0 (gain exPreparedB.freq_ exRef exRef 0 (ofInt 0 : B64))
      = B64.fin ((0x1a5ddfb8038491 * 2 ^ 1024 : Nat) : Int) := by
  decide!

end Lemmas

/-! ## The claims -/

section Claims

variable {W F : Type}

open DoubleArith

/-- C1: `calculate(r, h)` raises the not-prepared error exactly when the count stored under the
empty n-gram is zero. A freshly constructed scorer raises it for all sentences; after any
sequence of calls on a constructed scorer it is raised exactly when every reference given to
`prepare` so far was empty, whether or not `r` itself was ever prepared. -/
theorem calculate_raises_iff_empty_count_zero [DecidableEq W] [DoubleArith F] :
    (∀ (s : NISTEvaluator W F) (r h : Sentence W),
        calculate s r h = .error .notPrepared ↔ s.freq_ [] = 0) ∧
    (∀ (params : List EvaluatorParam) (s0 : NISTEvaluator W F),
        NISTEvaluator.create params = .ok s0 →
        ∀ r h : Sentence W, calculate s0 r h = .error .notPrepared) ∧
    (∀ (params : List EvaluatorParam) (calls : List (Call W)) (s0 s : NISTEvaluator W F),
        NISTEvaluator.create params = .ok s0 → run s0 calls = .ok s →
        ∀ r h : Sentence W,
          (calculate s r h = .error .notPrepared ↔ ∀ ref ∈ preparedRefs calls, ref = [])) := by
  refine ⟨calculate_notPrepared_iff, ?_, ?_⟩
  · intro params s0 h0 r h
    rw [calculate_notPrepared_iff]
    obtain ⟨_, rfl⟩ := create_ok params s0 h0
    rfl
  · intro params calls s0 s h0 hrun r h
    obtain ⟨_, rfl⟩ := create_ok params s0 h0
    have hfreq := (run_frame calls _ s hrun).2
    simp only [zero_add] at hfreq
    rw [calculate_notPrepared_iff, hfreq, ← totalLength_eq_zero]
    exact Int.natCast_eq_zero

/-- C1 at the scorer constructed with `ngram = 2`: fresh, and after `prepare` of `a b c`, for a
reference that was never prepared. -/
theorem calculate_raises_iff_empty_count_zero_witness :
    NISTEvaluator.create [⟨"ngram", 2⟩] = .ok exFresh ∧
    calculate exFresh exRef exHyp = .error .notPrepared ∧
    run exFresh [.prepare exRef []] = .ok (prepare exFresh exRef []) ∧
    calculate (prepare exFresh exRef []) ["d"] exHyp ≠ .error .notPrepared :=
  ⟨rfl,
   calculate_raises_iff_empty_count_zero.2.1 [⟨"ngram", 2⟩] exFresh rfl exRef exHyp,
   rfl,
   fun hc => by
    have h := (calculate_raises_iff_empty_count_zero.2.2 [⟨"ngram", 2⟩] [.prepare exRef []]
      exFresh (prepare exFresh exRef []) rfl rfl ["d"] exHyp).1 hc
    simp [preparedRefs, exRef] at h⟩

/-- C2: for every n-gram `g` of a length from 1 to `ngram_`, `prepare(r)` adds to the count of
`g` the number of start positions at which `g` is a window of `r`; the count of every longer
n-gram is unchanged; `prepare` of the empty sentence changes no count. -/
theorem prepare_adds_window_counts [DecidableEq W] (s : NISTEvaluator W F)
    (r h : Sentence W) :
    (∀ g : Sentence W, 1 ≤ g.length → (g.length : Int) ≤ s.ngram_ →
        (prepare s r h).freq_ g = s.freq_ g + (occurrences g r : Int)) ∧
    (∀ g : Sentence W, 1 ≤ g.length → s.ngram_ < (g.length : Int) →
        (prepare s r h).freq_ g = s.freq_ g) ∧
    (∀ g : Sentence W, (prepare s [] h).freq_ g = s.freq_ g) := by
  refine ⟨?_, ?_, ?_⟩
  · intro g h1 h2
    have hg : g ≠ [] := by intro e; simp [e] at h1
    have h3 : 1 ≤ g.length ∧ g.length ≤ s.ngram_.toNat := by omega
    simp [prepare_freq, corpusDelta, hg, h3]
  · intro g h1 h2
    have hg : g ≠ [] := by intro e; simp [e] at h1
    have h3 : ¬ (1 ≤ g.length ∧ g.length ≤ s.ngram_.toNat) := by omega
    simp [prepare_freq, corpusDelta, hg, h3]
  · intro g
    simp [prepare_freq, corpusDelta, occurrences_nil_right]


/-- C2 at the scorer constructed with `ngram = 2` and the reference `a b c`. -/
theorem prepare_adds_window_counts_witness :
    (prepare exFresh exRef []).freq_ ["b", "c"]
        = exFresh.freq_ ["b", "c"] + (occurrences ["b", "c"] exRef : Int) ∧
    (prepare exFresh exRef []).freq_ exRef = exFresh.freq_ exRef :=
  ⟨(prepare_adds_window_counts exFresh exRef []).1 ["b", "c"] (by decide) (by decide),
   (prepare_adds_window_counts exFresh exRef []).2.1 exRef (by decide) (by decide)⟩

/-- C3: in every state reached from construction by `prepare`, `calculate`, `getCumulative` and
`resetCumulative` calls, the count stored under the empty n-gram is the sum of the lengths of
the reference sentences that were passed to `prepare`. -/
theorem empty_count_is_total_prepared_length [DecidableEq W] [DoubleArith F]
    (params : List EvaluatorParam) (calls : List (Call W)) (s0 s : NISTEvaluator W F)
    (h0 : NISTEvaluator.create params = .ok s0) (hrun : run s0 calls = .ok s) :
    s.freq_ [] = (totalLength (preparedRefs calls) : Int) := by
  obtain ⟨_, rfl⟩ := create_ok params s0 h0
  have hfreq := (run_frame calls _ s hrun).2
  simp only [zero_add] at hfreq
  exact hfreq

/-- C3 at the scorer constructed with `ngram = 2`, after `prepare`, `calculate`,
`getCumulative`, `resetCumulative` and a second `prepare`. -/
theorem empty_count_is_total_prepared_length_witness :
    ∃ s, run exFresh [.prepare exRef [], .calculate exRef exHyp, .getCumulative,
        .resetCumulative, .prepare exHyp []] = .ok s ∧
      s.freq_ [] = (totalLength [exRef, exHyp] : Int) :=
  ⟨_, exRun, empty_count_is_total_prepared_length [⟨"ngram", 2⟩] _ exFresh _ rfl exRun⟩

/-- C5: the scenario with `ngram = 2`, reference `a b c` and hypothesis `a b` on a fresh scorer.
After `prepare` the table holds 3 under the empty n-gram, 1 under each of `a`, `b`, `c`, `a b`,
`b c` and 0 elsewhere; after `calculate` the denominators are 2 and 1 and the numerators are
`2 * ln 3` and 0; `getCumulative` returns a positive value, and returns the same value when it
is called after a first `getCumulative` call. -/
theorem scenario_ngram_two :
    NISTEvaluator.create [⟨"ngram", 2⟩] = .ok exFresh ∧
    (∀ g : Sentence String, (prepare exFresh exRef []).freq_ g =
      if g = [] then 3
      else if g ∈ [["a"], ["b"], ["c"], ["a", "b"], ["b", "c"]] then 1 else 0) ∧
    ∃ s1, calculate (prepare exFresh exRef []) exRef exHyp = .ok s1 ∧
      s1.denominators_ = [2, 1] ∧ s1.numerators_ = [2 * Real.log 3, 0] ∧
      ∃ v : ℝ, getCumulative s1 = .ok v ∧ 0 < v ∧
        (step s1 .getCumulative).bind getCumulative = .ok v := by
  refine ⟨rfl, exPrepared_freq, exScored, exPrepared_calculate, rfl, rfl, _,
    exScored_getCumulative, ?_, ?_⟩
  · apply mul_pos _ (brevityPenalty_pos _ _)
    have h2 : (0 : ℝ) < Real.log 2 := Real.log_pos (by norm_num)
    have h3 : (0 : ℝ) < Real.log 3 := Real.log_pos (by norm_num)
    have hval : infoScore exScored
        = 2 * Real.log 3 / (2 * Real.log 2) + 0 / (1 * Real.log 2) := by
      simp [infoScore, exScored, Finset.sum_filter, Finset.sum_range_succ]
    rw [hval]
    positivity
  · simp only [step, exScored_getCumulative]
    exact exScored_getCumulative

/-- C6: for a scorer with `ngram_ >= 0`, `resetCumulative` returns normally, keeps the count of
every n-gram and `ngram_`, and leaves `ngram_` zero entries in `numerators_` and in
`denominators_` and 0 in both length totals. -/
theorem resetCumulative_keeps_table [DoubleArith F] (s : NISTEvaluator W F)
    (hN : 0 ≤ s.ngram_) :
    ∃ s1, resetCumulative s = .ok s1 ∧
      (∀ g : Sentence W, s1.freq_ g = s.freq_ g) ∧ s1.ngram_ = s.ngram_ ∧
      s1.numerators_ = List.replicate s.ngram_.toNat (ofInt 0) ∧
      s1.denominators_ = List.replicate s.ngram_.toNat 0 ∧
      s1.total_len_ref_ = 0 ∧ s1.total_len_hyp_ = 0 := by
  rw [resetCumulative_unfold, if_neg (by omega)]
  exact ⟨_, rfl, fun _ => rfl, rfl, rfl, rfl, rfl, rfl⟩

/-- C6 at the scorer of the scenario after `calculate`. -/
theorem resetCumulative_keeps_table_witness :
    ∃ s1, resetCumulative exScored = .ok s1 ∧
      (∀ g : Sentence String, s1.freq_ g = exScored.freq_ g) ∧ s1.ngram_ = exScored.ngram_ ∧
      s1.numerators_ = List.replicate exScored.ngram_.toNat (ofInt 0) ∧
      s1.denominators_ = List.replicate exScored.ngram_.toNat 0 ∧
      s1.total_len_ref_ = 0 ∧ s1.total_len_hyp_ = 0 :=
  resetCumulative_keeps_table exScored (by decide)

/-- C7: `resetCumulative` followed by `getCumulative` returns exactly `0.0`, whatever the
frequency table and the accumulators were, on every scorer with `ngram_ >= 0`. This holds in
every arithmetic in which `0.0 < 0.0` is false and `0.0 * 1.0` is `0.0`. -/
theorem reset_then_getCumulative_zero [DoubleArith F]
    (hlt : flt (ofInt 0 : F) (ofInt 0) = false)
    (hmul : fmul (ofInt 0 : F) (ofInt 1) = ofInt 0)
    (s : NISTEvaluator W F) (hN : 0 ≤ s.ngram_) :
    ∃ s1, resetCumulative s = .ok s1 ∧ getCumulative s1 = .ok (ofInt 0) := by
  rw [resetCumulative_unfold, if_neg (by omega)]
  refine ⟨_, rfl, ?_⟩
  rw [getCumulative_unfold, scoreLoop_spec]
  · have hfold : ∀ (l : List Nat) (np : F) (log_2 : F),
        l.foldl (fun np n =>
          if flt (ofInt 0)
              (ofInt ((List.replicate s.ngram_.toNat (0 : Int)).getD n 0) : F) then
            fadd np (fdiv ((List.replicate s.ngram_.toNat (ofInt 0 : F)).getD n (ofInt 0))
              (fmul (ofInt ((List.replicate s.ngram_.toNat (0 : Int)).getD n 0)) log_2))
          else np) np = np := by
      intro l np log_2
      induction l generalizing np with
      | nil => rfl
      | cons a l ih =>
        have h0 : (List.replicate s.ngram_.toNat (0 : Int)).getD a 0 = 0 := by
          rw [List.getD_eq_getElem?_getD, List.getElem?_replicate]
          split <;> rfl
        rw [List.foldl_cons, h0, hlt]
        exact ih np
    simp only [hfold]
    simp only [brevityPenalty, hlt]
    rw [if_neg Bool.false_ne_true, hmul]
  · intro n hn
    rw [List.mem_range] at hn
    simp only [List.length_replicate]
    exact ⟨hn, hn⟩

/-- C7 over the reals, at the scorer of the scenario after `calculate`. -/
theorem reset_then_getCumulative_zero_witness :
    ∃ s1, resetCumulative exScored = .ok s1 ∧ getCumulative s1 = .ok (ofInt 0) :=
  reset_then_getCumulative_zero
    (by rw [Bool.eq_false_iff, Ne, real_flt]; exact lt_irrefl _)
    (by rw [real_fmul, real_ofInt, real_ofInt, Int.cast_zero, zero_mul])
    exScored (by decide)

/-- C8: `prepare(R1)` followed by `prepare(R2)` leaves the same count for every n-gram as
`prepare(R2)` followed by `prepare(R1)`. -/
theorem prepare_order_irrelevant [DecidableEq W] (s : NISTEvaluator W F)
    (r1 r2 h1 h2 : Sentence W) :
    (prepare (prepare s r1 h1) r2 h2).freq_ = (prepare (prepare s r2 h2) r1 h1).freq_ := by
  funext g
  have e1 : (prepare s r1 h1).ngram_ = s.ngram_ := rfl
  have e2 : (prepare s r2 h2).ngram_ = s.ngram_ := rfl
  rw [prepare_freq, prepare_freq, prepare_freq, prepare_freq, e1, e2]
  ring

/-- C9, as amended: on a prepared scorer whose accumulators were just reset, `calculate(r, h)`
returns normally twice and both vectors keep their `ngram_` entries. After the second call every
entry of `denominators_` and both length totals are exactly the double of what they are after
the first. For `n < min(ngram_, |h|)`, `numerators_[n]` is after the first call the running sum,
from `0.0`, of the weights of the matched n-grams in the order of the walk, and after the second
call the same running sum continued from that value; the other entries are the same after both
calls. Where the addition of `double` is a commutative monoid with zero `0.0` (no rounding),
every entry of `numerators_` after the second call is `x + x` for its value `x` after the
first. -/
theorem calculate_twice_doubles [DecidableEq W] [DoubleArith F] (s s0 : NISTEvaluator W F)
    (r h : Sentence W) (hp : s.freq_ [] ≠ 0) (hr : resetCumulative s = .ok s0) :
    ∃ s1 s2, calculate s0 r h = .ok s1 ∧ calculate s1 r h = .ok s2 ∧
      s1.denominators_.length = s.ngram_.toNat ∧ s2.denominators_.length = s.ngram_.toNat ∧
      s1.numerators_.length = s.ngram_.toNat ∧ s2.numerators_.length = s.ngram_.toNat ∧
      (∀ n : Nat, s2.denominators_[n]? = (s1.denominators_[n]?).map (fun d => 2 * d)) ∧
      s2.total_len_ref_ = 2 * s1.total_len_ref_ ∧
      s2.total_len_hyp_ = 2 * s1.total_len_hyp_ ∧
      (∀ n : Nat, (n : Int) < min s.ngram_ (h.length : Int) →
        s1.numerators_[n]? = some ((matchedNGrams r h n).foldl (fun a g =>
          fadd a (flog (fdiv (ofInt (s.freq_ (g.take n))) (ofInt (s.freq_ g))))) (ofInt 0)) ∧
        s2.numerators_[n]? = (s1.numerators_[n]?).map (fun x =>
          (matchedNGrams r h n).foldl (fun a g =>
            fadd a (flog (fdiv (ofInt (s.freq_ (g.take n))) (ofInt (s.freq_ g))))) x)) ∧
      (∀ n : Nat, min s.ngram_ (h.length : Int) ≤ (n : Int) →
        s2.numerators_[n]? = s1.numerators_[n]? ∧
        s1.numerators_[n]? = if n < s.ngram_.toNat then some (ofInt 0) else none) ∧
      (∀ [AddCommMonoid F], (∀ a b : F, fadd a b = a + b) → (ofInt 0 : F) = 0 →
        ∀ n : Nat, s2.numerators_[n]? = (s1.numerators_[n]?).map (fun x => x + x)) := by
  obtain ⟨s1, s2, c1, c2, l1, l2, l3, l4, hden, ht1, ht2, hn1, hn2⟩ :=
    calculate_twice_spec s s0 r h hp hr
  refine ⟨s1, s2, c1, c2, l1, l2, l3, l4, hden, ht1, ht2, ?_, ?_, ?_⟩
  · intro n hn
    have hlt : n < s.ngram_.toNat := by omega
    have e1 := hn1 n
    have e2 := hn2 n
    rw [if_pos hlt, if_pos hn] at e1 e2
    exact ⟨e1, by rw [e2, e1]; rfl⟩
  · intro n hn
    have hn' : ¬ (n : Int) < min s.ngram_ (h.length : Int) := by omega
    have e1 := hn1 n
    have e2 := hn2 n
    rw [if_neg hn'] at e1 e2
    exact ⟨e2.trans e1.symm, e1⟩
  · intro _ hadd h0 n
    rw [hn2 n, hn1 n]
    by_cases hlt : n < s.ngram_.toNat
    · rw [if_pos hlt, if_pos hlt, Option.map_some']
      by_cases hn : (n : Int) < min s.ngram_ (h.length : Int)
      · rw [if_pos hn, if_pos hn, gain_shift hadd s.freq_ r h n (gain s.freq_ r h n (ofInt 0)),
          h0]
      · rw [if_neg hn, if_neg hn, h0, add_zero]
    · rw [if_neg hlt, if_neg hlt]
      rfl

/-- C9, as amended, at the scenario with `XReal` as `double`: the prepared scorer `exPreparedX`,
reference `a b c`, hypothesis `a b`. -/
theorem calculate_twice_doubles_witness :
    exPreparedX.freq_ [] ≠ 0 ∧ resetCumulative exPreparedX = .ok exPreparedX ∧
    ∃ s1 s2, calculate exPreparedX exRef exHyp = .ok s1 ∧ calculate s1 exRef exHyp = .ok s2 ∧
      (∀ n : Nat, s2.denominators_[n]? = (s1.denominators_[n]?).map (fun d => 2 * d)) ∧
      s2.total_len_ref_ = 2 * s1.total_len_ref_ ∧
      s2.total_len_hyp_ = 2 * s1.total_len_hyp_ ∧
      (∀ n : Nat, s2.numerators_[n]? = (s1.numerators_[n]?).map (fun x => x + x)) := by
  refine ⟨by decide, rfl, ?_⟩
  obtain ⟨s1, s2, c1, c2, _, _, _, _, hden, ht1, ht2, _, _, hdbl⟩ :=
    calculate_twice_doubles exPreparedX exPreparedX exRef exHyp (by decide) rfl
  exact ⟨s1, s2, c1, c2, hden, ht1, ht2, hdbl (fun _ _ => rfl) (by rw [xreal_ofInt, Int.cast_zero]; rfl)⟩

/-- C9 as stated fails in binary64 (`B64`): on the scorer with `ngram = 2` prepared with the
reference `a b c` and freshly reset, `calculate` of `a b c` against itself leaves
`numerators_[0] = 0x1.a5ddfb8038490p+1` (three times `log(3.0)` added one by one), and a second
such call leaves `0x1.a5ddfb8038491p+2`, which is not the double `0x1.a5ddfb8038490p+2`. -/
theorem calculate_twice_not_double :
    exPreparedB.freq_ [] ≠ 0 ∧ resetCumulative exPreparedB = .ok exPreparedB ∧
    ∃ (s1 s2 : NISTEvaluator String B64) (x1 x2 : B64),
      calculate exPreparedB exRef exRef = .ok s1 ∧ calculate s1 exRef exRef = .ok s2 ∧
      s1.numerators_[0]? = some x1 ∧ s2.numerators_[0]? = some x2 ∧
      x1 = B64.fin ((0x1a5ddfb8038490 * 2 ^ 1023 : Nat) : Int) ∧
      x2 = B64.fin ((0x1a5ddfb8038491 * 2 ^ 1024 : Nat) : Int) ∧
      x2 ≠ fadd x1 x1 ∧ x2 ≠ fmul (ofInt 2) x1 := by
  refine ⟨by decide, rfl, ?_⟩
  obtain ⟨s1, s2, c1, c2, _, _, _, _, _, _, _, hn1, hn2⟩ :=
    calculate_twice_spec exPreparedB exPreparedB exRef exRef (by decide) rfl
  refine ⟨s1, s2, _, _, c1, c2, ?_, ?_, rfl, rfl, by decide!, by decide!⟩
  · rw [hn1 0, ← exPreparedB_gain_once]
    rfl
  · rw [hn2 0, ← exPreparedB_gain_twice]
    rfl

/-- C10: when `total_len_ref_ > 0` and `total_len_hyp_ >= total_len_ref_`, and also when
`total_len_ref_ = 0`, the brevity penalty is exactly 1 and `getCumulative` returns exactly the
informational score `np` (`infoScore`), on every scorer whose vectors have an entry for each
order index below `ngram_`. -/
theorem getCumulative_without_penalty (s : NISTEvaluator W ℝ)
    (hn : s.ngram_.toNat ≤ s.numerators_.length)
    (hd : s.ngram_.toNat ≤ s.denominators_.length)
    (hlen : (0 < s.total_len_ref_ ∧ s.total_len_ref_ ≤ s.total_len_hyp_)
      ∨ s.total_len_ref_ = 0) :
    (∀ beta : ℝ, brevityPenalty s beta = 1) ∧ getCumulative s = .ok (infoScore s) := by
  have hbp : ∀ beta : ℝ, brevityPenalty s beta = 1 := by
    intro beta
    apply brevityPenalty_eq_one
    omega
  refine ⟨hbp, ?_⟩
  rw [getCumulative_real s hn hd, hbp, mul_one]

/-- C10 at a scorer with equal totals (`exEven`, 3 and 3) and at one with a zero reference
total (`exFresh`). -/
theorem getCumulative_without_penalty_witness :
    ((∀ beta : ℝ, brevityPenalty exEven beta = 1) ∧
      getCumulative exEven = .ok (infoScore exEven)) ∧
    ((∀ beta : ℝ, brevityPenalty exFresh beta = 1) ∧
      getCumulative exFresh = .ok (infoScore exFresh)) :=
  ⟨getCumulative_without_penalty exEven (by decide) (by decide) (Or.inl (by decide)),
   getCumulative_without_penalty exFresh (by decide) (by decide) (Or.inr rfl)⟩

/-- C11, as amended: for a non-empty sentence `S` and a fresh scorer with `ngram_ >= 1`, after
`prepare(S)` and `calculate(S, S)` the unigram-order term
`numerators_[0] / (denominators_[0] * ln 2)` of `np` is positive when `S` holds two different
tokens and is 0 when all tokens of `S` are equal (it is never negative); `denominators_[0]` is
`|S|`, and the brevity penalty is 1. -/
theorem self_score_unigram_term [DecidableEq W] (params : List EvaluatorParam)
    (s0 : NISTEvaluator W ℝ) (S h0 : Sentence W)
    (hc : NISTEvaluator.create params = .ok s0) (hN : 1 ≤ s0.ngram_) (hS : S ≠ []) :
    ∃ s2 x, calculate (prepare s0 S h0) S S = .ok s2 ∧
      s2.numerators_[0]? = some x ∧ s2.denominators_[0]? = some (S.length : Int) ∧
      0 ≤ x / ((S.length : ℝ) * Real.log 2) ∧
      ((∃ a ∈ S, ∃ b ∈ S, a ≠ b) → 0 < x / ((S.length : ℝ) * Real.log 2)) ∧
      ((¬ ∃ a ∈ S, ∃ b ∈ S, a ≠ b) → x / ((S.length : ℝ) * Real.log 2) = 0) ∧
      ∀ beta : ℝ, brevityPenalty s2 beta = 1 := by
  obtain ⟨s2, hs2, hnum, hden, hr, hh⟩ := fresh_self_calculate params s0 S h0 hc hN hS
  have hlen : (0 : ℝ) < (S.length : ℝ) := by
    have : 0 < S.length := List.length_pos.2 hS
    exact_mod_cast this
  have hlog : (0 : ℝ) < Real.log 2 := Real.log_pos (by norm_num)
  have hden_pos : (0 : ℝ) < (S.length : ℝ) * Real.log 2 := mul_pos hlen hlog
  refine ⟨s2, selfInfo S, hs2, hnum, hden, ?_, ?_, ?_, ?_⟩
  · exact div_nonneg (selfInfo_nonneg S) hden_pos.le
  · intro hdist
    exact div_pos (selfInfo_pos S hdist) hden_pos
  · intro hsame
    rw [selfInfo_eq_zero S hsame, zero_div]
  · intro beta
    apply brevityPenalty_eq_one
    left
    rw [hr, hh]

/-- C11, as amended, at the scorer constructed with `ngram = 2` and the sentence `a b c`. -/
theorem self_score_unigram_term_witness :
    ∃ s2 x, calculate (prepare exFresh exRef []) exRef exRef = .ok s2 ∧
      s2.numerators_[0]? = some x ∧ s2.denominators_[0]? = some (exRef.length : Int) ∧
      0 ≤ x / ((exRef.length : ℝ) * Real.log 2) ∧
      ((∃ a ∈ exRef, ∃ b ∈ exRef, a ≠ b) → 0 < x / ((exRef.length : ℝ) * Real.log 2)) ∧
      ((¬ ∃ a ∈ exRef, ∃ b ∈ exRef, a ≠ b) → x / ((exRef.length : ℝ) * Real.log 2) = 0) ∧
      ∀ beta : ℝ, brevityPenalty s2 beta = 1 :=
  self_score_unigram_term [⟨"ngram", 2⟩] exFresh exRef [] rfl (by decide) (by decide)

/-- C11 as stated fails for the one-token sentence `a`: on the scorer constructed with
`ngram = 2`, after `prepare(a)` and `calculate(a, a)` the numerator of order 0 is
`ln(1 / 1) = 0`, so the unigram-order term is 0 and not positive. -/
theorem self_score_single_token_not_positive :
    NISTEvaluator.create [⟨"ngram", 2⟩] = .ok exFresh ∧ 1 ≤ exFresh.ngram_ ∧
    ∃ s2 x, calculate (prepare exFresh ["a"] []) ["a"] ["a"] = .ok s2 ∧
      s2.numerators_[0]? = some x ∧ s2.denominators_[0]? = some 1 ∧
      ¬ (0 < x / ((1 : ℝ) * Real.log 2)) := by
  refine ⟨rfl, by decide, ?_⟩
  obtain ⟨s2, hs2, hnum, hden, _, _⟩ :=
    fresh_self_calculate [⟨"ngram", 2⟩] exFresh ["a"] [] rfl (by decide) (by decide)
  refine ⟨s2, selfInfo ["a"], hs2, hnum, hden, ?_⟩
  have hsame : ¬ ∃ a ∈ (["a"] : Sentence String), ∃ b ∈ (["a"] : Sentence String), a ≠ b := by
    simp
  rw [selfInfo_eq_zero _ hsame, zero_div]
  exact lt_irrefl _

/-- C12: the constructor sets `ngram_` to 5 when no parameter is named `ngram`, and otherwise to
the `int_val` of a parameter named `ngram` (the last one in the list); parameters with another
name are ignored (the list without them constructs the same result); the constructed scorer has
an all-zero frequency table, `ngram_` zero entries in each vector and zero length totals. The
constructor returns normally when no `ngram` value is negative. -/
theorem constructor_reads_ngram [DoubleArith F] (params : List EvaluatorParam) :
    (NISTEvaluator.create params : Except Failure (NISTEvaluator W F))
      = NISTEvaluator.create (params.filter (fun p => decide (p.name = "ngram"))) ∧
    ((∀ p ∈ params, p.name = "ngram" → 0 ≤ p.int_val) →
      ∃ s0 : NISTEvaluator W F, NISTEvaluator.create params = .ok s0) ∧
    ∀ s0 : NISTEvaluator W F, NISTEvaluator.create params = .ok s0 →
      ((∀ p ∈ params, p.name ≠ "ngram") → s0.ngram_ = 5) ∧
      ((∃ p ∈ params, p.name = "ngram") →
        ∃ p ∈ params, p.name = "ngram" ∧ s0.ngram_ = p.int_val) ∧
      s0.ngram_ = (((params.filter (fun p => decide (p.name = "ngram"))).getLast?).map
        (fun p => p.int_val)).getD 5 ∧
      (∀ g : Sentence W, s0.freq_ g = 0) ∧
      s0.numerators_ = List.replicate s0.ngram_.toNat (ofInt 0) ∧
      s0.denominators_ = List.replicate s0.ngram_.toNat 0 ∧
      s0.total_len_ref_ = 0 ∧ s0.total_len_hyp_ = 0 := by
  refine ⟨?_, ?_, ?_⟩
  · rw [create_unfold, create_unfold, readNgram_filter]
  · intro hpos
    rw [create_unfold, if_neg (not_lt.2 (readNgram_nonneg params hpos))]
    exact ⟨_, rfl⟩
  · intro s0 h0
    obtain ⟨_, rfl⟩ := create_ok params s0 h0
    refine ⟨fun hno => readNgram_of_none params 5 hno,
      fun hsome => readNgram_of_some params 5 hsome,
      readNgram_eq_last params 5, fun _ => rfl, rfl, rfl, rfl, rfl⟩

/-- C12 at the parameter list `[beta = 1, ngram = 3, ngram = 2]`: the result is the scorer
`exFresh` with `ngram_ = 2`. -/
theorem constructor_reads_ngram_witness :
    NISTEvaluator.create [⟨"beta", 1⟩, ⟨"ngram", 3⟩, ⟨"ngram", 2⟩] = .ok exFresh ∧
    exFresh.ngram_ = 2 ∧ (∀ g : Sentence String, exFresh.freq_ g = 0) :=
  ⟨rfl,
   ((constructor_reads_ngram [⟨"beta", 1⟩, ⟨"ngram", 3⟩, ⟨"ngram", 2⟩]).2.2 exFresh rfl).2.2.1,
   ((constructor_reads_ngram [⟨"beta", 1⟩, ⟨"ngram", 3⟩, ⟨"ngram", 2⟩]).2.2 exFresh rfl).2.2.2.1⟩

/-- C13: a normal return of `calculate(r, h)` adds `|r|` to `total_len_ref_` and `|h|` to
`total_len_hyp_`, and adds `max(0, |h| - n)` to `denominators_[n]` for every order index
`n < ngram_`; no entry of `denominators_` decreases, and in every state reached from
construction no entry is negative. -/
theorem calculate_adds_lengths_and_positions [DecidableEq W] [DoubleArith F] :
    (∀ (s s1 : NISTEvaluator W F) (r h : Sentence W), calculate s r h = .ok s1 →
      s.freq_ [] ≠ 0 ∧
      s1.total_len_ref_ = s.total_len_ref_ + (r.length : Int) ∧
      s1.total_len_hyp_ = s.total_len_hyp_ + (h.length : Int) ∧
      (∀ n : Nat, (n : Int) < s.ngram_ →
        s1.denominators_[n]? =
          (s.denominators_[n]?).map (fun d => d + max 0 ((h.length : Int) - (n : Int)))) ∧
      (∀ (n : Nat) (d d1 : Int), s.denominators_[n]? = some d →
        s1.denominators_[n]? = some d1 → d ≤ d1)) ∧
    (∀ (params : List EvaluatorParam) (calls : List (Call W)) (s0 s : NISTEvaluator W F),
      NISTEvaluator.create params = .ok s0 → run s0 calls = .ok s →
      ∀ (n : Nat) (d : Int), s.denominators_[n]? = some d → 0 ≤ d) := by
  constructor
  · intro s s1 r h hc
    obtain ⟨a0, _, _, a3, a4, _⟩ := calculate_spec s s1 r h hc
    exact ⟨a0, a3, a4, fun n hn => denominators_added s s1 r h hc n hn,
      fun n d d1 hd hd1 => denominators_grow s s1 r h hc n d d1 hd hd1⟩
  · intro params calls s0 s h0 hrun
    refine denominatorsNonneg_run calls s0 s ?_ hrun
    obtain ⟨_, rfl⟩ := create_ok params s0 h0
    intro n d hd
    have hd2 : (List.replicate (readNgram params 5).toNat (0 : Int))[n]? = some d := hd
    rw [List.getElem?_replicate] at hd2
    split at hd2
    · cases hd2; exact le_refl _
    · cases hd2

/-- C13 at the scenario: `calculate` of `a b c` and `a b` on the prepared scorer. -/
theorem calculate_adds_lengths_and_positions_witness :
    calculate exPrepared exRef exHyp = .ok exScored ∧
    exScored.total_len_ref_ = exPrepared.total_len_ref_ + (exRef.length : Int) ∧
    exScored.denominators_[1]? =
      (exPrepared.denominators_[1]?).map
        (fun d => d + max 0 ((exHyp.length : Int) - ((1 : Nat) : Int))) :=
  ⟨exPrepared_calculate,
   (calculate_adds_lengths_and_positions.1 exPrepared exScored exRef exHyp
     exPrepared_calculate).2.1,
   (calculate_adds_lengths_and_positions.1 exPrepared exScored exRef exHyp
     exPrepared_calculate).2.2.2.1 1 (by decide)⟩

/-- C14: every run of calls from a constructed scorer returns normally and ends in a state in
which `ngram_ >= 0` and `numerators_` and `denominators_` hold exactly `ngram_` entries each, so
that the indices `n < min(ngram_, |h|)` of `calculate` and `n < ngram_` of `getCumulative` are
within both vectors: `calculate` never reads past the end and `getCumulative` returns a
value. -/
theorem vectors_hold_ngram_entries [DecidableEq W] [DoubleArith F]
    (params : List EvaluatorParam) (calls : List (Call W)) (s0 : NISTEvaluator W F)
    (h0 : NISTEvaluator.create params = .ok s0) :
    ∃ s, run s0 calls = .ok s ∧ 0 ≤ s.ngram_ ∧
      s.numerators_.length = s.ngram_.toNat ∧ s.denominators_.length = s.ngram_.toNat ∧
      (∀ (h : Sentence W) (n : Nat), (n : Int) < min s.ngram_ (h.length : Int) →
        n < s.numerators_.length ∧ n < s.denominators_.length) ∧
      (∀ n : Nat, (n : Int) < s.ngram_ →
        n < s.numerators_.length ∧ n < s.denominators_.length) ∧
      (∀ r h : Sentence W, calculate s r h ≠ .error .outOfRange) ∧
      ∃ v, getCumulative s = .ok v := by
  have hs0 := sized_create params s0 h0
  obtain ⟨s, hrun⟩ := run_total calls s0 hs0
  have hs := sized_run calls s0 s hs0 hrun
  refine ⟨s, hrun, hs.1, hs.2.1, hs.2.2, ?_, ?_, calculate_not_outOfRange s hs,
    getCumulative_succeeds s (by rw [hs.2.1]) (by rw [hs.2.2])⟩
  · intro h n hn
    rw [hs.2.1, hs.2.2]
    omega
  · intro n hn
    rw [hs.2.1, hs.2.2]
    omega

/-- C14 at the scorer constructed with `ngram = 2` and a run of five calls. -/
theorem vectors_hold_ngram_entries_witness :
    ∃ s, run exFresh [.prepare exRef [], .calculate exRef exHyp, .getCumulative,
        .resetCumulative, .prepare exHyp []] = .ok s ∧ 0 ≤ s.ngram_ ∧
      s.numerators_.length = s.ngram_.toNat ∧ s.denominators_.length = s.ngram_.toNat ∧
      (∀ (h : Sentence String) (n : Nat), (n : Int) < min s.ngram_ (h.length : Int) →
        n < s.numerators_.length ∧ n < s.denominators_.length) ∧
      (∀ n : Nat, (n : Int) < s.ngram_ →
        n < s.numerators_.length ∧ n < s.denominators_.length) ∧
      (∀ r h : Sentence String, calculate s r h ≠ .error .outOfRange) ∧
      ∃ v, getCumulative s = .ok v :=
  vectors_hold_ngram_entries [⟨"ngram", 2⟩] _ exFresh rfl

/-- C15: with `beta = -ln 2 / (ln 3 - ln 2)^2`, the brevity penalty of `getCumulative` is
exactly `1/2` over the reals whenever `total_len_hyp_ / total_len_ref_ = 2/3` with
`total_len_ref_ > 0`, and `getCumulative` then returns `np / 2`, on every scorer whose vectors
have an entry for each order index below `ngram_`. -/
theorem brevity_penalty_half_at_two_thirds (s : NISTEvaluator W ℝ)
    (hn : s.ngram_.toNat ≤ s.numerators_.length)
    (hd : s.ngram_.toNat ≤ s.denominators_.length)
    (hr : 0 < s.total_len_ref_)
    (h23 : (s.total_len_hyp_ : ℝ) / (s.total_len_ref_ : ℝ) = 2 / 3) :
    brevityPenalty s (-Real.log 2 / ((Real.log 3 - Real.log 2) * (Real.log 3 - Real.log 2)))
      = 1 / 2 ∧
    getCumulative s = .ok (infoScore s / 2) := by
  have hbp := brevityPenalty_two_thirds s hr h23
  refine ⟨hbp, ?_⟩
  rw [getCumulative_real s hn hd, hbp]
  congr 1
  ring

/-- C15 at the scorer of the scenario after `calculate`: the totals are 2 and 3. -/
theorem brevity_penalty_half_at_two_thirds_witness :
    brevityPenalty exScored
        (-Real.log 2 / ((Real.log 3 - Real.log 2) * (Real.log 3 - Real.log 2))) = 1 / 2 ∧
    getCumulative exScored = .ok (infoScore exScored / 2) :=
  brevity_penalty_half_at_two_thirds exScored (by decide) (by decide) (by decide)
    (by norm_num [exScored])

/-- C16: in every state reached from construction, an n-gram `g` of a length `n` from 1 to
`ngram_` has a count that is at most the count of its first `n - 1` tokens (the empty n-gram for
`n = 1`); hence `freq(context) / freq(ngram) >= 1` over the reals whenever `freq(ngram) > 0`. -/
theorem count_at_most_context_count [DecidableEq W] [DoubleArith F]
    (params : List EvaluatorParam) (calls : List (Call W)) (s0 s : NISTEvaluator W F)
    (h0 : NISTEvaluator.create params = .ok s0) (hrun : run s0 calls = .ok s)
    (g : Sentence W) (h1 : 1 ≤ g.length) (h2 : (g.length : Int) ≤ s.ngram_) :
    s.freq_ g ≤ s.freq_ (g.take (g.length - 1)) ∧
    (0 < s.freq_ g →
      (1 : ℝ) ≤ (s.freq_ (g.take (g.length - 1)) : ℝ) / (s.freq_ g : ℝ)) := by
  have htab := tableOf_run calls [] s0 s (tableOf_create params s0 h0) hrun
  have hle := tableOf_take_le _ s htab g h1 (by omega)
  refine ⟨hle, ?_⟩
  intro hpos
  have hpos2 : (0 : ℝ) < (s.freq_ g : ℝ) := by exact_mod_cast hpos
  rw [le_div_iff₀ hpos2, one_mul]
  exact_mod_cast hle

/-- C16 at the scenario: the bigram `a b` and its context `a` after `prepare` of `a b c`. -/
theorem count_at_most_context_count_witness :
    exScored.freq_ ["a", "b"] ≤ exScored.freq_ (["a", "b"].take (["a", "b"].length - 1)) ∧
    (0 < exScored.freq_ ["a", "b"] →
      (1 : ℝ) ≤ (exScored.freq_ (["a", "b"].take (["a", "b"].length - 1)) : ℝ)
        / (exScored.freq_ ["a", "b"] : ℝ)) :=
  count_at_most_context_count [⟨"ngram", 2⟩] [.prepare exRef [], .calculate exRef exHyp]
    exFresh exScored rfl exRunScored ["a", "b"] (by decide) (by decide)

/-- C17: `calculate(r, h)` adds to `numerators_[n]` the weights
`log(freq(context) / freq(ngram))` of the matched n-grams (`matchedNGrams r h n`). In a state
reached from construction by calls that include `prepare(r)`, every matched n-gram has a
positive count, so no divisor is zero. For a reference that was never prepared the divisor can
be zero: on the scorer prepared with `a b c`, `calculate` of the reference `d` and the hypothesis
`d` returns normally and matches the unigram `d`, whose count is 0. -/
theorem matched_count_positive_when_prepared [DecidableEq W] [DoubleArith F] :
    (∀ (s s1 : NISTEvaluator W F) (r h : Sentence W), calculate s r h = .ok s1 →
      ∀ n : Nat, (n : Int) < min s.ngram_ (h.length : Int) →
        s1.numerators_[n]? = (s.numerators_[n]?).map (fun x =>
          (matchedNGrams r h n).foldl (fun a g =>
            fadd a (flog (fdiv (ofInt (s.freq_ (g.take n))) (ofInt (s.freq_ g))))) x)) ∧
    (∀ (params : List EvaluatorParam) (calls : List (Call W)) (s0 s : NISTEvaluator W F)
      (r h : Sentence W), NISTEvaluator.create params = .ok s0 → run s0 calls = .ok s →
      r ∈ preparedRefs calls →
      ∀ n : Nat, (n : Int) < min s.ngram_ (h.length : Int) →
        ∀ g ∈ matchedNGrams r h n, 0 < s.freq_ g) ∧
    (run exFresh [.prepare exRef []] = .ok exPrepared ∧
      ["d"] ∉ preparedRefs [Call.prepare exRef []] ∧
      (∃ s1, calculate exPrepared ["d"] ["d"] = .ok s1) ∧
      ((0 : Nat) : Int) < min exPrepared.ngram_ ((["d"] : Sentence String).length : Int) ∧
      ["d"] ∈ matchedNGrams ["d"] ["d"] 0 ∧ exPrepared.freq_ ["d"] = 0) := by
  refine ⟨?_, ?_, ?_⟩
  · intro s s1 r h hc n hn
    obtain ⟨_, _, _, _, _, _, _, a7, _⟩ := calculate_spec s s1 r h hc
    rw [a7 n, if_pos hn]
    rfl
  · intro params calls s0 s r h h0 hrun hr n hn g hg
    have htab := tableOf_run calls [] s0 s (tableOf_create params s0 h0) hrun
    exact (matched_counts _ s htab r h (by simpa using hr) n (by omega) g hg).1
  · refine ⟨rfl, by decide, ?_, by decide, by decide, by decide⟩
    exact calculate_succeeds exPrepared ["d"] ["d"] (by decide) (by decide) (by decide)

/-- C17 at the scenario: the reference `a b c` was prepared, and the unigram `a` matched by
`calculate` of `a b c` and `a b` has a positive count. -/
theorem matched_count_positive_when_prepared_witness :
    ["a"] ∈ matchedNGrams exRef exHyp 0 ∧ 0 < exScored.freq_ ["a"] :=
  ⟨by decide,
   matched_count_positive_when_prepared.2.1 [⟨"ngram", 2⟩]
     [.prepare exRef [], .calculate exRef exHyp] exFresh exScored exRef exHyp rfl exRunScored
     (by decide) 0 (by decide) ["a"] (by decide)⟩

/-- C18, as amended, with `XReal` as `double` (IEEE 754 special values, exact arithmetic on
finite values): in every state reached from construction by calls in which each reference given
to `calculate` was given to `prepare` before, every entry of `numerators_` is a finite value
that is not negative; the weight that `calculate` adds for an n-gram matched against a prepared
reference is the logarithm of a ratio of counts that is at least 1, with a positive divisor; the
brevity penalty is a finite value in `[0, 1]`, and it is `0.0` when the reference total is
positive and the hypothesis total is 0; `getCumulative` returns the product of the informational
score and the penalty, a finite value that is not negative. -/
theorem score_nonneg_when_references_prepared [DecidableEq W]
    (params : List EvaluatorParam) (calls : List (Call W)) (s0 s : NISTEvaluator W XReal)
    (h0 : NISTEvaluator.create params = .ok s0) (hadm : refsPrepared [] calls)
    (hrun : run s0 calls = .ok s) :
    (∀ (n : Nat) (x : XReal), s.numerators_[n]? = some x →
      ∃ v : ℝ, x = XReal.fin v ∧ 0 ≤ v) ∧
    (∀ r h : Sentence W, r ∈ preparedRefs calls → ∀ n : Nat, (n : Int) < s.ngram_ →
      ∀ g ∈ matchedNGrams r h n,
        0 < s.freq_ g ∧ s.freq_ g ≤ s.freq_ (g.take n) ∧
        (flog (fdiv (ofInt (s.freq_ (g.take n))) (ofInt (s.freq_ g))) : XReal)
          = XReal.fin (Real.log ((s.freq_ (g.take n) : ℝ) / (s.freq_ g : ℝ))) ∧
        (1 : ℝ) ≤ (s.freq_ (g.take n) : ℝ) / (s.freq_ g : ℝ) ∧
        0 ≤ Real.log ((s.freq_ (g.take n) : ℝ) / (s.freq_ g : ℝ))) ∧
    ∃ p b : ℝ,
      (List.range s.ngram_.toNat).foldlM (scoreStep s (flog (ofInt 2))) (ofInt 0)
        = .ok (XReal.fin p) ∧ 0 ≤ p ∧
      brevityPenalty s nistBeta = XReal.fin b ∧ 0 ≤ b ∧ b ≤ 1 ∧
      (0 < s.total_len_ref_ → s.total_len_hyp_ = 0 → b = 0) ∧
      getCumulative s = .ok (XReal.fin (p * b)) ∧ 0 ≤ p * b := by
  obtain ⟨hsz, hnn, ht⟩ := prepared_run_xreal params calls s0 s h0 hadm hrun
  refine ⟨hnn, ?_, ?_⟩
  · intro r h hr n hn g hg
    have htab := tableOf_run calls [] s0 s (tableOf_create params s0 h0) hrun
    obtain ⟨h1, h2⟩ := matched_counts _ s htab r h (by simpa using hr) n hn g hg
    obtain ⟨e, e1, e0⟩ := weight_xreal (s.freq_ (g.take n)) (s.freq_ g) h1 h2
    exact ⟨h1, h2, e, e1, e0⟩
  · obtain ⟨p, b, hloop, hp0, hb, hb0, hb1, hbz, hget⟩ := getCumulative_xreal s hsz hnn ht
    exact ⟨p, b, hloop, hp0, hb, hb0, hb1, hbz, hget, mul_nonneg hp0 hb0⟩

/-- C18, as amended, at the scenario with `XReal` as `double`: `prepare` of `a b c`, then
`calculate` of `a b c` and `a b`. -/
theorem score_nonneg_when_references_prepared_witness :
    NISTEvaluator.create [⟨"ngram", 2⟩] = .ok exFreshX ∧
    refsPrepared [] [Call.prepare exRef [], Call.calculate exRef exHyp] ∧
    ∃ s : NISTEvaluator String XReal,
      run exFreshX [.prepare exRef [], .calculate exRef exHyp] = .ok s ∧
      (∀ (n : Nat) (x : XReal), s.numerators_[n]? = some x →
        ∃ v : ℝ, x = XReal.fin v ∧ 0 ≤ v) ∧
      ∃ p b : ℝ, brevityPenalty s nistBeta = XReal.fin b ∧ 0 ≤ b ∧ b ≤ 1 ∧
        getCumulative s = .ok (XReal.fin (p * b)) ∧ 0 ≤ p * b := by
  have hadm : refsPrepared [] [Call.prepare exRef [], Call.calculate exRef exHyp] := by
    simp [refsPrepared, exRef]
  refine ⟨rfl, hadm, ?_⟩
  obtain ⟨s, hs⟩ := run_total [Call.prepare exRef [], Call.calculate exRef exHyp] exFreshX
    ⟨by decide, rfl, rfl⟩
  obtain ⟨hnum, _, p, b, _, _, hb, hb0, hb1, _, hget, hv⟩ :=
    score_nonneg_when_references_prepared [⟨"ngram", 2⟩]
      [.prepare exRef [], .calculate exRef exHyp] exFreshX s rfl hadm hs
  exact ⟨s, hs, hnum, p, b, hb, hb0, hb1, hget, hv⟩

/-- C18 as stated fails with `XReal` as `double`: after construction with `ngram = 2`, `prepare`
of the reference `a` and `calculate` of `a` against the empty hypothesis (the reference was
prepared), the reference total is 1 and the hypothesis total is 0, so the penalty is
`exp(beta * log(0.0) * log(0.0)) = exp(-inf) = 0.0`: it is not above 0, and `getCumulative`
returns `0.0`. -/
theorem brevity_penalty_zero_for_empty_hypothesis :
    NISTEvaluator.create [⟨"ngram", 2⟩] = .ok exFreshX ∧
    refsPrepared [] [Call.prepare ["a"] [], Call.calculate ["a"] ([] : Sentence String)] ∧
    ∃ s : NISTEvaluator String XReal,
      run exFreshX [.prepare ["a"] [], .calculate ["a"] []] = .ok s ∧
      s.total_len_ref_ = 1 ∧ s.total_len_hyp_ = 0 ∧
      brevityPenalty s nistBeta = XReal.fin 0 ∧
      flt (ofInt 0) (brevityPenalty s nistBeta) = false ∧
      getCumulative s = .ok (XReal.fin 0) := by
  have hadm : refsPrepared [] [Call.prepare ["a"] [], Call.calculate ["a"] ([] : Sentence String)] := by
    simp [refsPrepared]
  refine ⟨rfl, hadm, ?_⟩
  obtain ⟨s, hs, hr, hh⟩ := exShortX_run
  obtain ⟨hsz, hnn, ht⟩ := prepared_run_xreal [⟨"ngram", 2⟩] _ exFreshX s rfl hadm hs
  obtain ⟨p, b, _, _, hb, _, _, hbz, hget⟩ := getCumulative_xreal s hsz hnn ht
  have hb0 : b = 0 := hbz (by rw [hr]; decide) hh
  subst hb0
  refine ⟨s, hs, hr, hh, hb, ?_, ?_⟩
  · rw [hb, xreal_flt, xreal_ofInt]
    simp [XReal.lt]
  · rw [hget, mul_zero]

/-- C19: `calculate(r, h)` leaves the count of every n-gram as it was, both when it returns
normally and when it raises the not-prepared error (the object then is as before the call);
`prepare` leaves `numerators_`, `denominators_`, `total_len_ref_` and `total_len_hyp_` as they
were. -/
theorem calculate_and_prepare_frames [DecidableEq W] [DoubleArith F] :
    (∀ (s s1 : NISTEvaluator W F) (r h : Sentence W), calculate s r h = .ok s1 →
      ∀ g : Sentence W, s1.freq_ g = s.freq_ g) ∧
    (∀ (s s1 : NISTEvaluator W F) (r h : Sentence W), step s (.calculate r h) = .ok s1 →
      ∀ g : Sentence W, s1.freq_ g = s.freq_ g) ∧
    (∀ (s : NISTEvaluator W F) (r h : Sentence W),
      (prepare s r h).numerators_ = s.numerators_ ∧
      (prepare s r h).denominators_ = s.denominators_ ∧
      (prepare s r h).total_len_ref_ = s.total_len_ref_ ∧
      (prepare s r h).total_len_hyp_ = s.total_len_hyp_) := by
  refine ⟨?_, ?_, ?_⟩
  · intro s s1 r h hc g
    rw [(calculate_spec s s1 r h hc).2.2.1]
  · intro s s1 r h hst g
    simp only [step] at hst
    split at hst
    · rename_i s2 hc
      cases hst
      rw [(calculate_spec s _ r h hc).2.2.1]
    · cases hst
      rfl
    · cases hst
  · intro s r h
    exact ⟨rfl, rfl, rfl, rfl⟩

/-- C19 at the scenario: the normal return on the prepared scorer and the not-prepared raise on
the fresh one. -/
theorem calculate_and_prepare_frames_witness :
    (∀ g : Sentence String, exScored.freq_ g = exPrepared.freq_ g) ∧
    step exFresh (.calculate exRef exHyp) = .ok exFresh ∧
    (∀ g : Sentence String, exFresh.freq_ g = exFresh.freq_ g) :=
  ⟨calculate_and_prepare_frames.1 exPrepared exScored exRef exHyp exPrepared_calculate,
   rfl,
   calculate_and_prepare_frames.2.1 exFresh exFresh exRef exHyp rfl⟩

/-- C20: in every state reached from a scorer constructed with `ngram_ >= 1`, `denominators_[0]`
is `total_len_hyp_`, and `denominators_[n + 1] <= denominators_[n]` for every `n + 1 < ngram_`
(both entries exist). -/
theorem denominators_form_staircase [DecidableEq W] [DoubleArith F]
    (params : List EvaluatorParam) (calls : List (Call W)) (s0 s : NISTEvaluator W F)
    (h0 : NISTEvaluator.create params = .ok s0) (hN : 1 ≤ s0.ngram_)
    (hrun : run s0 calls = .ok s) :
    s.denominators_[0]? = some s.total_len_hyp_ ∧
    ∀ n : Nat, (n : Int) + 1 < s.ngram_ →
      ∃ a b : Int, s.denominators_[n]? = some a ∧ s.denominators_[n + 1]? = some b ∧
        b ≤ a := by
  have hs0 := sized_create params s0 h0
  have hs := sized_run calls s0 s hs0 hrun
  have hst0 : Staircase s0 := by
    obtain ⟨_, hs0eq⟩ := create_ok params s0 h0
    rw [hs0eq] at hN ⊢
    constructor
    · show (List.replicate (readNgram params 5).toNat (0 : Int))[0]? = some 0
      rw [List.getElem?_replicate, if_pos (by simp only at hN; omega)]
    · intro n a b ha hb
      have ha2 : (List.replicate (readNgram params 5).toNat (0 : Int))[n]? = some a := ha
      have hb2 : (List.replicate (readNgram params 5).toNat (0 : Int))[n + 1]? = some b := hb
      rw [List.getElem?_replicate] at ha2 hb2
      split at ha2
      · split at hb2
        · cases ha2; cases hb2; exact le_refl _
        · cases hb2
      · cases ha2
  obtain ⟨_, h1, hmono⟩ := staircase_run calls s0 s hN hst0 hrun
  refine ⟨h1, ?_⟩
  intro n hn
  have hlt1 : n + 1 < s.denominators_.length := by rw [hs.2.2]; omega
  have hlt0 : n < s.denominators_.length := by omega
  refine ⟨s.denominators_[n], s.denominators_[n + 1], List.getElem?_eq_getElem hlt0,
    List.getElem?_eq_getElem hlt1, ?_⟩
  exact hmono n _ _ (List.getElem?_eq_getElem hlt0) (List.getElem?_eq_getElem hlt1)

/-- C20 at the scenario: the scorer constructed with `ngram = 2` after `prepare` and
`calculate`. -/
theorem denominators_form_staircase_witness :
    exScored.denominators_[0]? = some exScored.total_len_hyp_ ∧
    ∀ n : Nat, (n : Int) + 1 < exScored.ngram_ →
      ∃ a b : Int, exScored.denominators_[n]? = some a ∧
        exScored.denominators_[n + 1]? = some b ∧ b ≤ a :=
  denominators_form_staircase [⟨"ngram", 2⟩] [.prepare exRef [], .calculate exRef exHyp]
    exFresh exScored rfl (by decide) exRunScored

end Claims

end MTEval
